import Mathlib

/-!
# Reference-path construction: `src/reference/impl/buildReference.c`

A shallow embedding of `buildReferenceTopDown` and of the helpers it is made of.

The genome graph is an arena: a flower owns lists of ends, caps, blocks, groups, chains
and events, and an object is addressed by its position in the list that owns it (the
position plays the part of the C pointer, so two handles are the same object exactly
when they are equal).  Relations such as end -> group and cap -> adjacent cap are
handle-valued fields.  New objects are appended, so handles stay valid.

* `stIntTuple` is a list of naturals (`stIntTuple_construct (2, a, b)` is `[a, b]`);
  the one-element tuples stored in the node maps are the number they hold.
  Node ids are the values of the `int32_t` counter `endCount`, counted up from zero.
* `stHash` is an association list in insertion order; inserting an existing key
  replaces its entry.
* `assert` failures and reads through a `NULL` pointer end the run.  Functions that
  only read return `Option`; functions that change the flower return an `Outcome`,
  which keeps the flower as it is when the run ends.
-/

namespace BuildReference

/-! ## Data model -/

/-- An end: a stub end or a block end, attached or free, on one side, in at most one group. -/
structure End where
  name : Nat
  isBlockEnd : Bool
  isAttached : Bool
  side : Bool
  group : Option Nat
  block : Option Nat
  deriving DecidableEq, Repr

/-- A cap: the instance of an end for one event, with at most one adjacent cap. -/
structure Cap where
  ofEnd : Nat
  event : Nat
  adjacency : Option Nat
  strand : Bool
  deriving DecidableEq, Repr

/-- A block: two ends and one segment (recorded by its event name) per instance. -/
structure Block where
  name : Nat
  length : Nat
  end5 : Nat
  end3 : Nat
  segments : List Nat
  deriving DecidableEq, Repr

/-- A link of a chain, between a 5' end and a 3' end. -/
structure Link where
  end5 : Nat
  end3 : Nat
  deriving DecidableEq, Repr

/-- A group is a link group when it carries a link and a tangle group otherwise. -/
structure Group where
  name : Nat
  link : Option Link
  deriving DecidableEq, Repr

/-- A chain: its links in order. -/
structure Chain where
  links : List Link
  deriving DecidableEq, Repr

/-- An event of an event tree. -/
structure Event where
  name : Nat
  header : String
  branchLength : Nat
  parent : Option Nat
  deriving DecidableEq, Repr

/-- An event tree: the name of its root event and its events in iteration order. -/
structure EventTree where
  rootEvent : Nat
  events : List Event
  deriving DecidableEq, Repr

/-- The parent group of a flower: its ends, and the event tree of the flower it lies in. -/
structure ParentGroup where
  ends : List End
  eventTree : EventTree
  deriving DecidableEq, Repr

/-- A flower. `nextName` is the next unused name of the unique-name supply. -/
structure Flower where
  ends : List End
  caps : List Cap
  blocks : List Block
  groups : List Group
  chains : List Chain
  eventTree : EventTree
  parent : Option ParentGroup
  nextName : Nat
  deriving DecidableEq, Repr

/-- The result of a step that changes the flower: it completes with a value and the
new flower, or the run ends at a failed check with the flower as it then is. -/
inductive Outcome (α : Type) where
  | ok (val : α) (flower : Flower)
  | abort (flower : Flower)
  deriving DecidableEq, Repr

/-- The flower an outcome leaves behind. -/
def Outcome.flower {α : Type} : Outcome α → Flower
  | .ok _ f => f
  | .abort f => f

/-- Whether the step completed. -/
def Outcome.isOk {α : Type} : Outcome α → Bool
  | .ok _ _ => true
  | .abort _ => false

/-- The largest `int32_t`. -/
def INT32_MAX : Nat := 2147483647

/-! ## sonLib containers -/

/-- An `stIntTuple`. -/
abbrev stIntTuple := List Nat

/-- An `stHash`, as an association list in insertion order. -/
abbrev stHash := List (Nat × Nat)

/-- Reads position `i` of a tuple; reading past its length fails. -/
def stIntTuple_getPosition (t : stIntTuple) (i : Nat) : Option Nat := t[i]?

/-- Lexicographic comparison of two tuples; a proper initial segment comes first. -/
def stIntTuple_cmpFn : stIntTuple → stIntTuple → Ordering
  | [], [] => .eq
  | [], _ :: _ => .lt
  | _ :: _, [] => .gt
  | a :: s, b :: t => if a < b then .lt else if b < a then .gt else stIntTuple_cmpFn s t

/-- Looks a key up. -/
def stHash_search (h : stHash) (k : Nat) : Option Nat := h.lookup k

/-- Inserts a key with its value, replacing the entry of the key if there is one. -/
def stHash_insert (h : stHash) (k v : Nat) : stHash :=
  h.filter (fun p => p.1 != k) ++ [(k, v)]

/-- The number of keys. -/
def stHash_size (h : stHash) : Nat := h.length

/-- The values, in iteration order. -/
def stHash_getValues (h : stHash) : List Nat := h.map (fun p => p.2)

/-- The keys, in iteration order. -/
def stHash_getKeys (h : stHash) : List Nat := h.map (fun p => p.1)

/-- Inserts into a sorted set kept as an ascending list without repeats. -/
def stSortedSet_insert (s : List Nat) (x : Nat) : List Nat :=
  if x ∈ s then s else List.orderedInsert (fun a b => a ≤ b) x s

/-- The sorted set of the elements of a list. -/
def stList_getSortedSet (l : List Nat) : List Nat := l.foldl stSortedSet_insert []

/-- Sorts a list of tuples in ascending order of `stIntTuple_cmpFn`. -/
def stList_sort (l : List stIntTuple) : List stIntTuple :=
  l.insertionSort (fun a b => stIntTuple_cmpFn a b ≠ .gt)

/-! ## Reading the graph -/

/-- The group of an end, if it has one. -/
def end_getGroup (f : Flower) (e : Nat) : Option Nat := f.ends[e]?.bind (fun x => x.group)

/-- Whether a group has no link. -/
def group_isTangle (g : Group) : Bool := g.link.isNone

/-- Whether a group has a link. -/
def group_isLink (g : Group) : Bool := g.link.isSome

/-- The groups of a flower, in iteration order. -/
def flower_getGroupIterator (f : Flower) : List Nat := List.range f.groups.length

/-- The ends of a flower, in iteration order. -/
def flower_getEndIterator (f : Flower) : List Nat := List.range f.ends.length

/-- The ends of a group, in iteration order: the ends whose group it is. -/
def group_getEndIterator (f : Flower) (g : Nat) : List Nat :=
  (List.range f.ends.length).filter (fun e => end_getGroup f e == some g)

/-- The number of ends of a group. -/
def group_getEndNumber (f : Flower) (g : Nat) : Nat := (group_getEndIterator f g).length

/-- The caps of an end, in iteration order. -/
def end_getInstanceIterator (f : Flower) (e : Nat) : List Nat :=
  (List.range f.caps.length).filter (fun c => f.caps[c]?.map (fun x => x.ofEnd) == some e)

/-- The first end of the flower with the given name. -/
def flower_getEnd (f : Flower) (name : Nat) : Option Nat :=
  (flower_getEndIterator f).find? (fun e => f.ends[e]?.map (fun x => x.name) == some name)

/-- The first end of the parent group with the given name. -/
def group_getEnd (pg : ParentGroup) (name : Nat) : Option End :=
  pg.ends.find? (fun x => x.name == name)

/-- The number of ends of the flower that are attached stub ends. -/
def flower_getAttachedStubEndNumber (f : Flower) : Nat :=
  (f.ends.filter (fun x => x.isAttached && !x.isBlockEnd)).length

/-- The ends visited by `iterateOverTangleEnds`, in the order it passes them to `fn`. -/
def iterateOverTangleEnds (f : Flower) : List Nat :=
  (flower_getGroupIterator f).flatMap (fun g =>
    match f.groups[g]? with
    | some grp => if group_isTangle grp then group_getEndIterator f g else []
    | none => [])

/-! ## Node mapper -/

/-- The callback of `getMapOfTangleEndsToNodes`: the end gets the next id. -/
def getMapOfTangleEndsToIntegersP (e : Nat) (st : stHash × Nat) : stHash × Nat :=
  (stHash_insert st.1 e st.2, st.2 + 1)

/-- Maps each tangle end to its own node id. -/
def getMapOfTangleEndsToNodes (f : Flower) : stHash :=
  ((iterateOverTangleEnds f).foldl (fun st e => getMapOfTangleEndsToIntegersP e st) ([], 0)).1

/-- The body of the loop of `getMapOfNodesToTangleEnds`: the node of the end becomes a
key with the end as its value. -/
def getMapOfNodesToTangleEnds_step (endsToNodes nodesToEnds : stHash) (e : Nat) : stHash :=
  match stHash_search endsToNodes e with
  | some node => stHash_insert nodesToEnds node e
  | none => nodesToEnds

/-- Inverts the map from ends to nodes. -/
def getMapOfNodesToTangleEnds (endsToNodes : stHash) : stHash :=
  (stHash_getKeys endsToNodes).foldl (getMapOfNodesToTangleEnds_step endsToNodes) []

/-- The end of a node id; the run ends if there is none. -/
def getEndFromNode (nodesToEnds : stHash) (node : Nat) : Option Nat :=
  stHash_search nodesToEnds node

/-! ## Edge extractor -/

/-- The edge of two node ids, smaller id first. -/
def getEdge2 (node1 node2 : Nat) : stIntTuple :=
  if node1 < node2 then [node1, node2] else [node2, node1]

/-- The edge of two ends; reading the id of an end that has none fails. -/
def getEdge (end1 end2 : Nat) (endsToNodes : stHash) : Option stIntTuple :=
  match stHash_search endsToNodes end1, stHash_search endsToNodes end2 with
  | some node1, some node2 => some (getEdge2 node1 node2)
  | _, _ => none

/-- Removes a node from the set if it is there. -/
def getArbitraryStubEdgesP (nodesSet : List Nat) (node : Nat) : List Nat :=
  if node ∈ nodesSet then nodesSet.erase node else nodesSet

/-- The filter loop of `getArbitraryStubEdges`: drops both nodes of every chain edge. -/
def getArbitraryStubEdges_filter : List stIntTuple → List Nat → Option (List Nat)
  | [], nodesSet => some nodesSet
  | edge :: rest, nodesSet =>
    match stIntTuple_getPosition edge 0, stIntTuple_getPosition edge 1 with
    | some a, some b =>
      getArbitraryStubEdges_filter rest
        (getArbitraryStubEdgesP (getArbitraryStubEdgesP nodesSet a) b)
    | _, _ => none

/-- The pairing loop of `getArbitraryStubEdges`: nodes `i` and `i + 1`, for even `i`. -/
def getArbitraryStubEdges_pair : List Nat → List stIntTuple
  | a :: b :: rest => getEdge2 a b :: getArbitraryStubEdges_pair rest
  | _ => []

/-- Pairs the nodes that are in no chain edge, two at a time in ascending order. -/
def getArbitraryStubEdges (endsToNodes : stHash) (chainEdges : List stIntTuple) :
    Option (List stIntTuple) :=
  match getArbitraryStubEdges_filter chainEdges
      (stList_getSortedSet (stHash_getValues endsToNodes)) with
  | none => none
  | some nodesSet =>
    if 0 < nodesSet.length ∧ nodesSet.length % 2 = 0 then
      some (getArbitraryStubEdges_pair nodesSet)
    else none

/-- The first cap of the end whose event has the name of the given event. -/
def getCapWithEvent (f : Flower) (e : Nat) (event : Event) : Option Nat :=
  (end_getInstanceIterator f e).find?
    (fun c => f.caps[c]?.map (fun x => x.event) == some event.name)

/-- The cap adjacent to a cap, if any. -/
def cap_getAdjacency (f : Flower) (c : Nat) : Option Nat := f.caps[c]?.bind (fun x => x.adjacency)

/-- The end of a cap. -/
def cap_getEnd (f : Flower) (c : Nat) : Option Nat := f.caps[c]?.map (fun x => x.ofEnd)

/-- Modelled from the spec: the orientation flag of a cap, which the graph model keeps
(`cap_getStrand`, `cap_getReverse` and `cap_getSide` are declared in `cactus.h` and not
defined in `buildReference.c`).
The cap is taken on its positive strand (`cap_getStrand (cap) ? cap : cap_getReverse (cap)`)
and its side is read there; reversing a cap negates its strand and its side and keeps
its end and its adjacency. -/
def cap_getSideOnPositiveStrand (f : Flower) (c : Nat) : Option Bool :=
  match f.caps[c]? with
  | none => none
  | some cap =>
    match f.ends[cap.ofEnd]? with
    | none => none
    | some en => some (if cap.strand then en.side else !en.side)

/-- The end adjacent to an attached stub end, read from the reference adjacency. -/
def getAdjacentEndFromParent (f : Flower) (e : Nat) (referenceEvent : Event) : Option Nat :=
  match f.parent, f.ends[e]? with
  | some parentGroup, some en =>
    match group_getEnd parentGroup en.name with
    | none => none
    | some _ =>
      match getCapWithEvent f e referenceEvent with
      | none => none
      | some cap =>
        match cap_getAdjacency f cap with
        | none => none
        | some adjacentCap =>
          match cap_getEnd f adjacentCap with
          | none => none
          | some adjacentParentEnd =>
            match f.ends[adjacentParentEnd]? with
            | none => none
            | some aen => flower_getEnd f aen.name
  | _, _ => none

/-- Whether the group of an end exists and is a tangle group (`none`: no group to read). -/
def end_groupIsTangle (f : Flower) (e : Nat) : Option Bool :=
  match end_getGroup f e with
  | none => none
  | some g => f.groups[g]?.map group_isTangle

/-- The loop of `getStubEdgesFromParent` over the ends of the flower. -/
def getStubEdgesFromParent_loop (f : Flower) (endsToNodes : stHash) (referenceEvent : Event) :
    List Nat → List Nat → List stIntTuple → Option (List stIntTuple)
  | [], _, stubEdges => some stubEdges
  | e :: rest, endsSeen, stubEdges =>
    match f.ends[e]? with
    | none => none
    | some en =>
      if en.isAttached && !en.isBlockEnd && !endsSeen.contains e then
        match getAdjacentEndFromParent f e referenceEvent with
        | none => none
        | some adjacentEnd =>
          if end_groupIsTangle f e = some true ∧ end_groupIsTangle f adjacentEnd = some true
              ∧ ¬ adjacentEnd ∈ endsSeen ∧ adjacentEnd ≠ e then
            match getEdge e adjacentEnd endsToNodes with
            | none => none
            | some edge =>
              getStubEdgesFromParent_loop f endsToNodes referenceEvent rest
                (adjacentEnd :: e :: endsSeen) (stubEdges ++ [edge])
          else none
      else getStubEdgesFromParent_loop f endsToNodes referenceEvent rest endsSeen stubEdges

/-- The stub edges of a flower with a parent: each attached stub end with the end its
reference cap is adjacent to. -/
def getStubEdgesFromParent (f : Flower) (endsToNodes : stHash) (referenceEvent : Event) :
    Option (List stIntTuple) :=
  getStubEdgesFromParent_loop f endsToNodes referenceEvent (flower_getEndIterator f) [] []

/-- Whether an end is a block end (`none`: no end to read). -/
def end_isBlockEnd (f : Flower) (e : Nat) : Option Bool := f.ends[e]?.map (fun x => x.isBlockEnd)

/-- The block of an end. -/
def end_getBlock (f : Flower) (e : Nat) : Option Nat := f.ends[e]?.bind (fun x => x.block)

/-- The other end of the block of a block end. -/
def end_getOtherBlockEnd (f : Flower) (e : Nat) : Option Nat :=
  match end_getBlock f e with
  | none => none
  | some b =>
    match f.blocks[b]? with
    | none => none
    | some blk => some (if blk.end5 = e then blk.end3 else blk.end5)

/-- The loop of `getNonTrivialChainEdges` over the chains of the flower. -/
def getNonTrivialChainEdges_loop (f : Flower) (endsToNodes : stHash) :
    List Chain → List stIntTuple → Option (List stIntTuple)
  | [], chainEdges => some chainEdges
  | chain :: rest, chainEdges =>
    match chain.links.head?, chain.links.getLast? with
    | some first, some last =>
      match end_isBlockEnd f first.end5, end_isBlockEnd f last.end3 with
      | some b5, some b3 =>
        if b5 && b3 then
          match end_getOtherBlockEnd f first.end5, end_getOtherBlockEnd f last.end3 with
          | some end1, some end2 =>
            match getEdge end1 end2 endsToNodes with
            | none => none
            | some edge => getNonTrivialChainEdges_loop f endsToNodes rest (chainEdges ++ [edge])
          | _, _ => none
        else getNonTrivialChainEdges_loop f endsToNodes rest chainEdges
      | _, _ => none
    | _, _ => none

/-- Appends the edge between the outward ends of each chain that ends in block ends. -/
def getNonTrivialChainEdges (f : Flower) (endsToNodes : stHash) (chainEdges : List stIntTuple) :
    Option (List stIntTuple) :=
  getNonTrivialChainEdges_loop f endsToNodes f.chains chainEdges

/-- Whether the group of an end exists and is a link group (`none`: no group to read). -/
def end_groupIsLink (f : Flower) (e : Nat) : Option Bool :=
  match end_getGroup f e with
  | none => none
  | some g => f.groups[g]?.map group_isLink

/-- The loop of `getTrivialChainEdges` over the blocks of the flower. -/
def getTrivialChainEdges_loop (f : Flower) (endsToNodes : stHash) :
    List Block → List stIntTuple → Option (List stIntTuple)
  | [], chainEdges => some chainEdges
  | block :: rest, chainEdges =>
    match end_groupIsTangle f block.end5 with
    | none => none
    | some true =>
      if end_groupIsTangle f block.end3 = some true then
        match getEdge block.end5 block.end3 endsToNodes with
        | none => none
        | some edge => getTrivialChainEdges_loop f endsToNodes rest (chainEdges ++ [edge])
      else none
    | some false =>
      if end_groupIsLink f block.end3 = some true then
        getTrivialChainEdges_loop f endsToNodes rest chainEdges
      else none

/-- Appends the edge between the two ends of each block whose ends are tangle ends. -/
def getTrivialChainEdges (f : Flower) (endsToNodes : stHash) (chainEdges : List stIntTuple) :
    Option (List stIntTuple) :=
  getTrivialChainEdges_loop f endsToNodes f.blocks chainEdges

/-- The chain edges of the flower. -/
def getChainEdges (f : Flower) (endsToNodes : stHash) : Option (List stIntTuple) :=
  match getNonTrivialChainEdges f endsToNodes [] with
  | none => none
  | some chainEdges => getTrivialChainEdges f endsToNodes chainEdges

/-- The loop of `getAdjacencyEdgesP` over the caps of one end. -/
def getAdjacencyEdgesP_loop (f : Flower) (endToInts : stHash) (e : Nat) :
    List Nat → List stIntTuple → Option (List stIntTuple)
  | [], adjacencyEdges => some adjacencyEdges
  | cap :: rest, adjacencyEdges =>
    match cap_getSideOnPositiveStrand f cap with
    | none => none
    | some true =>
      match (cap_getAdjacency f cap).bind (cap_getEnd f) with
      | none => none
      | some adjacentEnd =>
        match getEdge e adjacentEnd endToInts with
        | none => none
        | some edge => getAdjacencyEdgesP_loop f endToInts e rest (adjacencyEdges ++ [edge])
    | some false => getAdjacencyEdgesP_loop f endToInts e rest adjacencyEdges

/-- The callback of `getAdjacencyEdges`: one raw edge for each cap of the end that is on
the counted side. -/
def getAdjacencyEdgesP (f : Flower) (endToInts : stHash) (e : Nat)
    (adjacencyEdges : List stIntTuple) : Option (List stIntTuple) :=
  getAdjacencyEdgesP_loop f endToInts e (end_getInstanceIterator f e) adjacencyEdges

/-- The raw adjacency edges collected over the tangle ends. -/
def getAdjacencyEdges_raw (f : Flower) (endsToNodes : stHash) :
    List Nat → List stIntTuple → Option (List stIntTuple)
  | [], adjacencyEdges => some adjacencyEdges
  | e :: rest, adjacencyEdges =>
    match getAdjacencyEdgesP f endsToNodes e adjacencyEdges with
    | none => none
    | some adjacencyEdges1 => getAdjacencyEdges_raw f endsToNodes rest adjacencyEdges1

/-- The locals of `getAdjacencyEdges` that its merge loop works on. -/
structure MergeState where
  adjacencyEdges : List stIntTuple
  weightedAdjacencyEdges : List stIntTuple
  weight : Nat
  edge : Option stIntTuple
  deriving DecidableEq, Repr

/-- The weighted edge built from an edge and its weight. -/
def weightedEdge (edge : stIntTuple) (weight : Nat) : Option stIntTuple :=
  match stIntTuple_getPosition edge 0, stIntTuple_getPosition edge 1 with
  | some a, some b => some [a, b, weight]
  | _, _ => none

/-- The merge loop of `getAdjacencyEdges`: pops the last edge while there is one; the
number of rounds is bounded by the length of the list it starts from. -/
def getAdjacencyEdges_merge : Nat → MergeState → Option MergeState
  | 0, st => some st
  | rounds + 1, st =>
    match st.adjacencyEdges.getLast? with
    | none => some st
    | some edge2 =>
      match st.edge with
      | none =>
        getAdjacencyEdges_merge rounds
          { st with adjacencyEdges := st.adjacencyEdges.dropLast, edge := some edge2, weight := 1 }
      | some edge =>
        if stIntTuple_cmpFn edge edge2 = .eq then
          getAdjacencyEdges_merge rounds
            { st with adjacencyEdges := st.adjacencyEdges.dropLast, weight := st.weight + 1 }
        else
          match weightedEdge edge st.weight with
          | none => none
          | some w =>
            getAdjacencyEdges_merge rounds
              { adjacencyEdges := st.adjacencyEdges.dropLast,
                weightedAdjacencyEdges := st.weightedAdjacencyEdges ++ [w],
                weight := 1, edge := some edge2 }

/-- The locals of `getAdjacencyEdges` when it reaches its `return`. -/
def getAdjacencyEdges_locals (f : Flower) (endsToNodes : stHash) : Option MergeState :=
  match getAdjacencyEdges_raw f endsToNodes (iterateOverTangleEnds f) [] with
  | none => none
  | some raw =>
    let sorted := stList_sort raw
    match getAdjacencyEdges_merge sorted.length
        { adjacencyEdges := sorted, weightedAdjacencyEdges := [], weight := 0, edge := none } with
    | none => none
    | some st =>
      match st.edge with
      | none => some st
      | some edge =>
        match weightedEdge edge st.weight with
        | none => none
        | some w => some { st with weightedAdjacencyEdges := st.weightedAdjacencyEdges ++ [w] }

/-- The adjacency edges of the flower: the function returns its local `adjacencyEdges`. -/
def getAdjacencyEdges (f : Flower) (endsToNodes : stHash) : Option (List stIntTuple) :=
  (getAdjacencyEdges_locals f endsToNodes).map (fun st => st.adjacencyEdges)

/-! ## Changing the graph

The constructors and setters of the graph model are declared in `cactus.h` and not
defined in `buildReference.c`;
each is modelled from what the specification says of the data model. -/

/-- Modelled from the spec: `end_setGroup`, declared in `cactus.h`.
"Every end belongs to exactly one group": the group of the end is replaced. -/
def end_setGroup (f : Flower) (e : Nat) (g : Option Nat) : Flower :=
  match f.ends[e]? with
  | none => f
  | some en => { f with ends := f.ends.set e { en with group := g } }

/-- Modelled from the spec: `block_construct`, declared in `cactus.h`.
"Block: an aligned column; exactly two ends (5', 3'); owns zero or more segments": a new
block with two new block ends that have no group yet, named from the name supply. -/
def block_construct (length : Nat) (f : Flower) : Nat × Flower :=
  (f.blocks.length,
    { f with
      ends := f.ends ++
        [{ name := f.nextName + 1, isBlockEnd := true, isAttached := true, side := true,
           group := none, block := some f.blocks.length },
         { name := f.nextName + 2, isBlockEnd := true, isAttached := true, side := false,
           group := none, block := some f.blocks.length }],
      blocks := f.blocks ++
        [{ name := f.nextName, length := length, end5 := f.ends.length,
           end3 := f.ends.length + 1, segments := [] }],
      nextName := f.nextName + 3 })

/-- The 5' end of a block. -/
def block_get5End (f : Flower) (b : Nat) : Option Nat := f.blocks[b]?.map (fun x => x.end5)

/-- The 3' end of a block. -/
def block_get3End (f : Flower) (b : Nat) : Option Nat := f.blocks[b]?.map (fun x => x.end3)

/-- Modelled from the spec: `end_copyConstruct`, declared in `cactus.h`.
"copy it into the flower as a new, ungrouped end": a new end with the name and the kind
of the parent end, without group. -/
def end_copyConstruct (parentEnd : End) (f : Flower) : Nat × Flower :=
  (f.ends.length,
    { f with ends := f.ends ++ [{ parentEnd with group := none, block := none }] })

/-- Modelled from the spec: `cap_construct`, declared in `cactus.h`.
"Cap: a per-event instantiation of an end; carries at most one adjacency relation
(symmetric, unset until resolved)": a new cap of the end for the event, not adjacent. -/
def cap_construct (f : Flower) (e : Nat) (event : Event) : Nat × Flower :=
  (f.caps.length,
    { f with caps := f.caps ++
        [{ ofEnd := e, event := event.name, adjacency := none, strand := true }] })

/-- Modelled from the spec: `segment_construct`, declared in `cactus.h`.
"Block: owns zero or more segments, one per genome instance passing through": a new
segment of the block for the event, with a new cap on each of the two ends of the block. -/
def segment_construct (f : Flower) (b : Nat) (event : Event) : Option Flower :=
  match f.blocks[b]? with
  | none => none
  | some blk =>
    some { f with
      caps := f.caps ++
        [{ ofEnd := blk.end5, event := event.name, adjacency := none, strand := true },
         { ofEnd := blk.end3, event := event.name, adjacency := none, strand := true }],
      blocks := f.blocks.set b { blk with segments := blk.segments ++ [event.name] } }

/-- Sets the adjacency field of one cap. -/
def cap_setAdjacency (f : Flower) (c : Nat) (a : Option Nat) : Flower :=
  match f.caps[c]? with
  | none => f
  | some cap => { f with caps := f.caps.set c { cap with adjacency := a } }

/-- Modelled from the spec: `cap_makeAdjacent`, declared in `cactus.h`.
"Cap: carries at most one adjacency relation (symmetric, unset until resolved) linking
it to exactly one other cap": each of the two caps becomes the adjacency of the other;
a cap cannot be made adjacent to itself. -/
def cap_makeAdjacent (f : Flower) (cap1 cap2 : Nat) : Option Flower :=
  if cap1 = cap2 then none
  else some (cap_setAdjacency (cap_setAdjacency f cap1 (some cap2)) cap2 (some cap1))

/-- Modelled from the spec: `event_construct` and `event_construct3`, declared in
`cactus.h`. "get or construct an event by identifying header, parented to an
ancestor event": a new event of the event tree below the given parent event. -/
def event_construct (name : Nat) (header : String) (branchLength : Nat) (parentEvent : Nat)
    (f : Flower) : Event × Flower :=
  let event : Event :=
    { name := name, header := header, branchLength := branchLength, parent := some parentEvent }
  (event, { f with eventTree := { f.eventTree with events := f.eventTree.events ++ [event] } })

/-! ## Topology normalizer -/

/-- The loop of `getExtraAttachedStubsFromParent` over the ends of the parent group. -/
def getExtraAttachedStubsFromParent_loop : List End → List Nat → Flower → List Nat × Flower
  | [], newEnds, f => (newEnds, f)
  | parentEnd :: rest, newEnds, f =>
    if parentEnd.isAttached || parentEnd.isBlockEnd then
      match flower_getEnd f parentEnd.name with
      | none =>
        getExtraAttachedStubsFromParent_loop rest
          (newEnds ++ [(end_copyConstruct parentEnd f).1]) (end_copyConstruct parentEnd f).2
      | some _ => getExtraAttachedStubsFromParent_loop rest newEnds f
    else getExtraAttachedStubsFromParent_loop rest newEnds f

/-- The part of `getExtraAttachedStubsFromParent` before its checks: the new ends and the
flower with them; nothing is copied when the flower has no parent group. -/
def getExtraAttachedStubsFromParent_import (f : Flower) : List Nat × Flower :=
  match f.parent with
  | none => ([], f)
  | some parentGroup => getExtraAttachedStubsFromParent_loop parentGroup.ends [] f

/-- Copies into the flower the attached and block ends of the parent group it lacks, and
checks that the number of attached stub ends is then even and positive. -/
def getExtraAttachedStubsFromParent (f : Flower) : Outcome (List Nat) :=
  let r := getExtraAttachedStubsFromParent_import f
  if flower_getAttachedStubEndNumber r.2 % 2 = 0 ∧ 0 < flower_getAttachedStubEndNumber r.2 then
    .ok r.1 r.2
  else .abort r.2

/-- The body of the loop of `addLinkBreakingBlocks` for one group. -/
def addLinkBreakingBlocks_step (f : Flower) (g : Nat) : Flower :=
  match f.groups[g]? with
  | none => f
  | some grp =>
    if group_isTangle grp && group_getEndNumber f g == 1 then
      let r := block_construct 1 f
      let f1 := r.2
      let f2 := match block_get5End f1 r.1 with
        | some e5 => end_setGroup f1 e5 (some g)
        | none => f1
      match block_get3End f2 r.1 with
      | some e3 => end_setGroup f2 e3 (some g)
      | none => f2
    else f

/-- Gives every tangle group with one end a new block with both ends in the group. -/
def addLinkBreakingBlocks (f : Flower) : Flower :=
  (flower_getGroupIterator f).foldl addLinkBreakingBlocks_step f

/-- Finds the first event of the event tree with the given header. -/
def getEventByHeader (eventTree : EventTree) (eventHeader : String) : Option Event :=
  eventTree.events.find? (fun event => event.header == eventHeader)

/-- The reference event of the flower, created if the event tree has none. -/
def getReferenceEvent (f : Flower) (referenceEventHeader : String) : Outcome Event :=
  match getEventByHeader f.eventTree referenceEventHeader with
  | some referenceEvent => .ok referenceEvent f
  | none =>
    match f.parent with
    | none =>
      let r := event_construct f.nextName referenceEventHeader INT32_MAX f.eventTree.rootEvent
        { f with nextName := f.nextName + 1 }
      .ok r.1 r.2
    | some parentGroup =>
      match getEventByHeader parentGroup.eventTree referenceEventHeader with
      | none => .abort f
      | some parentEvent =>
        let r := event_construct parentEvent.name referenceEventHeader INT32_MAX
          f.eventTree.rootEvent f
        .ok r.1 r.2

/-! ## Graph materializer -/

/-- The body of the loop of `addBridgeBlocks` for one chosen edge. -/
def addBridgeBlocks_step (nodesToEnds : stHash) (f : Flower) (edge : stIntTuple) :
    Outcome Unit :=
  match (stIntTuple_getPosition edge 0).bind (getEndFromNode nodesToEnds) with
  | none => .abort f
  | some end1 =>
    match (stIntTuple_getPosition edge 1).bind (getEndFromNode nodesToEnds) with
    | none => .abort f
    | some end2 =>
      if end_getGroup f end1 ≠ end_getGroup f end2 then
        let r := block_construct 1 f
        let f1 := r.2
        let f2 := match block_get5End f1 r.1 with
          | some e5 => end_setGroup f1 e5 (end_getGroup f1 end1)
          | none => f1
        match block_get3End f2 r.1 with
        | some e3 => .ok () (end_setGroup f2 e3 (end_getGroup f2 end2))
        | none => .ok () f2
      else .ok () f

/-- Adds a block with an end in each group for every chosen edge between two groups. -/
def addBridgeBlocks (nodesToEnds : stHash) : List stIntTuple → Flower → Outcome Unit
  | [], f => .ok () f
  | edge :: rest, f =>
    match addBridgeBlocks_step nodesToEnds f edge with
    | .abort f1 => .abort f1
    | .ok _ f1 => addBridgeBlocks nodesToEnds rest f1

/-- A cap of the end for the reference event, made if the end has none. -/
def makeCapWithEvent (f : Flower) (e : Nat) (referenceEvent : Event) : Outcome Nat :=
  match getCapWithEvent f e referenceEvent with
  | some cap => .ok cap f
  | none =>
    match end_isBlockEnd f e with
    | none => .abort f
    | some true =>
      match (end_getBlock f e).bind (fun b => segment_construct f b referenceEvent) with
      | none => .abort f
      | some f1 =>
        match getCapWithEvent f1 e referenceEvent with
        | none => .abort f1
        | some cap => .ok cap f1
    | some false => .ok (cap_construct f e referenceEvent).1 (cap_construct f e referenceEvent).2

/-- The body of the loop of `addAdjacenciesAndSegments` for one chosen edge. -/
def addAdjacenciesAndSegments_step (nodesToEnds : stHash) (referenceEvent : Event)
    (f : Flower) (edge : stIntTuple) : Outcome Unit :=
  match (stIntTuple_getPosition edge 0).bind (getEndFromNode nodesToEnds) with
  | none => .abort f
  | some end1 =>
    match (stIntTuple_getPosition edge 1).bind (getEndFromNode nodesToEnds) with
    | none => .abort f
    | some end2 =>
      match makeCapWithEvent f end1 referenceEvent with
      | .abort f1 => .abort f1
      | .ok cap1 f1 =>
        match makeCapWithEvent f1 end2 referenceEvent with
        | .abort f2 => .abort f2
        | .ok cap2 f2 =>
          if cap_getAdjacency f2 cap1 = none ∧ cap_getAdjacency f2 cap2 = none then
            match cap_makeAdjacent f2 cap1 cap2 with
            | none => .abort f2
            | some f3 => .ok () f3
          else .abort f2

/-- Gives both ends of every chosen edge a cap for the reference event and makes the
two caps adjacent. -/
def addAdjacenciesAndSegments (nodesToEnds : stHash) (referenceEvent : Event) :
    List stIntTuple → Flower → Outcome Unit
  | [], f => .ok () f
  | edge :: rest, f =>
    match addAdjacenciesAndSegments_step nodesToEnds referenceEvent f edge with
    | .abort f1 => .abort f1
    | .ok _ f1 => addAdjacenciesAndSegments nodesToEnds referenceEvent rest f1

/-- The loop of `getLinkEdges` over the groups of the flower. -/
def getLinkEdges_loop (f : Flower) (endsToNodes : stHash) :
    List Nat → List stIntTuple → Option (List stIntTuple)
  | [], linkEdges => some linkEdges
  | g :: rest, linkEdges =>
    match f.groups[g]? with
    | none => none
    | some grp =>
      match grp.link with
      | some link =>
        match getEdge link.end5 link.end3 endsToNodes with
        | none => none
        | some edge => getLinkEdges_loop f endsToNodes rest (linkEdges ++ [edge])
      | none => getLinkEdges_loop f endsToNodes rest linkEdges

/-- The edges of the links of the link groups. -/
def getLinkEdges (f : Flower) (endsToNodes : stHash) : Option (List stIntTuple) :=
  getLinkEdges_loop f endsToNodes (flower_getGroupIterator f) []

/-- Puts every new end into the group of the end its cap is adjacent to. -/
def assignGroups : List Nat → Flower → Outcome Unit
  | [], f => .ok () f
  | e :: rest, f =>
    match end_getInstanceIterator f e with
    | [cap] =>
      match (cap_getAdjacency f cap).bind (cap_getEnd f) with
      | none => .abort f
      | some adjacentEnd =>
        match end_getGroup f adjacentEnd with
        | none => .abort f
        | some group => assignGroups rest (end_setGroup f e (some group))
    | _ => .abort f

/-! ## The entry point -/

/-- The matching step `chooseMatching`, with the matching algorithm it is given: from the
number of nodes, the adjacency, stub and chain edges and the root flag to the chosen
edges, or no result when it fails. It is a parameter of the development. -/
abbrev MatchingStrategy :=
  Nat → List stIntTuple → List stIntTuple → List stIntTuple → Bool → Option (List stIntTuple)

/-- The part of `buildReferenceTopDown` that follows the normalizer. -/
def buildReferenceTopDown_core (chooseMatching : MatchingStrategy) (referenceEvent : Event)
    (newEnds : List Nat) (f : Flower) : Outcome Unit :=
  let endsToNodes := getMapOfTangleEndsToNodes f
  let nodesToEnds := getMapOfNodesToTangleEnds endsToNodes
  let nodeNumber := stHash_size endsToNodes
  if nodeNumber % 2 = 0 ∧ 0 < nodeNumber then
    match getChainEdges f endsToNodes with
    | none => .abort f
    | some chainEdges =>
      let hasParent := f.parent.isSome
      match (if hasParent then getStubEdgesFromParent f endsToNodes referenceEvent
             else getArbitraryStubEdges endsToNodes chainEdges) with
      | none => .abort f
      | some stubEdges =>
        match getAdjacencyEdges f endsToNodes with
        | none => .abort f
        | some adjacencyEdges =>
          match chooseMatching nodeNumber adjacencyEdges stubEdges chainEdges (!hasParent) with
          | none => .abort f
          | some chosenAdjacencyEdges =>
            match addBridgeBlocks nodesToEnds chosenAdjacencyEdges f with
            | .abort f1 => .abort f1
            | .ok _ f1 =>
              match getLinkEdges f1 endsToNodes with
              | none => .abort f1
              | some linkEdges =>
                match addAdjacenciesAndSegments nodesToEnds referenceEvent
                    (chosenAdjacencyEdges ++ linkEdges) f1 with
                | .abort f2 => .abort f2
                | .ok _ f2 => assignGroups newEnds f2
  else .abort f

/-- Threads the reference through one flower. -/
def buildReferenceTopDown (chooseMatching : MatchingStrategy) (referenceEventHeader : String)
    (f : Flower) : Outcome Unit :=
  match getReferenceEvent f referenceEventHeader with
  | .abort f1 => .abort f1
  | .ok referenceEvent f1 =>
    match getExtraAttachedStubsFromParent f1 with
    | .abort f2 => .abort f2
    | .ok newEnds f2 =>
      buildReferenceTopDown_core chooseMatching referenceEvent newEnds (addLinkBreakingBlocks f2)

/-! ## Vocabulary of the properties -/

/-- Whether a node id is one of the two nodes of an edge. -/
def edgeHasNode (edge : stIntTuple) (v : Nat) : Prop :=
  stIntTuple_getPosition edge 0 = some v ∨ stIntTuple_getPosition edge 1 = some v

instance (edge : stIntTuple) (v : Nat) : Decidable (edgeHasNode edge v) := by
  unfold edgeHasNode; infer_instance

/-- A perfect matching of the node ids `[0, n)`: every edge joins two distinct ids below
`n`, and every id below `n` is in exactly one edge. -/
def isPerfectMatching (n : Nat) (edges : List stIntTuple) : Prop :=
  (∀ e ∈ edges, e.length = 2 ∧ e.Nodup ∧ ∀ v ∈ e, v < n) ∧
    ∀ v, v < n → edges.countP (fun e => decide (v ∈ e)) = 1

instance (n : Nat) (edges : List stIntTuple) : Decidable (isPerfectMatching n edges) := by
  unfold isPerfectMatching; infer_instance

/-- Scenario A: a root flower with one tangle group of four ends; `A` and `B` are the two
ends of a block, `C` and `D` are attached stub ends; there are no caps. -/
def scenarioA : Flower :=
  { ends :=
      [{ name := 1, isBlockEnd := true, isAttached := true, side := true,
         group := some 0, block := some 0 },
       { name := 2, isBlockEnd := true, isAttached := true, side := false,
         group := some 0, block := some 0 },
       { name := 3, isBlockEnd := false, isAttached := true, side := true,
         group := some 0, block := none },
       { name := 4, isBlockEnd := false, isAttached := true, side := false,
         group := some 0, block := none }],
    caps := [],
    blocks := [{ name := 5, length := 1, end5 := 0, end3 := 1, segments := [] }],
    groups := [{ name := 6, link := none }],
    chains := [],
    eventTree :=
      { rootEvent := 0,
        events := [{ name := 0, header := "ROOT", branchLength := 0, parent := none }] },
    parent := none,
    nextName := 7 }

/-- Whether cap `c` is a cap of end `e` for the event. -/
def isCapOf (f : Flower) (e : Nat) (event : Event) (c : Nat) : Bool :=
  f.caps[c]?.map (fun x => x.ofEnd) == some e &&
    f.caps[c]?.map (fun x => x.event) == some event.name

/-- The flower `g` keeps what `f` holds: every end of `f` is an end of `g` with the same
name, kind, side and block; every cap of `f` is a cap of `g` of the same end, event and
strand, and still has the adjacency it had in `f` if it had one; every block of `f` is a
block of `g` with the same name, length and ends; the groups, the chains and the parent
are the same; every event of `f` is an event of `g`, under the same root. -/
def Grows (f g : Flower) : Prop :=
  (∀ (e : Nat) (en : End), f.ends[e]? = some en → ∃ en' : End, g.ends[e]? = some en' ∧
    en'.name = en.name ∧ en'.isBlockEnd = en.isBlockEnd ∧ en'.isAttached = en.isAttached ∧
    en'.side = en.side ∧ en'.block = en.block) ∧
  (∀ (c : Nat) (cap : Cap), f.caps[c]? = some cap → ∃ cap' : Cap, g.caps[c]? = some cap' ∧
    cap'.ofEnd = cap.ofEnd ∧ cap'.event = cap.event ∧ cap'.strand = cap.strand ∧
    ∀ x, cap.adjacency = some x → cap'.adjacency = some x) ∧
  (∀ (b : Nat) (blk : Block), f.blocks[b]? = some blk →
    ∃ blk' : Block, g.blocks[b]? = some blk' ∧
    blk'.name = blk.name ∧ blk'.length = blk.length ∧ blk'.end5 = blk.end5 ∧
    blk'.end3 = blk.end3) ∧
  g.groups = f.groups ∧ g.chains = f.chains ∧ g.parent = f.parent ∧
  g.eventTree.rootEvent = f.eventTree.rootEvent ∧
  ∀ event ∈ f.eventTree.events, event ∈ g.eventTree.events

/-- The two ends of the edge have caps for the reference event that are adjacent to each
other: the first cap of each end for the event has the other as its adjacency. -/
def edgeIsLinked (f : Flower) (nodesToEnds : stHash) (referenceEvent : Event)
    (edge : stIntTuple) : Prop :=
  ∃ node1 node2 end1 end2 cap1 cap2 : Nat,
    stIntTuple_getPosition edge 0 = some node1 ∧ stIntTuple_getPosition edge 1 = some node2 ∧
    getEndFromNode nodesToEnds node1 = some end1 ∧
    getEndFromNode nodesToEnds node2 = some end2 ∧
    getCapWithEvent f end1 referenceEvent = some cap1 ∧
    getCapWithEvent f end2 referenceEvent = some cap2 ∧
    cap_getAdjacency f cap1 = some cap2 ∧ cap_getAdjacency f cap2 = some cap1

/-- The end of the node has a cap for the reference event that carries an adjacency. -/
def nodeIsResolved (f : Flower) (nodesToEnds : stHash) (referenceEvent : Event)
    (node : Nat) : Prop :=
  ∃ e c x : Nat, getEndFromNode nodesToEnds node = some e ∧
    getCapWithEvent f e referenceEvent = some c ∧ cap_getAdjacency f c = some x

/-- A reference event used in the examples. -/
def exampleEvent : Event :=
  { name := 7, header := "reference", branchLength := INT32_MAX, parent := some 0 }

/-- The map from nodes to ends of scenario A. -/
def scenarioA_nodesToEnds : stHash := [(0, 0), (1, 1), (2, 2), (3, 3)]

/-- A matching strategy that honours the forced edges: it returns the chain edges with
the stub edges when they form a perfect matching of the nodes, and fails otherwise. -/
def forcedEdgesMatching : MatchingStrategy :=
  fun nodeNumber _ stubEdges chainEdges _ =>
    if isPerfectMatching nodeNumber (chainEdges ++ stubEdges) then some (chainEdges ++ stubEdges)
    else none

/-- An attached stub end of the given name, side and group. -/
def attachedStub (name : Nat) (side : Bool) (group : Nat) : End :=
  { name := name, isBlockEnd := false, isAttached := true, side := side, group := some group,
    block := none }

/-- A free stub end of the given name, side and group. -/
def freeStub (name : Nat) (side : Bool) (group : Nat) : End :=
  { name := name, isBlockEnd := false, isAttached := false, side := side, group := some group,
    block := none }

/-- An event tree with its root event only. -/
def rootOnlyEventTree : EventTree :=
  { rootEvent := 0,
    events := [{ name := 0, header := "ROOT", branchLength := 0, parent := none }] }

/-- Scenario E: a root flower with one tangle group of six attached stub ends; the end
with node id 2 has three caps, of three events, each adjacent to a cap of the end with
node id 5. -/
def scenarioE : Flower :=
  { ends := [attachedStub 1 true 0, attachedStub 2 false 0, attachedStub 3 true 0,
      attachedStub 4 false 0, attachedStub 5 true 0, attachedStub 6 false 0],
    caps :=
      [{ ofEnd := 2, event := 11, adjacency := some 3, strand := true },
       { ofEnd := 2, event := 12, adjacency := some 4, strand := true },
       { ofEnd := 2, event := 13, adjacency := some 5, strand := true },
       { ofEnd := 5, event := 11, adjacency := some 0, strand := true },
       { ofEnd := 5, event := 12, adjacency := some 1, strand := true },
       { ofEnd := 5, event := 13, adjacency := some 2, strand := true }],
    blocks := [],
    groups := [{ name := 7, link := none }],
    chains := [],
    eventTree :=
      { rootEvent := 0,
        events := [{ name := 0, header := "ROOT", branchLength := 0, parent := none },
          { name := 11, header := "genome1", branchLength := 1, parent := some 0 },
          { name := 12, header := "genome2", branchLength := 1, parent := some 0 },
          { name := 13, header := "genome3", branchLength := 1, parent := some 0 }] },
    parent := none,
    nextName := 20 }

/-- A root flower with a tangle group of two attached stub ends and a chain that runs
from a free stub end through one block to a free stub end: the chain has two links, each
with its own link group, and each link group holds the two ends of its link. -/
def linkFlower : Flower :=
  { ends := [attachedStub 1 true 0, attachedStub 2 false 0, freeStub 3 true 1,
      { name := 4, isBlockEnd := true, isAttached := true, side := true, group := some 1,
        block := some 0 },
      { name := 5, isBlockEnd := true, isAttached := true, side := false, group := some 2,
        block := some 0 },
      freeStub 6 false 2],
    caps := [],
    blocks := [{ name := 7, length := 1, end5 := 3, end3 := 4, segments := [] }],
    groups := [{ name := 8, link := none },
      { name := 9, link := some { end5 := 2, end3 := 3 } },
      { name := 10, link := some { end5 := 4, end3 := 5 } }],
    chains := [{ links := [{ end5 := 2, end3 := 3 }, { end5 := 4, end3 := 5 }] }],
    eventTree := rootOnlyEventTree,
    parent := none,
    nextName := 11 }

/-- A root flower with two tangle groups: one holds the attached stub end `A`, the other
the attached stub ends `B`, `C` and `D`. -/
def bridgeFlower : Flower :=
  { ends := [attachedStub 1 true 0, attachedStub 2 false 1, attachedStub 3 true 1,
      attachedStub 4 false 1],
    caps := [],
    blocks := [],
    groups := [{ name := 5, link := none }, { name := 6, link := none }],
    chains := [],
    eventTree := rootOnlyEventTree,
    parent := none,
    nextName := 7 }

/-- A flower below the root with a tangle group of two attached stub ends, whose parent
group has these two ends and a third attached stub end; the event tree of the parent has
the reference event. -/
def importFlower : Flower :=
  { ends := [attachedStub 1 true 0, attachedStub 2 false 0],
    caps := [],
    blocks := [],
    groups := [{ name := 5, link := none }],
    chains := [],
    eventTree := rootOnlyEventTree,
    parent := some
      { ends := [attachedStub 1 true 9, attachedStub 2 false 9, attachedStub 3 true 9],
        eventTree :=
          { rootEvent := 0,
            events := [{ name := 0, header := "ROOT", branchLength := 0, parent := none },
              { name := 8, header := "reference", branchLength := INT32_MAX,
                parent := some 0 }] } },
    nextName := 10 }

/-- The end of a new block: an attached block end of the given name, side, group and
block. -/
def blockEnd (name : Nat) (side : Bool) (group : Option Nat) (block : Nat) : End :=
  { name := name, isBlockEnd := true, isAttached := true, side := side, group := group,
    block := some block }

/-- The flower with a new block of length 1 whose 5' end is in group `g5` and whose 3' end
is in group `g3`. -/
def withNewBlock (f : Flower) (g5 g3 : Option Nat) : Flower :=
  { f with
    ends := f.ends ++ [blockEnd (f.nextName + 1) true g5 f.blocks.length,
      blockEnd (f.nextName + 2) false g3 f.blocks.length],
    blocks := f.blocks ++
      [{ name := f.nextName, length := 1, end5 := f.ends.length, end3 := f.ends.length + 1,
         segments := [] }],
    nextName := f.nextName + 3 }

/-- Whether group `g` of the flower is a tangle group. -/
def isTangleGroup (f : Flower) (g : Nat) : Prop := f.groups[g]?.map group_isTangle = some true

instance (f : Flower) (g : Nat) : Decidable (isTangleGroup f g) := by
  unfold isTangleGroup; infer_instance

/-- The flower `g` is the flower `f` with more ends, all of them block ends, and more
blocks: the ends and the blocks of `f` are as they were, and so are its caps, groups,
chains, event tree and parent. -/
def AddsBlockEnds (f g : Flower) : Prop :=
  (∃ added : List End, g.ends = f.ends ++ added ∧ ∀ a ∈ added, a.isBlockEnd = true) ∧
  (∃ addedBlocks : List Block, g.blocks = f.blocks ++ addedBlocks) ∧
  g.caps = f.caps ∧ g.groups = f.groups ∧ g.chains = f.chains ∧
  g.eventTree = f.eventTree ∧ g.parent = f.parent

/-- A flower below the root with one attached stub end, whose parent group has this end
and a second attached stub end; the event tree of the parent has the reference event. -/
def lateStubFlower : Flower :=
  { ends := [attachedStub 1 true 0],
    caps := [],
    blocks := [],
    groups := [{ name := 5, link := none }],
    chains := [],
    eventTree := rootOnlyEventTree,
    parent := some
      { ends := [attachedStub 1 true 9, attachedStub 2 false 9],
        eventTree := rootOnlyEventTree },
    nextName := 10 }

/-- A root flower with one tangle group of three attached stub ends. -/
def oddStubFlower : Flower :=
  { ends := [attachedStub 1 true 0, attachedStub 2 false 0, attachedStub 3 true 0],
    caps := [],
    blocks := [],
    groups := [{ name := 5, link := none }],
    chains := [],
    eventTree := rootOnlyEventTree,
    parent := none,
    nextName := 7 }

/-- The two ends of an edge: the ends of the node ids at its positions 0 and 1. -/
def edgeEnds (nodesToEnds : stHash) (edge : stIntTuple) : Option (Nat × Nat) :=
  match (stIntTuple_getPosition edge 0).bind (getEndFromNode nodesToEnds),
    (stIntTuple_getPosition edge 1).bind (getEndFromNode nodesToEnds) with
  | some end1, some end2 => some (end1, end2)
  | _, _ => none

/-- Whether the two ends of an edge lie in different groups of the flower. -/
def isBridge (f : Flower) (nodesToEnds : stHash) (edge : stIntTuple) : Bool :=
  match edgeEnds nodesToEnds edge with
  | some (end1, end2) => end_getGroup f end1 != end_getGroup f end2
  | none => false

/-- Scenario C: a root flower with the tangle groups `G1 = {P, Q}` and `G2 = {R, S}` of
attached stub ends. -/
def scenarioC : Flower :=
  { ends := [attachedStub 1 true 0, attachedStub 2 false 0, attachedStub 3 true 1,
      attachedStub 4 false 1],
    caps := [],
    blocks := [],
    groups := [{ name := 5, link := none }, { name := 6, link := none }],
    chains := [],
    eventTree := rootOnlyEventTree,
    parent := none,
    nextName := 7 }

/-- A root flower with a chain of one link that starts at a block: the 5' end of the block
is in the tangle group with the two attached stub ends, and the 3' end of the block is in
the link group, with the free stub end that ends the chain. -/
def chainStartFlower : Flower :=
  { ends := [attachedStub 1 true 0, attachedStub 2 false 0, blockEnd 3 true (some 0) 0,
      blockEnd 4 false (some 1) 0, freeStub 5 true 1],
    caps := [],
    blocks := [{ name := 6, length := 1, end5 := 2, end3 := 3, segments := [] }],
    groups := [{ name := 7, link := none }, { name := 8, link := some { end5 := 3, end3 := 4 } }],
    chains := [{ links := [{ end5 := 3, end3 := 4 }] }],
    eventTree := rootOnlyEventTree,
    parent := none,
    nextName := 9 }

/-- A root flower with one tangle group that holds two attached stub ends and both ends of
a block. -/
def tangleBlockFlower : Flower :=
  { ends := [attachedStub 1 true 0, attachedStub 2 false 0, blockEnd 3 true (some 0) 0,
      blockEnd 4 false (some 0) 0],
    caps := [],
    blocks := [{ name := 6, length := 1, end5 := 2, end3 := 3, segments := [] }],
    groups := [{ name := 7, link := none }],
    chains := [],
    eventTree := rootOnlyEventTree,
    parent := none,
    nextName := 9 }

/-- The two ends of the block are in groups that `getTrivialChainEdges` accepts: both in
tangle groups, or the 5' end in a group that is not a tangle group and the 3' end in a
link group. -/
def blockIsUniform (f : Flower) (block : Block) : Prop :=
  (end_groupIsTangle f block.end5 = some true ∧ end_groupIsTangle f block.end3 = some true) ∨
  (end_groupIsTangle f block.end5 = some false ∧ end_groupIsLink f block.end3 = some true)

instance (f : Flower) (block : Block) : Decidable (blockIsUniform f block) := by
  unfold blockIsUniform; infer_instance

/-- Scenario B: a flower below the root with one tangle group of four attached stub ends,
each with a cap for the reference event; the caps of the ends 0 and 2 are adjacent to
each other, and so are the caps of the ends 1 and 3. The parent group has the four ends. -/
def scenarioB : Flower :=
  { ends := [attachedStub 1 true 0, attachedStub 2 false 0, attachedStub 3 true 0,
      attachedStub 4 false 0],
    caps :=
      [{ ofEnd := 0, event := 7, adjacency := some 2, strand := true },
       { ofEnd := 1, event := 7, adjacency := some 3, strand := true },
       { ofEnd := 2, event := 7, adjacency := some 0, strand := true },
       { ofEnd := 3, event := 7, adjacency := some 1, strand := true }],
    blocks := [],
    groups := [{ name := 5, link := none }],
    chains := [],
    eventTree :=
      { rootEvent := 0,
        events := [{ name := 0, header := "ROOT", branchLength := 0, parent := none },
          exampleEvent] },
    parent := some
      { ends := [attachedStub 1 true 9, attachedStub 2 false 9, attachedStub 3 true 9,
          attachedStub 4 false 9],
        eventTree :=
          { rootEvent := 0,
            events := [{ name := 0, header := "ROOT", branchLength := 0, parent := none },
              exampleEvent] } },
    nextName := 10 }

/-- The state of the loop of `getStubEdgesFromParent`: no end was consumed twice; the
node ids in the stub edges are the node ids of the consumed ends, each once; every
consumed end `e` is in a stub edge with a partner `p`, where `p` is the end adjacent to
`e` or `e` is the end adjacent to `p`; and every stub edge is a pair `[a, b]` with
`a < b`. -/
def isStubPairing (f : Flower) (endsToNodes : stHash) (referenceEvent : Event)
    (endsSeen : List Nat) (stubEdges : List stIntTuple) : Prop :=
  endsSeen.Nodup ∧
  stubEdges.flatten.Perm (endsSeen.filterMap (stHash_search endsToNodes)) ∧
  (∀ e ∈ endsSeen, ∃ (p : Nat) (edge : stIntTuple),
    (getAdjacentEndFromParent f e referenceEvent = some p ∨
      getAdjacentEndFromParent f p referenceEvent = some e) ∧
    getEdge e p endsToNodes = some edge ∧ edge ∈ stubEdges) ∧
  ∀ edge ∈ stubEdges, ∃ a b : Nat, edge = [a, b] ∧ a < b

/-- The number of node ids of the map that are in no chain edge. -/
def untouchedNodeNumber (endsToNodes : stHash) (chainEdges : List stIntTuple) : Nat :=
  ((stHash_getValues endsToNodes).dedup.filter
    (fun v => decide (∀ c ∈ chainEdges, ¬ edgeHasNode c v))).length

/-- Whether the chain is bounded by blocks: the 5' end of its first link and the 3' end of
its last link are both block ends. -/
def chainIsBounded (f : Flower) (chain : Chain) : Bool :=
  match chain.links.head?, chain.links.getLast? with
  | some first, some last =>
    end_isBlockEnd f first.end5 == some true && end_isBlockEnd f last.end3 == some true
  | _, _ => false

/-- The outward-facing ends of a chain: the other end of the block of the 5' end of its
first link, and the other end of the block of the 3' end of its last link. -/
def chainOutwardEnds (f : Flower) (chain : Chain) : Option (Nat × Nat) :=
  match chain.links.head?, chain.links.getLast? with
  | some first, some last =>
    match end_getOtherBlockEnd f first.end5, end_getOtherBlockEnd f last.end3 with
    | some end1, some end2 => some (end1, end2)
    | _, _ => none
  | _, _ => none

/-- The chain can be read: it has a link, and the 5' end of its first link and the 3' end
of its last link are ends of the flower. -/
def chainIsReadable (f : Flower) (chain : Chain) : Prop :=
  ∃ first last : Link, chain.links.head? = some first ∧ chain.links.getLast? = some last ∧
    (end_isBlockEnd f first.end5).isSome = true ∧ (end_isBlockEnd f last.end3).isSome = true

/-- Both outward-facing ends of the chain are tangle ends. -/
def chainHasTangleOutwardEnds (f : Flower) (chain : Chain) : Prop :=
  ∃ end1 end2 : Nat, chainOutwardEnds f chain = some (end1, end2) ∧
    end_groupIsTangle f end1 = some true ∧ end_groupIsTangle f end2 = some true

/-- A root flower with a chain of one link between two blocks: the inner ends of the
blocks are in the link group, the outward-facing ends of the blocks are in the tangle
group with two attached stub ends. -/
def boundedChainFlower : Flower :=
  { ends := [blockEnd 1 true (some 0) 0, blockEnd 2 false (some 1) 0,
      blockEnd 3 true (some 1) 1, blockEnd 4 false (some 0) 1, attachedStub 5 true 0,
      attachedStub 6 false 0],
    caps := [],
    blocks := [{ name := 7, length := 1, end5 := 0, end3 := 1, segments := [] },
      { name := 8, length := 1, end5 := 2, end3 := 3, segments := [] }],
    groups := [{ name := 9, link := none }, { name := 10, link := some { end5 := 1, end3 := 2 } }],
    chains := [{ links := [{ end5 := 1, end3 := 2 }] }],
    eventTree := rootOnlyEventTree,
    parent := none,
    nextName := 11 }

/-- The flower `boundedChainFlower` with the outward-facing end of the second block in
the link group instead of the tangle group. -/
def inwardChainFlower : Flower :=
  { boundedChainFlower with
    ends := [blockEnd 1 true (some 0) 0, blockEnd 2 false (some 1) 0,
      blockEnd 3 true (some 1) 1, blockEnd 4 false (some 1) 1, attachedStub 5 true 0,
      attachedStub 6 false 0] }

/-- A stub end of the given name and side that is attached and has no group, as the step
that imports the ends of the parent group leaves it. -/
def importedStub (name : Nat) (side : Bool) : End :=
  { name := name, isBlockEnd := false, isAttached := true, side := side, group := none,
    block := none }

/-- A flower below the root with a tangle group of two attached stub ends and two ends
without group, as imported; every end has one cap, for the reference event; the cap of
the first end without group is adjacent to the cap of a grouped end, and the cap of the
second end without group is adjacent to the cap of the other grouped end. -/
def importedEndsFlower : Flower :=
  { ends := [attachedStub 1 true 0, attachedStub 2 false 0, importedStub 3 true,
      importedStub 4 false],
    caps :=
      [{ ofEnd := 0, event := 7, adjacency := some 2, strand := true },
       { ofEnd := 1, event := 7, adjacency := some 3, strand := true },
       { ofEnd := 2, event := 7, adjacency := some 0, strand := true },
       { ofEnd := 3, event := 7, adjacency := some 1, strand := true }],
    blocks := [],
    groups := [{ name := 5, link := none }],
    chains := [],
    eventTree :=
      { rootEvent := 0,
        events := [{ name := 0, header := "ROOT", branchLength := 0, parent := none },
          exampleEvent] },
    parent := some
      { ends := [attachedStub 1 true 9, attachedStub 2 false 9, attachedStub 3 true 9,
          attachedStub 4 false 9],
        eventTree :=
          { rootEvent := 0,
            events := [{ name := 0, header := "ROOT", branchLength := 0, parent := none },
              exampleEvent] } },
    nextName := 10 }

/-- The flower `importedEndsFlower` with the caps of the two imported ends adjacent to
each other, and the caps of the two grouped ends adjacent to each other. -/
def ungroupedPairFlower : Flower :=
  { importedEndsFlower with
    caps :=
      [{ ofEnd := 0, event := 7, adjacency := some 1, strand := true },
       { ofEnd := 1, event := 7, adjacency := some 0, strand := true },
       { ofEnd := 2, event := 7, adjacency := some 3, strand := true },
       { ofEnd := 3, event := 7, adjacency := some 2, strand := true }] }

/-- The matching strategy honours the forced stub edges: every stub edge it is given is
among the edges it chooses. -/
def honoursStubEdges (chooseMatching : MatchingStrategy) : Prop :=
  ∀ (nodeNumber : Nat) (adjacencyEdges stubEdges chainEdges chosen : List stIntTuple)
    (isRoot : Bool),
    chooseMatching nodeNumber adjacencyEdges stubEdges chainEdges isRoot = some chosen →
    ∀ edge ∈ stubEdges, edge ∈ chosen

/-- Every link group of the flower holds the two ends of its link, and they are two
different ends. -/
def linkGroupsHoldTheirLinks (f : Flower) : Prop :=
  ∀ g ∈ flower_getGroupIterator f, ∀ link ∈ f.groups[g]?.bind (fun grp => grp.link),
    end_getGroup f link.end5 = some g ∧ end_getGroup f link.end3 = some g ∧
    link.end5 ≠ link.end3

instance (f : Flower) : Decidable (linkGroupsHoldTheirLinks f) := by
  unfold linkGroupsHoldTheirLinks; infer_instance

/-- A root flower with two tangle groups of one attached stub end each, and a chain that
runs from a free stub end through one block to a free stub end: the chain has two links,
each with its own link group, and each link group holds the two ends of its link. -/
def singleEndGroupsFlower : Flower :=
  { ends := [attachedStub 1 true 0, attachedStub 2 false 3, freeStub 3 true 1,
      blockEnd 4 true (some 1) 0, blockEnd 5 false (some 2) 0, freeStub 6 false 2],
    caps := [],
    blocks := [{ name := 7, length := 1, end5 := 3, end3 := 4, segments := [] }],
    groups := [{ name := 8, link := none },
      { name := 9, link := some { end5 := 2, end3 := 3 } },
      { name := 10, link := some { end5 := 4, end3 := 5 } },
      { name := 11, link := none }],
    chains := [{ links := [{ end5 := 2, end3 := 3 }, { end5 := 4, end3 := 5 }] }],
    eventTree := rootOnlyEventTree,
    parent := none,
    nextName := 12 }

/-! ## Properties -/

/-! ### Stub edges at the root -/

theorem stSortedSet_insert_sorted (s : List Nat) (x : Nat)
    (hs : s.Sorted (fun a b => a ≤ b)) (hn : s.Nodup) :
    (stSortedSet_insert s x).Sorted (fun a b => a ≤ b) ∧ (stSortedSet_insert s x).Nodup ∧
      ∀ v, v ∈ stSortedSet_insert s x ↔ v = x ∨ v ∈ s := by
  unfold stSortedSet_insert
  by_cases hx : x ∈ s
  · simp only [hx, if_true]
    refine ⟨hs, hn, fun v => ⟨fun h => Or.inr h, fun h => ?_⟩⟩
    rcases h with h | h
    · exact h ▸ hx
    · exact h
  · simp only [hx, if_false]
    refine ⟨hs.orderedInsert x s, ?_, fun v => List.mem_orderedInsert _⟩
    exact (List.perm_orderedInsert _ x s).nodup_iff.mpr (List.nodup_cons.mpr ⟨hx, hn⟩)

theorem stList_getSortedSet_aux (l s : List Nat)
    (hs : s.Sorted (fun a b => a ≤ b)) (hn : s.Nodup) :
    (l.foldl stSortedSet_insert s).Sorted (fun a b => a ≤ b) ∧
      (l.foldl stSortedSet_insert s).Nodup ∧
      ∀ v, v ∈ l.foldl stSortedSet_insert s ↔ v ∈ l ∨ v ∈ s := by
  induction l generalizing s with
  | nil => simp [hs, hn]
  | cons x l ih =>
    obtain ⟨h1, h2, h3⟩ := stSortedSet_insert_sorted s x hs hn
    obtain ⟨k1, k2, k3⟩ := ih (stSortedSet_insert s x) h1 h2
    refine ⟨k1, k2, fun v => ?_⟩
    simp only [List.foldl_cons, k3, h3, List.mem_cons]
    tauto

theorem stList_getSortedSet_spec (l : List Nat) :
    (stList_getSortedSet l).Sorted (fun a b => a < b) ∧
      ∀ v, v ∈ stList_getSortedSet l ↔ v ∈ l := by
  obtain ⟨h1, h2, h3⟩ := stList_getSortedSet_aux l [] (List.sorted_nil) List.nodup_nil
  refine ⟨h1.lt_of_le h2, fun v => ?_⟩
  unfold stList_getSortedSet
  simp [h3]

theorem getArbitraryStubEdgesP_spec (s : List Nat) (x : Nat) (hs : s.Sorted (fun a b => a < b)) :
    (getArbitraryStubEdgesP s x).Sorted (fun a b => a < b) ∧
      ∀ v, v ∈ getArbitraryStubEdgesP s x ↔ v ∈ s ∧ v ≠ x := by
  have hn : s.Nodup := hs.imp (fun h => Nat.ne_of_lt h)
  unfold getArbitraryStubEdgesP
  by_cases hx : x ∈ s
  · simp only [hx, if_true]
    refine ⟨hs.sublist (List.erase_sublist x s), fun v => ?_⟩
    rw [hn.mem_erase_iff]; tauto
  · simp only [hx, if_false]
    refine ⟨hs, fun v => ⟨fun h => ⟨h, fun e => hx (e ▸ h)⟩, fun h => h.1⟩⟩

theorem getArbitraryStubEdges_filter_spec (chainEdges : List stIntTuple) (s r : List Nat)
    (hs : s.Sorted (fun a b => a < b))
    (h : getArbitraryStubEdges_filter chainEdges s = some r) :
    r.Sorted (fun a b => a < b) ∧
      ∀ v, v ∈ r ↔ v ∈ s ∧ ∀ c ∈ chainEdges, ¬ edgeHasNode c v := by
  induction chainEdges generalizing s with
  | nil =>
    simp only [getArbitraryStubEdges_filter, Option.some.injEq] at h
    subst h
    simp [hs]
  | cons c rest ih =>
    unfold getArbitraryStubEdges_filter at h
    cases h0 : stIntTuple_getPosition c 0 with
    | none => simp [h0] at h
    | some a =>
      cases h1 : stIntTuple_getPosition c 1 with
      | none => simp [h0, h1] at h
      | some b =>
        simp only [h0, h1] at h
        obtain ⟨p1, p2⟩ := getArbitraryStubEdgesP_spec s a hs
        obtain ⟨q1, q2⟩ := getArbitraryStubEdgesP_spec _ b p1
        obtain ⟨r1, r2⟩ := ih _ q1 h
        refine ⟨r1, fun v => ?_⟩
        rw [r2, q2, p2]
        simp only [List.mem_cons, forall_eq_or_imp, edgeHasNode, h0, h1, Option.some.injEq]
        constructor
        · rintro ⟨⟨⟨hv, ha⟩, hb⟩, hr⟩
          exact ⟨hv, ⟨fun h => h.elim (fun e => ha e.symm) (fun e => hb e.symm), hr⟩⟩
        · rintro ⟨hv, hc, hr⟩
          exact ⟨⟨⟨hv, fun e => hc (Or.inl e.symm)⟩, fun e => hc (Or.inr e.symm)⟩, hr⟩

theorem getArbitraryStubEdges_pair_spec (n : Nat) (s : List Nat) (hlen : s.length = 2 * n)
    (hs : s.Sorted (fun a b => a < b)) :
    (getArbitraryStubEdges_pair s).flatten = s ∧
      ∀ e ∈ getArbitraryStubEdges_pair s, ∃ a b, e = [a, b] ∧ a < b := by
  induction n generalizing s with
  | zero =>
    have : s = [] := List.length_eq_zero.mp (by omega)
    subst this
    simp [getArbitraryStubEdges_pair]
  | succ n ih =>
    match s, hlen, hs with
    | a :: b :: rest, hlen, hs =>
      have hab : a < b := by
        have := List.rel_of_sorted_cons hs b (by simp)
        exact this
      have hrest : rest.Sorted (fun a b => a < b) := (List.sorted_cons.mp (List.sorted_cons.mp hs).2).2
      obtain ⟨i1, i2⟩ := ih rest (by simp at hlen; omega) hrest
      simp only [getArbitraryStubEdges_pair, getEdge2, hab, if_true, List.flatten_cons, i1,
        List.mem_cons, forall_eq_or_imp]
      exact ⟨by simp, ⟨a, b, rfl, hab⟩, i2⟩
    | [], hlen, _ => simp at hlen
    | [a], hlen, _ => simp at hlen; omega

theorem countP_mem_flatten_eq_one (l : List (List Nat)) (v : Nat) (hn : l.flatten.Nodup)
    (hv : v ∈ l.flatten) : l.countP (fun e => decide (v ∈ e)) = 1 := by
  induction l with
  | nil => simp at hv
  | cons e l ih =>
    rw [List.flatten_cons, List.nodup_append] at hn
    obtain ⟨_, h2, h3⟩ := hn
    rw [List.flatten_cons, List.mem_append] at hv
    by_cases hve : v ∈ e
    · have : v ∉ l.flatten := fun h => h3 hve h
      have hz : l.countP (fun e => decide (v ∈ e)) = 0 := by
        rw [List.countP_eq_zero]
        intro x hx hvx
        exact this (List.mem_flatten.mpr ⟨x, hx, by simpa using hvx⟩)
      rw [List.countP_cons_of_pos _ _ (by simpa using hve), hz]
    · rw [List.countP_cons_of_neg _ _ (by simpa using hve)]
      exact ih h2 (hv.resolve_left hve)

theorem getArbitraryStubEdges_spec (endsToNodes : stHash)
    (chainEdges stubEdges : List stIntTuple)
    (h : getArbitraryStubEdges endsToNodes chainEdges = some stubEdges) :
    (∀ e ∈ stubEdges, ∃ a b, e = [a, b] ∧ a < b) ∧
    stubEdges.flatten.Sorted (fun a b => a < b) ∧
    (∀ v, v ∈ stubEdges.flatten ↔
      v ∈ stHash_getValues endsToNodes ∧ ∀ c ∈ chainEdges, ¬ edgeHasNode c v) ∧
    (∀ v, v ∈ stHash_getValues endsToNodes → (∀ c ∈ chainEdges, ¬ edgeHasNode c v) →
      stubEdges.countP (fun e => decide (v ∈ e)) = 1) ∧
    (∀ v, (∃ c ∈ chainEdges, edgeHasNode c v) →
      stubEdges.countP (fun e => decide (v ∈ e)) = 0) := by
  unfold getArbitraryStubEdges at h
  cases hf : getArbitraryStubEdges_filter chainEdges
      (stList_getSortedSet (stHash_getValues endsToNodes)) with
  | none => simp [hf] at h
  | some nodesSet =>
    simp only [hf] at h
    split at h
    · rename_i hlen
      simp only [Option.some.injEq] at h
      subst h
      obtain ⟨s1, s2⟩ := stList_getSortedSet_spec (stHash_getValues endsToNodes)
      obtain ⟨f1, f2⟩ := getArbitraryStubEdges_filter_spec chainEdges _ nodesSet s1 hf
      obtain ⟨p1, p2⟩ := getArbitraryStubEdges_pair_spec (nodesSet.length / 2) nodesSet
        (by omega) f1
      have hmem : ∀ v, v ∈ (getArbitraryStubEdges_pair nodesSet).flatten ↔
          v ∈ stHash_getValues endsToNodes ∧ ∀ c ∈ chainEdges, ¬ edgeHasNode c v := by
        intro v; rw [p1, f2, s2]
      have hnd : (getArbitraryStubEdges_pair nodesSet).flatten.Nodup := by
        rw [p1]; exact f1.imp (fun h => Nat.ne_of_lt h)
      refine ⟨p2, by rw [p1]; exact f1, hmem, fun v hv hc => ?_, fun v hv => ?_⟩
      · exact countP_mem_flatten_eq_one _ v hnd ((hmem v).mpr ⟨hv, hc⟩)
      · rw [List.countP_eq_zero]
        intro e he hve
        obtain ⟨c, hc, hcv⟩ := hv
        have : v ∈ (getArbitraryStubEdges_pair nodesSet).flatten :=
          List.mem_flatten.mpr ⟨e, he, by simpa using hve⟩
        exact ((hmem v).mp this).2 c hc hcv
    · simp at h

/-- C2: when `getArbitraryStubEdges` succeeds, its stub edges are pairs `[a, b]` with
`a < b` whose ids, read in order, are strictly ascending and are exactly the node ids of
the map that are in no chain edge; so each such id is in exactly one stub edge and an id
that is in a chain edge is in no stub edge. -/
theorem getArbitraryStubEdges_pairs_untouched (endsToNodes : stHash)
    (chainEdges stubEdges : List stIntTuple)
    (h : getArbitraryStubEdges endsToNodes chainEdges = some stubEdges) :
    (∀ e ∈ stubEdges, ∃ a b, e = [a, b] ∧ a < b) ∧
    stubEdges.flatten.Sorted (fun a b => a < b) ∧
    (∀ v, v ∈ stubEdges.flatten ↔
      v ∈ stHash_getValues endsToNodes ∧ ∀ c ∈ chainEdges, ¬ edgeHasNode c v) ∧
    (∀ v, v ∈ stHash_getValues endsToNodes → (∀ c ∈ chainEdges, ¬ edgeHasNode c v) →
      stubEdges.countP (fun e => decide (v ∈ e)) = 1) ∧
    (∀ v, (∃ c ∈ chainEdges, edgeHasNode c v) →
      stubEdges.countP (fun e => decide (v ∈ e)) = 0) :=
  getArbitraryStubEdges_spec endsToNodes chainEdges stubEdges h

/-- Witness of C2: four nodes and the chain edge `[0, 1]`. -/
theorem getArbitraryStubEdges_pairs_untouched_witness :
    [[2, 3]].flatten.Sorted (fun a b => a < b) :=
  (getArbitraryStubEdges_pairs_untouched [(10, 0), (11, 1), (12, 2), (13, 3)] [[0, 1]] [[2, 3]]
    (by decide)).2.1

theorem edgeHasNode_pair (a b v : Nat) : edgeHasNode [a, b] v ↔ v ∈ [a, b] := by
  simp [edgeHasNode, stIntTuple_getPosition, eq_comm]

theorem countP_eq_one_unique {α : Type} (p : α → Bool) (l : List α) (a b : α)
    (h : l.countP p = 1) (ha : a ∈ l) (hb : b ∈ l) (pa : p a = true) (pb : p b = true) :
    a = b := by
  induction l with
  | nil => simp at ha
  | cons x l ih =>
    by_cases px : p x = true
    · rw [List.countP_cons_of_pos _ _ px] at h
      have hz : l.countP p = 0 := by omega
      rw [List.countP_eq_zero] at hz
      have hax : a = x := by
        rcases List.mem_cons.mp ha with h | h
        · exact h
        · exact absurd pa (hz a h)
      have hbx : b = x := by
        rcases List.mem_cons.mp hb with h | h
        · exact h
        · exact absurd pb (hz b h)
      rw [hax, hbx]
    · rw [List.countP_cons_of_neg _ _ px] at h
      have ha' : a ∈ l := by
        rcases List.mem_cons.mp ha with h | h
        · exact absurd (h ▸ pa) px
        · exact h
      have hb' : b ∈ l := by
        rcases List.mem_cons.mp hb with h | h
        · exact absurd (h ▸ pb) px
        · exact h
      exact ih h ha' hb'

theorem isPerfectMatching_covers (n : Nat) (edges : List stIntTuple)
    (h : isPerfectMatching n edges) (v : Nat) (hv : v < n) : ∃ e ∈ edges, v ∈ e := by
  have := h.2 v hv
  have hpos : 0 < edges.countP (fun e => decide (v ∈ e)) := by omega
  obtain ⟨e, he, hve⟩ := List.countP_pos_iff.mp hpos
  exact ⟨e, he, by simpa using hve⟩

theorem nodup_of_countP_le_one (l : List (List Nat))
    (h : ∀ e ∈ l, ∃ v ∈ e, l.countP (fun x => decide (v ∈ x)) ≤ 1) : l.Nodup := by
  induction l with
  | nil => exact List.nodup_nil
  | cons x l ih =>
    rw [List.nodup_cons]
    constructor
    · intro hx
      obtain ⟨v, hv, hc⟩ := h x (by simp)
      rw [List.countP_cons_of_pos _ _ (by simpa using hv)] at hc
      have hz : l.countP (fun x => decide (v ∈ x)) = 0 := by omega
      rw [List.countP_eq_zero] at hz
      exact hz x hx (by simpa using hv)
    · apply ih
      intro e he
      obtain ⟨v, hv, hc⟩ := h e (List.mem_cons_of_mem _ he)
      refine ⟨v, hv, le_trans ?_ hc⟩
      rw [List.countP_cons]
      omega

theorem isPerfectMatching_nodup (n : Nat) (edges : List stIntTuple)
    (h : isPerfectMatching n edges) : edges.Nodup := by
  apply nodup_of_countP_le_one
  intro e he
  obtain ⟨hl, _, hlt⟩ := h.1 e he
  match e, hl with
  | [a, b], _ =>
    exact ⟨a, by simp, le_of_eq (h.2 a (hlt a (by simp)))⟩

theorem isPerfectMatching_unique (n : Nat) (forced chosen : List stIntTuple)
    (hf : isPerfectMatching n forced) (hc : isPerfectMatching n chosen)
    (hsub : ∀ e ∈ forced, e ∈ chosen) : chosen.Perm forced := by
  rw [List.perm_ext_iff_of_nodup (isPerfectMatching_nodup n _ hc) (isPerfectMatching_nodup n _ hf)]
  intro e
  refine ⟨fun he => ?_, hsub e⟩
  obtain ⟨hl, _, hlt⟩ := hc.1 e he
  match e, hl with
  | [a, b], _ =>
    have ha : a < n := hlt a (by simp)
    obtain ⟨g, hg, hag⟩ := isPerfectMatching_covers n forced hf a ha
    have : [a, b] = g := countP_eq_one_unique _ chosen [a, b] g (hc.2 a ha) he (hsub g hg)
      (by simp) (by simpa using hag)
    rw [this]; exact hg

theorem getArbitraryStubEdges_matching (n : Nat) (endsToNodes : stHash)
    (chainEdges stubEdges : List stIntTuple)
    (hnodes : ∀ v, v ∈ stHash_getValues endsToNodes ↔ v < n)
    (hchain : ∀ c ∈ chainEdges, c.length = 2 ∧ c.Nodup ∧ ∀ v ∈ c, v < n)
    (hdisj : chainEdges.Pairwise List.Disjoint)
    (h : getArbitraryStubEdges endsToNodes chainEdges = some stubEdges) :
    isPerfectMatching n (chainEdges ++ stubEdges) := by
  obtain ⟨s1, s2, s3, s4, s5⟩ := getArbitraryStubEdges_spec endsToNodes chainEdges stubEdges h
  have hcn : chainEdges.flatten.Nodup :=
    List.nodup_flatten.mpr ⟨fun c hc => (hchain c hc).2.1, hdisj⟩
  have hiff : ∀ c ∈ chainEdges, ∀ v, edgeHasNode c v ↔ v ∈ c := by
    intro c hc v
    obtain ⟨hl, _, _⟩ := hchain c hc
    match c, hl with
    | [a, b], _ => exact edgeHasNode_pair a b v
  constructor
  · intro e he
    rcases List.mem_append.mp he with he | he
    · exact hchain e he
    · obtain ⟨a, b, rfl, hab⟩ := s1 _ he
      refine ⟨rfl, by simp [Nat.ne_of_lt hab], fun v hv => ?_⟩
      exact (hnodes v).mp ((s3 v).mp (List.mem_flatten.mpr ⟨_, he, hv⟩)).1
  · intro v hv
    rw [List.countP_append]
    by_cases ht : ∃ c ∈ chainEdges, v ∈ c
    · obtain ⟨c, hc, hvc⟩ := ht
      rw [countP_mem_flatten_eq_one chainEdges v hcn (List.mem_flatten.mpr ⟨c, hc, hvc⟩),
        s5 v ⟨c, hc, (hiff c hc v).mpr hvc⟩]
    · have hz : chainEdges.countP (fun e => decide (v ∈ e)) = 0 := by
        rw [List.countP_eq_zero]
        intro c hc hvc
        exact ht ⟨c, hc, by simpa using hvc⟩
      rw [hz, s4 v ((hnodes v).mpr hv)
        (fun c hc hcv => ht ⟨c, hc, (hiff c hc v).mp hcv⟩)]

/-- C3 (amended): at the root, when `getArbitraryStubEdges` succeeds on a node map with
the ids `[0, n)` and on chain edges that join two distinct ids below `n` and are pairwise
node-disjoint, the chain edges with the stub edges form a perfect matching of `[0, n)`,
and every perfect matching that contains all of them has exactly these edges. In
scenario A the chain edges are `[[0, 1]]`, the stub edges `[[2, 3]]`, and there are no
adjacency edges. -/
theorem getArbitraryStubEdges_completes_matching (n : Nat) (endsToNodes : stHash)
    (chainEdges stubEdges : List stIntTuple)
    (hnodes : ∀ v, v ∈ stHash_getValues endsToNodes ↔ v < n)
    (hchain : ∀ c ∈ chainEdges, c.length = 2 ∧ c.Nodup ∧ ∀ v ∈ c, v < n)
    (hdisj : chainEdges.Pairwise List.Disjoint)
    (h : getArbitraryStubEdges endsToNodes chainEdges = some stubEdges) :
    isPerfectMatching n (chainEdges ++ stubEdges) ∧
    (∀ chosen, isPerfectMatching n chosen → (∀ e ∈ chainEdges ++ stubEdges, e ∈ chosen) →
      chosen.Perm (chainEdges ++ stubEdges)) ∧
    (getMapOfTangleEndsToNodes scenarioA = [(0, 0), (1, 1), (2, 2), (3, 3)] ∧
      getChainEdges scenarioA (getMapOfTangleEndsToNodes scenarioA) = some [[0, 1]] ∧
      getArbitraryStubEdges (getMapOfTangleEndsToNodes scenarioA) [[0, 1]] = some [[2, 3]] ∧
      getAdjacencyEdges scenarioA (getMapOfTangleEndsToNodes scenarioA) = some [] ∧
      isPerfectMatching 4 ([[0, 1]] ++ [[2, 3]])) := by
  have hm := getArbitraryStubEdges_matching n endsToNodes chainEdges stubEdges hnodes hchain
    hdisj h
  refine ⟨hm, fun chosen hc hsub => isPerfectMatching_unique n _ chosen hm hc hsub, ?_⟩
  decide

/-- Witness of C3: four nodes and the chain edge `[0, 1]`. -/
theorem getArbitraryStubEdges_completes_matching_witness :
    isPerfectMatching 4 ([[0, 1]] ++ [[2, 3]]) :=
  (getArbitraryStubEdges_completes_matching 4 [(0, 0), (1, 1), (2, 2), (3, 3)] [[0, 1]] [[2, 3]]
    (by intro v; simp [stHash_getValues]; omega) (by decide) (List.pairwise_singleton _ _)
    (by decide)).1

/-- C3 (as stated, refuted): with two nodes and the chain edge `[0, 1]`, which alone is a
perfect matching of `[0, 2)`, no stub edges are returned: the run ends at the check that
some node is left. With three nodes and the same chain edge it ends at the check that
the number of nodes left is even. -/
theorem getArbitraryStubEdges_aborts_on_covering_chain :
    (∀ v, v ∈ stHash_getValues [(0, 0), (1, 1)] ↔ v < 2) ∧
    [[0, 1]].Pairwise List.Disjoint ∧
    isPerfectMatching 2 [[0, 1]] ∧
    getArbitraryStubEdges [(0, 0), (1, 1)] [[0, 1]] = none ∧
    getArbitraryStubEdges [(0, 0), (1, 1), (2, 2)] [[0, 1]] = none := by
  refine ⟨by intro v; simp [stHash_getValues]; omega, List.pairwise_singleton _ _, by decide,
    by decide, by decide⟩

/-! ### Node maps -/

theorem stHash_insert_fresh (h : stHash) (k v : Nat) (hk : ∀ p ∈ h, p.1 ≠ k) :
    stHash_insert h k v = h ++ [(k, v)] := by
  unfold stHash_insert
  rw [List.filter_eq_self.mpr]
  intro p hp
  simpa using hk p hp

theorem getMapOfTangleEndsToNodes_fold (es : List Nat) (h : stHash) (k : Nat)
    (hn : es.Nodup) (hd : ∀ e ∈ es, ∀ p ∈ h, p.1 ≠ e) :
    es.foldl (fun st e => getMapOfTangleEndsToIntegersP e st) (h, k) =
      (h ++ es.zip (List.range' k es.length), k + es.length) := by
  induction es generalizing h k with
  | nil => simp
  | cons x es ih =>
    obtain ⟨hx, hn'⟩ := List.nodup_cons.mp hn
    have hstep : getMapOfTangleEndsToIntegersP x (h, k) = (h ++ [(x, k)], k + 1) := by
      simp [getMapOfTangleEndsToIntegersP, stHash_insert_fresh h x k (hd x (by simp))]
    simp only [List.foldl_cons]
    rw [hstep, ih _ _ hn']
    · simp [List.range'_succ, List.append_assoc]
      omega
    · intro e he p hp
      rcases List.mem_append.mp hp with hp | hp
      · exact hd e (List.mem_cons_of_mem _ he) p hp
      · have : p = (x, k) := by simpa using hp
        rw [this]
        intro hxe
        have hxe' : x = e := hxe
        exact hx (hxe' ▸ he)

theorem lookup_zip_range' (es : List Nat) (k e v : Nat) (hn : es.Nodup) :
    List.lookup e (es.zip (List.range' k es.length)) = some v ↔
      ∃ i, es[i]? = some e ∧ v = k + i := by
  induction es generalizing k with
  | nil => simp
  | cons x es ih =>
    obtain ⟨hx, hn'⟩ := List.nodup_cons.mp hn
    simp only [List.length_cons, List.range'_succ, List.zip_cons_cons, List.lookup_cons]
    by_cases hex : e = x
    · subst hex
      simp only [beq_self_eq_true, Option.some.injEq]
      constructor
      · rintro rfl
        exact ⟨0, by simp⟩
      · rintro ⟨i, hi, rfl⟩
        cases i with
        | zero => rfl
        | succ j =>
          simp only [List.getElem?_cons_succ] at hi
          exact absurd (List.getElem?_mem hi) hx
    · have hb : (e == x) = false := by simpa using hex
      simp only [hb]
      rw [ih (k + 1) hn']
      constructor
      · rintro ⟨i, hi, rfl⟩
        exact ⟨i + 1, by simpa using hi, by omega⟩
      · rintro ⟨i, hi, rfl⟩
        cases i with
        | zero =>
          simp only [List.getElem?_cons_zero, Option.some.injEq] at hi
          exact absurd hi.symm hex
        | succ j => exact ⟨j, by simpa using hi, by omega⟩

theorem lookup_range'_zip (es : List Nat) (k i e : Nat) :
    List.lookup i ((List.range' k es.length).zip es) = some e ↔
      ∃ j, es[j]? = some e ∧ i = k + j := by
  induction es generalizing k with
  | nil => simp
  | cons x es ih =>
    simp only [List.length_cons, List.range'_succ, List.zip_cons_cons, List.lookup_cons]
    by_cases hik : i = k
    · subst hik
      simp only [beq_self_eq_true, Option.some.injEq]
      constructor
      · rintro rfl
        exact ⟨0, by simp⟩
      · rintro ⟨j, hj, hij⟩
        have : j = 0 := by omega
        subst this
        simpa using hj
    · have hb : (i == k) = false := by simpa using hik
      simp only [hb]
      rw [ih (k + 1)]
      constructor
      · rintro ⟨j, hj, rfl⟩
        exact ⟨j + 1, by simpa using hj, by omega⟩
      · rintro ⟨j, hj, rfl⟩
        cases j with
        | zero => exact absurd rfl hik
        | succ j => exact ⟨j, by simpa using hj, by omega⟩

theorem getMapOfNodesToTangleEnds_fold (m : stHash) (ks : List Nat) (acc : stHash) (k : Nat)
    (hm : ∀ j, ∀ hj : j < ks.length, stHash_search m ks[j] = some (k + j))
    (hacc : ∀ p ∈ acc, p.1 < k) :
    ks.foldl (getMapOfNodesToTangleEnds_step m) acc =
      acc ++ (List.range' k ks.length).zip ks := by
  induction ks generalizing acc k with
  | nil => simp
  | cons x ks ih =>
    have h0 : stHash_search m x = some k := by simpa using hm 0 (by simp)
    have hstep : getMapOfNodesToTangleEnds_step m acc x = acc ++ [(k, x)] := by
      simp only [getMapOfNodesToTangleEnds_step, h0]
      exact stHash_insert_fresh acc k x (fun p hp => Nat.ne_of_lt (hacc p hp))
    simp only [List.foldl_cons]
    rw [hstep , ih _ (k + 1)]
    · simp [List.range'_succ, List.append_assoc]
    · intro j hj
      have := hm (j + 1) (by simp; omega)
      simp only [List.getElem_cons_succ] at this
      rw [this]; congr 1; omega
    · intro p hp
      rcases List.mem_append.mp hp with hp | hp
      · exact Nat.lt_succ_of_lt (hacc p hp)
      · have : p = (k, x) := by simpa using hp
        rw [this]; exact Nat.lt_succ_self k

theorem iterateOverTangleEnds_mem (f : Flower) (e : Nat) :
    e ∈ iterateOverTangleEnds f ↔ end_groupIsTangle f e = some true := by
  unfold iterateOverTangleEnds flower_getGroupIterator end_groupIsTangle
  rw [List.mem_flatMap]
  constructor
  · rintro ⟨g, hg, he⟩
    cases hgrp : f.groups[g]? with
    | none => simp [hgrp] at he
    | some grp =>
      simp only [hgrp] at he
      by_cases ht : group_isTangle grp = true
      · simp only [ht, if_true, group_getEndIterator, List.mem_filter, beq_iff_eq] at he
        simp [he.2, hgrp, ht]
      · simp [ht] at he
  · intro h
    cases hg : end_getGroup f e with
    | none => simp [hg] at h
    | some g =>
      simp only [hg] at h
      cases hgrp : f.groups[g]? with
      | none => simp [hgrp] at h
      | some grp =>
        have ht : group_isTangle grp = true := by simpa [hgrp] using h
        have hlt : g < f.groups.length := (List.getElem?_eq_some_iff.mp hgrp).1
        have helt : e < f.ends.length := by
          unfold end_getGroup at hg
          cases hen : f.ends[e]? with
          | none => simp [hen] at hg
          | some en => exact (List.getElem?_eq_some_iff.mp hen).1
        refine ⟨g, List.mem_range.mpr hlt, ?_⟩
        simp [hgrp, ht, group_getEndIterator, hg, helt]

theorem iterateOverTangleEnds_nodup (f : Flower) : (iterateOverTangleEnds f).Nodup := by
  unfold iterateOverTangleEnds flower_getGroupIterator
  rw [List.nodup_flatMap]
  constructor
  · intro g _
    cases f.groups[g]? with
    | none => exact List.nodup_nil
    | some grp =>
      by_cases ht : group_isTangle grp = true
      · simp only [ht, if_true, group_getEndIterator]
        exact (List.nodup_range _).filter _
      · simp [ht]
  · apply (List.nodup_range _).pairwise_of_forall_ne
    intro a _ b _ hab
    intro e hea heb
    have ha : end_getGroup f e = some a := by
      cases hgrp : f.groups[a]? with
      | none => simp [hgrp] at hea
      | some grp =>
        by_cases ht : group_isTangle grp = true
        · simp only [hgrp, ht, if_true, group_getEndIterator, List.mem_filter, beq_iff_eq] at hea
          exact hea.2
        · simp [hgrp, ht] at hea
    have hb : end_getGroup f e = some b := by
      cases hgrp : f.groups[b]? with
      | none => simp [hgrp] at heb
      | some grp =>
        by_cases ht : group_isTangle grp = true
        · simp only [hgrp, ht, if_true, group_getEndIterator, List.mem_filter, beq_iff_eq] at heb
          exact heb.2
        · simp [hgrp, ht] at heb
    rw [ha] at hb
    exact hab (Option.some.inj hb)

theorem getMapOfTangleEndsToNodes_eq (f : Flower) :
    getMapOfTangleEndsToNodes f =
      (iterateOverTangleEnds f).zip (List.range' 0 (iterateOverTangleEnds f).length) := by
  unfold getMapOfTangleEndsToNodes
  rw [getMapOfTangleEndsToNodes_fold _ [] 0 (iterateOverTangleEnds_nodup f) (by simp)]
  simp

theorem stHash_search_endsToNodes (f : Flower) (e v : Nat) :
    stHash_search (getMapOfTangleEndsToNodes f) e = some v ↔
      (iterateOverTangleEnds f)[v]? = some e := by
  unfold stHash_search
  rw [getMapOfTangleEndsToNodes_eq, lookup_zip_range' _ 0 e v (iterateOverTangleEnds_nodup f)]
  constructor
  · rintro ⟨i, hi, rfl⟩
    simpa using hi
  · intro h
    exact ⟨v, h, by omega⟩

theorem getMapOfNodesToTangleEnds_eq (f : Flower) :
    getMapOfNodesToTangleEnds (getMapOfTangleEndsToNodes f) =
      (List.range' 0 (iterateOverTangleEnds f).length).zip (iterateOverTangleEnds f) := by
  unfold getMapOfNodesToTangleEnds
  have hk : stHash_getKeys (getMapOfTangleEndsToNodes f) = iterateOverTangleEnds f := by
    unfold stHash_getKeys
    rw [getMapOfTangleEndsToNodes_eq]
    have := List.map_fst_zip (iterateOverTangleEnds f)
      (List.range' 0 (iterateOverTangleEnds f).length) (by simp)
    exact this
  rw [hk, getMapOfNodesToTangleEnds_fold _ _ [] 0 _ (by simp)]
  · simp
  · intro j hj
    rw [stHash_search_endsToNodes]
    simp [hj]

theorem getEndFromNode_nodesToEnds (f : Flower) (e v : Nat) :
    getEndFromNode (getMapOfNodesToTangleEnds (getMapOfTangleEndsToNodes f)) v = some e ↔
      (iterateOverTangleEnds f)[v]? = some e := by
  unfold getEndFromNode stHash_search
  rw [getMapOfNodesToTangleEnds_eq, lookup_range'_zip]
  constructor
  · rintro ⟨i, hi, rfl⟩
    simpa using hi
  · intro h
    exact ⟨v, h, by omega⟩

theorem stHash_size_endsToNodes (f : Flower) :
    stHash_size (getMapOfTangleEndsToNodes f) = (iterateOverTangleEnds f).length := by
  unfold stHash_size
  rw [getMapOfTangleEndsToNodes_eq]
  simp

theorem stHash_search_endsToNodes_none (f : Flower) (e : Nat) :
    stHash_search (getMapOfTangleEndsToNodes f) e = none ↔
      end_groupIsTangle f e ≠ some true := by
  rw [ne_eq, ← iterateOverTangleEnds_mem, List.mem_iff_getElem?]
  constructor
  · rintro h ⟨v, hv⟩
    rw [← stHash_search_endsToNodes] at hv
    rw [h] at hv
    exact Option.noConfusion hv
  · intro h
    cases hs : stHash_search (getMapOfTangleEndsToNodes f) e with
    | none => rfl
    | some v => exact absurd ⟨v, (stHash_search_endsToNodes f e v).mp hs⟩ h

theorem getEndFromNode_nodesToEnds_none (f : Flower) (v : Nat) :
    getEndFromNode (getMapOfNodesToTangleEnds (getMapOfTangleEndsToNodes f)) v = none ↔
      ¬ v < stHash_size (getMapOfTangleEndsToNodes f) := by
  rw [stHash_size_endsToNodes]
  constructor
  · intro h hv
    have := (getEndFromNode_nodesToEnds f (iterateOverTangleEnds f)[v] v).mpr
      (List.getElem?_eq_getElem hv)
    rw [h] at this
    exact Option.noConfusion this
  · intro h
    cases hs : getEndFromNode (getMapOfNodesToTangleEnds (getMapOfTangleEndsToNodes f)) v with
    | none => rfl
    | some e =>
      have := (getEndFromNode_nodesToEnds f e v).mp hs
      exact absurd (List.getElem?_eq_some_iff.mp this).1 h

/-- C4: an end has one group field, so it lies in at most one group. The map of
`getMapOfTangleEndsToNodes` has as many entries as there are tangle ends; the end visited
at position `k` gets the id `k`; every end of a tangle group has an id below that number
and every id below it is the id of an end of a tangle group; an end that is not in a
tangle group gets no id; and `getMapOfNodesToTangleEnds` is the inverse map: the id of
`e` is `v` exactly when the end of `v` is `e`. -/
theorem nodeMaps_bijection (f : Flower) :
    stHash_size (getMapOfTangleEndsToNodes f) = (iterateOverTangleEnds f).length ∧
    (∀ e, e ∈ iterateOverTangleEnds f ↔ end_groupIsTangle f e = some true) ∧
    (∀ k e, (iterateOverTangleEnds f)[k]? = some e →
      stHash_search (getMapOfTangleEndsToNodes f) e = some k) ∧
    (∀ e, end_groupIsTangle f e = some true →
      ∃ v, v < stHash_size (getMapOfTangleEndsToNodes f) ∧
        stHash_search (getMapOfTangleEndsToNodes f) e = some v) ∧
    (∀ v, v < stHash_size (getMapOfTangleEndsToNodes f) →
      ∃ e, end_groupIsTangle f e = some true ∧
        getEndFromNode (getMapOfNodesToTangleEnds (getMapOfTangleEndsToNodes f)) v = some e) ∧
    (∀ e v, stHash_search (getMapOfTangleEndsToNodes f) e = some v ↔
      getEndFromNode (getMapOfNodesToTangleEnds (getMapOfTangleEndsToNodes f)) v = some e) ∧
    (∀ e, end_groupIsTangle f e ≠ some true →
      stHash_search (getMapOfTangleEndsToNodes f) e = none) := by
  refine ⟨stHash_size_endsToNodes f, iterateOverTangleEnds_mem f,
    fun k e h => (stHash_search_endsToNodes f e k).mpr h, fun e he => ?_, fun v hv => ?_,
    fun e v => ?_, fun e he => (stHash_search_endsToNodes_none f e).mpr he⟩
  · obtain ⟨v, hv⟩ := List.mem_iff_getElem?.mp ((iterateOverTangleEnds_mem f e).mpr he)
    refine ⟨v, ?_, (stHash_search_endsToNodes f e v).mpr hv⟩
    rw [stHash_size_endsToNodes]
    exact (List.getElem?_eq_some_iff.mp hv).1
  · rw [stHash_size_endsToNodes] at hv
    refine ⟨(iterateOverTangleEnds f)[v], ?_, ?_⟩
    · exact (iterateOverTangleEnds_mem f _).mp (List.getElem_mem hv)
    · exact (getEndFromNode_nodesToEnds f _ v).mpr (List.getElem?_eq_getElem hv)
  · rw [stHash_search_endsToNodes, getEndFromNode_nodesToEnds]

/-- C5: the lookup of an end in the map from ends to nodes fails exactly when the end is
not in a tangle group of the flower, so `getEdge` fails exactly when one of its two ends
is not; `getEndFromNode` fails exactly when the id is not below the number of nodes. -/
theorem nodeMap_lookups_fail_outside_domain (f : Flower) :
    (∀ e, stHash_search (getMapOfTangleEndsToNodes f) e = none ↔
      end_groupIsTangle f e ≠ some true) ∧
    (∀ e1 e2, getEdge e1 e2 (getMapOfTangleEndsToNodes f) = none ↔
      (end_groupIsTangle f e1 ≠ some true ∨ end_groupIsTangle f e2 ≠ some true)) ∧
    (∀ v, getEndFromNode (getMapOfNodesToTangleEnds (getMapOfTangleEndsToNodes f)) v = none ↔
      ¬ v < stHash_size (getMapOfTangleEndsToNodes f)) := by
  refine ⟨stHash_search_endsToNodes_none f, fun e1 e2 => ?_, getEndFromNode_nodesToEnds_none f⟩
  rw [← stHash_search_endsToNodes_none, ← stHash_search_endsToNodes_none]
  unfold getEdge
  cases stHash_search (getMapOfTangleEndsToNodes f) e1 <;>
    cases stHash_search (getMapOfTangleEndsToNodes f) e2 <;> simp

/-! ### What the changes of the graph keep -/

theorem Grows.refl (f : Flower) : Grows f f :=
  ⟨fun _ en h => ⟨en, h, rfl, rfl, rfl, rfl, rfl⟩,
    fun _ cap h => ⟨cap, h, rfl, rfl, rfl, fun _ hx => hx⟩,
    fun _ blk h => ⟨blk, h, rfl, rfl, rfl, rfl⟩, rfl, rfl, rfl, rfl, fun _ h => h⟩

theorem Grows.trans {f g k : Flower} (h1 : Grows f g) (h2 : Grows g k) : Grows f k := by
  obtain ⟨a1, a2, a3, a4, a5, a6, a7, a8⟩ := h1
  obtain ⟨b1, b2, b3, b4, b5, b6, b7, b8⟩ := h2
  refine ⟨fun e en h => ?_, fun c cap h => ?_, fun b blk h => ?_, by rw [b4, a4],
    by rw [b5, a5], by rw [b6, a6], by rw [b7, a7], fun ev h => b8 ev (a8 ev h)⟩
  · obtain ⟨en1, h1, p1, p2, p3, p4, p5⟩ := a1 e en h
    obtain ⟨en2, h2, q1, q2, q3, q4, q5⟩ := b1 e en1 h1
    exact ⟨en2, h2, by rw [q1, p1], by rw [q2, p2], by rw [q3, p3], by rw [q4, p4],
      by rw [q5, p5]⟩
  · obtain ⟨c1, h1, p1, p2, p3, p4⟩ := a2 c cap h
    obtain ⟨c2, h2, q1, q2, q3, q4⟩ := b2 c c1 h1
    exact ⟨c2, h2, by rw [q1, p1], by rw [q2, p2], by rw [q3, p3],
      fun x hx => q4 x (p4 x hx)⟩
  · obtain ⟨k1, h1, p1, p2, p3, p4⟩ := a3 b blk h
    obtain ⟨k2, h2, q1, q2, q3, q4⟩ := b3 b k1 h1
    exact ⟨k2, h2, by rw [q1, p1], by rw [q2, p2], by rw [q3, p3], by rw [q4, p4]⟩

theorem getElem?_append_of_some {α : Type} (l t : List α) (i : Nat) (a : α)
    (h : l[i]? = some a) : (l ++ t)[i]? = some a := by
  rw [List.getElem?_append_left (List.getElem?_eq_some_iff.mp h).1]
  exact h

theorem Grows.end_setGroup (f : Flower) (e : Nat) (g : Option Nat) :
    Grows f (end_setGroup f e g) := by
  unfold BuildReference.end_setGroup
  cases he : f.ends[e]? with
  | none => exact Grows.refl f
  | some en =>
    refine ⟨fun e' en' h => ?_, fun _ cap h => ⟨cap, h, rfl, rfl, rfl, fun _ hx => hx⟩,
      fun _ blk h => ⟨blk, h, rfl, rfl, rfl, rfl⟩, rfl, rfl, rfl, rfl, fun _ h => h⟩
    simp only [List.getElem?_set]
    by_cases hee : e = e'
    · subst hee
      have hlt := (List.getElem?_eq_some_iff.mp he).1
      rw [he] at h
      cases h
      exact ⟨{ en with group := g }, by simp [hlt], rfl, rfl, rfl, rfl, rfl⟩
    · exact ⟨en', by simp [hee, h], rfl, rfl, rfl, rfl, rfl⟩

theorem Grows.block_construct (length : Nat) (f : Flower) :
    Grows f (block_construct length f).2 := by
  unfold BuildReference.block_construct
  exact ⟨fun e en h => ⟨en, getElem?_append_of_some _ _ _ _ h, rfl, rfl, rfl, rfl, rfl⟩,
    fun _ cap h => ⟨cap, h, rfl, rfl, rfl, fun _ hx => hx⟩,
    fun b blk h => ⟨blk, getElem?_append_of_some _ _ _ _ h, rfl, rfl, rfl, rfl⟩,
    rfl, rfl, rfl, rfl, fun _ h => h⟩

theorem Grows.end_copyConstruct (parentEnd : End) (f : Flower) :
    Grows f (end_copyConstruct parentEnd f).2 := by
  unfold BuildReference.end_copyConstruct
  exact ⟨fun e en h => ⟨en, getElem?_append_of_some _ _ _ _ h, rfl, rfl, rfl, rfl, rfl⟩,
    fun _ cap h => ⟨cap, h, rfl, rfl, rfl, fun _ hx => hx⟩,
    fun b blk h => ⟨blk, h, rfl, rfl, rfl, rfl⟩,
    rfl, rfl, rfl, rfl, fun _ h => h⟩

theorem Grows.cap_construct (f : Flower) (e : Nat) (event : Event) :
    Grows f (cap_construct f e event).2 := by
  unfold BuildReference.cap_construct
  exact ⟨fun e en h => ⟨en, h, rfl, rfl, rfl, rfl, rfl⟩,
    fun _ cap h => ⟨cap, getElem?_append_of_some _ _ _ _ h, rfl, rfl, rfl, fun _ hx => hx⟩,
    fun b blk h => ⟨blk, h, rfl, rfl, rfl, rfl⟩,
    rfl, rfl, rfl, rfl, fun _ h => h⟩

theorem Grows.segment_construct (f g : Flower) (b : Nat) (event : Event)
    (h : segment_construct f b event = some g) : Grows f g := by
  unfold BuildReference.segment_construct at h
  cases hb : f.blocks[b]? with
  | none => simp [hb] at h
  | some blk =>
    simp only [hb, Option.some.injEq] at h
    subst h
    refine ⟨fun e en h => ⟨en, h, rfl, rfl, rfl, rfl, rfl⟩,
      fun _ cap h => ⟨cap, getElem?_append_of_some _ _ _ _ h, rfl, rfl, rfl, fun _ hx => hx⟩,
      fun b' blk' h => ?_, rfl, rfl, rfl, rfl, fun _ h => h⟩
    simp only [List.getElem?_set]
    by_cases hbb : b = b'
    · subst hbb
      have hlt := (List.getElem?_eq_some_iff.mp hb).1
      rw [hb] at h
      cases h
      exact ⟨{ blk with segments := blk.segments ++ [event.name] }, by simp [hlt], rfl, rfl,
        rfl, rfl⟩
    · exact ⟨blk', by simp [hbb, h], rfl, rfl, rfl, rfl⟩

theorem Grows.cap_setAdjacency (f : Flower) (c : Nat) (a : Option Nat)
    (hc : cap_getAdjacency f c = none) : Grows f (cap_setAdjacency f c a) := by
  unfold BuildReference.cap_setAdjacency
  cases hcap : f.caps[c]? with
  | none => exact Grows.refl f
  | some cap =>
    refine ⟨fun e en h => ⟨en, h, rfl, rfl, rfl, rfl, rfl⟩, fun c' cap' h => ?_,
      fun _ blk h => ⟨blk, h, rfl, rfl, rfl, rfl⟩, rfl, rfl, rfl, rfl, fun _ h => h⟩
    simp only [List.getElem?_set]
    by_cases hcc : c = c'
    · subst hcc
      have hlt := (List.getElem?_eq_some_iff.mp hcap).1
      rw [hcap] at h
      cases h
      have hnone : cap.adjacency = none := by
        simpa [cap_getAdjacency, hcap] using hc
      exact ⟨{ cap with adjacency := a }, by simp [hlt], rfl, rfl, rfl,
        fun x hx => by rw [hnone] at hx; cases hx⟩
    · exact ⟨cap', by simp [hcc, h], rfl, rfl, rfl, fun _ hx => hx⟩

theorem cap_getAdjacency_setAdjacency_ne (f : Flower) (c c' : Nat) (a : Option Nat)
    (h : c ≠ c') : cap_getAdjacency (cap_setAdjacency f c a) c' = cap_getAdjacency f c' := by
  unfold cap_getAdjacency cap_setAdjacency
  cases hcap : f.caps[c]? with
  | none => rfl
  | some cap => simp [List.getElem?_set, h]

theorem cap_getAdjacency_setAdjacency_self (f : Flower) (c : Nat) (a : Option Nat)
    (h : c < f.caps.length) : cap_getAdjacency (cap_setAdjacency f c a) c = a := by
  unfold cap_getAdjacency cap_setAdjacency
  have hcap : f.caps[c]? = some f.caps[c] := List.getElem?_eq_getElem h
  simp [hcap, h]

theorem Grows.event_construct (name : Nat) (header : String) (branchLength parentEvent : Nat)
    (f : Flower) : Grows f (event_construct name header branchLength parentEvent f).2 := by
  unfold BuildReference.event_construct
  exact ⟨fun e en h => ⟨en, h, rfl, rfl, rfl, rfl, rfl⟩,
    fun _ cap h => ⟨cap, h, rfl, rfl, rfl, fun _ hx => hx⟩,
    fun b blk h => ⟨blk, h, rfl, rfl, rfl, rfl⟩,
    rfl, rfl, rfl, rfl, fun _ h => List.mem_append_left _ h⟩

/-! ### Caps for the reference event -/

theorem getCapWithEvent_eq_some (f : Flower) (e : Nat) (event : Event) (c : Nat) :
    getCapWithEvent f e event = some c ↔
      isCapOf f e event c = true ∧ ∀ j, j < c → isCapOf f e event j = false := by
  unfold getCapWithEvent end_getInstanceIterator
  rw [List.find?_filter, List.find?_range_eq_some]
  simp only [isCapOf, Bool.and_eq_true, beq_iff_eq, decide_eq_true_eq, List.mem_range,
    Bool.not_eq_true', decide_eq_false_iff_not, Bool.and_eq_false_iff, Bool.decide_and]
  constructor
  · rintro ⟨h1, _, h3⟩
    refine ⟨h1, fun j hj => ?_⟩
    have := h3 j hj
    simpa [Bool.and_eq_false_iff] using this
  · rintro ⟨h1, h3⟩
    refine ⟨h1, ?_, fun j hj => ?_⟩
    · cases hc : f.caps[c]? with
      | none => simp [hc] at h1
      | some cap => exact (List.getElem?_eq_some_iff.mp hc).1
    · have := h3 j hj
      simpa [Bool.and_eq_false_iff] using this

theorem getCapWithEvent_eq_none (f : Flower) (e : Nat) (event : Event) :
    getCapWithEvent f e event = none ↔ ∀ c, isCapOf f e event c = false := by
  constructor
  · intro h c
    induction c using Nat.strong_induction_on with
    | _ c ih =>
      by_contra hc
      have hc' : isCapOf f e event c = true := by simpa using hc
      have := (getCapWithEvent_eq_some f e event c).mpr ⟨hc', ih⟩
      rw [h] at this
      exact Option.noConfusion this
  · intro h
    cases hg : getCapWithEvent f e event with
    | none => rfl
    | some c =>
      have := ((getCapWithEvent_eq_some f e event c).mp hg).1
      rw [h c] at this
      exact Bool.noConfusion this

theorem isCapOf_lt (f : Flower) (e : Nat) (event : Event) (c : Nat)
    (h : isCapOf f e event c = true) : c < f.caps.length := by
  unfold isCapOf at h
  cases hc : f.caps[c]? with
  | none => simp [hc] at h
  | some cap => exact (List.getElem?_eq_some_iff.mp hc).1

theorem isCapOf_of_grows {f g : Flower} (h : Grows f g) (e : Nat) (event : Event) (c : Nat)
    (hc : c < f.caps.length) : isCapOf g e event c = isCapOf f e event c := by
  obtain ⟨cap', h1, h2, h3, _, _⟩ := h.2.1 c f.caps[c] (List.getElem?_eq_getElem hc)
  unfold isCapOf
  rw [h1, List.getElem?_eq_getElem hc]
  simp [h2, h3]

theorem getCapWithEvent_of_grows {f g : Flower} (h : Grows f g) (e : Nat) (event : Event)
    (c : Nat) (hc : getCapWithEvent f e event = some c) : getCapWithEvent g e event = some c := by
  rw [getCapWithEvent_eq_some] at hc ⊢
  have hlt := isCapOf_lt f e event c hc.1
  refine ⟨by rw [isCapOf_of_grows h e event c hlt]; exact hc.1, fun j hj => ?_⟩
  rw [isCapOf_of_grows h e event j (by omega)]
  exact hc.2 j hj

theorem cap_getAdjacency_of_grows {f g : Flower} (h : Grows f g) (c x : Nat)
    (hc : cap_getAdjacency f c = some x) : cap_getAdjacency g c = some x := by
  unfold cap_getAdjacency at hc ⊢
  cases hcap : f.caps[c]? with
  | none => simp [hcap] at hc
  | some cap =>
    obtain ⟨cap', h1, _, _, _, h5⟩ := h.2.1 c cap hcap
    rw [h1]
    rw [hcap] at hc
    exact h5 x hc

theorem getCapWithEvent_cap_construct (f : Flower) (e : Nat) (event : Event)
    (h : getCapWithEvent f e event = none) :
    getCapWithEvent (cap_construct f e event).2 e event = some f.caps.length := by
  rw [getCapWithEvent_eq_some]
  rw [getCapWithEvent_eq_none] at h
  constructor
  · simp [isCapOf, cap_construct]
  · intro j hj
    rw [isCapOf_of_grows (Grows.cap_construct f e event) e event j hj]
    exact h j

theorem makeCapWithEvent_ok (f g : Flower) (e cap : Nat) (event : Event)
    (h : makeCapWithEvent f e event = .ok cap g) :
    Grows f g ∧ getCapWithEvent g e event = some cap := by
  unfold makeCapWithEvent at h
  cases hc : getCapWithEvent f e event with
  | some c =>
    simp only [hc, Outcome.ok.injEq] at h
    obtain ⟨rfl, rfl⟩ := h
    exact ⟨Grows.refl f, hc⟩
  | none =>
    simp only [hc] at h
    cases hb : end_isBlockEnd f e with
    | none => simp [hb] at h
    | some isBlock =>
      cases isBlock with
      | true =>
        simp only [hb] at h
        cases hs : (end_getBlock f e).bind (fun b => segment_construct f b event) with
        | none => simp [hs] at h
        | some f1 =>
          simp only [hs] at h
          cases hc1 : getCapWithEvent f1 e event with
          | none => simp [hc1] at h
          | some c1 =>
            simp only [hc1, Outcome.ok.injEq] at h
            obtain ⟨rfl, rfl⟩ := h
            obtain ⟨b, _, hb2⟩ := Option.bind_eq_some.mp hs
            exact ⟨Grows.segment_construct f f1 b event hb2, hc1⟩
      | false =>
        simp only [hb, Outcome.ok.injEq] at h
        obtain ⟨rfl, rfl⟩ := h
        exact ⟨Grows.cap_construct f e event, getCapWithEvent_cap_construct f e event hc⟩

theorem makeCapWithEvent_of_some (f : Flower) (e c : Nat) (event : Event)
    (h : getCapWithEvent f e event = some c) : makeCapWithEvent f e event = .ok c f := by
  unfold makeCapWithEvent
  simp [h]

theorem cap_makeAdjacent_spec (f g : Flower) (c1 c2 : Nat)
    (h1 : cap_getAdjacency f c1 = none) (h2 : cap_getAdjacency f c2 = none)
    (l1 : c1 < f.caps.length) (l2 : c2 < f.caps.length)
    (h : cap_makeAdjacent f c1 c2 = some g) :
    Grows f g ∧ cap_getAdjacency g c1 = some c2 ∧ cap_getAdjacency g c2 = some c1 := by
  unfold cap_makeAdjacent at h
  by_cases hcc : c1 = c2
  · simp [hcc] at h
  · simp only [hcc, if_false, Option.some.injEq] at h
    subst h
    have g1 := Grows.cap_setAdjacency f c1 (some c2) h1
    have h2' : cap_getAdjacency (cap_setAdjacency f c1 (some c2)) c2 = none := by
      rw [cap_getAdjacency_setAdjacency_ne f c1 c2 _ hcc]; exact h2
    have g2 := Grows.cap_setAdjacency (cap_setAdjacency f c1 (some c2)) c2 (some c1) h2'
    have l2' : c2 < (cap_setAdjacency f c1 (some c2)).caps.length := by
      unfold cap_setAdjacency
      cases f.caps[c1]? <;> simp [l2]
    refine ⟨g1.trans g2, ?_, cap_getAdjacency_setAdjacency_self _ c2 _ l2'⟩
    rw [cap_getAdjacency_setAdjacency_ne _ c2 c1 _ (Ne.symm hcc)]
    exact cap_getAdjacency_setAdjacency_self f c1 _ l1

/-! ### `addAdjacenciesAndSegments` -/

theorem addAdjacenciesAndSegments_step_ok (nodesToEnds : stHash) (referenceEvent : Event)
    (f g : Flower) (edge : stIntTuple)
    (h : addAdjacenciesAndSegments_step nodesToEnds referenceEvent f edge = .ok () g) :
    ∃ node1 node2 end1 end2 cap1 cap2 f1 f2,
      stIntTuple_getPosition edge 0 = some node1 ∧ stIntTuple_getPosition edge 1 = some node2 ∧
      getEndFromNode nodesToEnds node1 = some end1 ∧
      getEndFromNode nodesToEnds node2 = some end2 ∧
      makeCapWithEvent f end1 referenceEvent = .ok cap1 f1 ∧
      makeCapWithEvent f1 end2 referenceEvent = .ok cap2 f2 ∧
      cap_getAdjacency f2 cap1 = none ∧ cap_getAdjacency f2 cap2 = none ∧
      cap_makeAdjacent f2 cap1 cap2 = some g := by
  unfold addAdjacenciesAndSegments_step at h
  cases h1 : (stIntTuple_getPosition edge 0).bind (getEndFromNode nodesToEnds) with
  | none => simp [h1] at h
  | some end1 =>
    cases h2 : (stIntTuple_getPosition edge 1).bind (getEndFromNode nodesToEnds) with
    | none => simp [h1, h2] at h
    | some end2 =>
      simp only [h1, h2] at h
      cases m1 : makeCapWithEvent f end1 referenceEvent with
      | abort f1 => simp [m1] at h
      | ok cap1 f1 =>
        simp only [m1] at h
        cases m2 : makeCapWithEvent f1 end2 referenceEvent with
        | abort f2 => simp [m2] at h
        | ok cap2 f2 =>
          simp only [m2] at h
          split at h
          · rename_i hadj
            cases m3 : cap_makeAdjacent f2 cap1 cap2 with
            | none => simp [m3] at h
            | some f3 =>
              simp only [m3, Outcome.ok.injEq, true_and] at h
              subst h
              obtain ⟨node1, p1, q1⟩ := Option.bind_eq_some.mp h1
              obtain ⟨node2, p2, q2⟩ := Option.bind_eq_some.mp h2
              exact ⟨node1, node2, end1, end2, cap1, cap2, f1, f2, p1, p2, q1, q2, m1, m2,
                hadj.1, hadj.2, m3⟩
          · simp at h

theorem addAdjacenciesAndSegments_step_spec (nodesToEnds : stHash) (referenceEvent : Event)
    (f g : Flower) (edge : stIntTuple)
    (h : addAdjacenciesAndSegments_step nodesToEnds referenceEvent f edge = .ok () g) :
    Grows f g ∧ edgeIsLinked g nodesToEnds referenceEvent edge := by
  obtain ⟨node1, node2, end1, end2, cap1, cap2, f1, f2, p1, p2, q1, q2, m1, m2, a1, a2, m3⟩ :=
    addAdjacenciesAndSegments_step_ok nodesToEnds referenceEvent f g edge h
  obtain ⟨g1, c1⟩ := makeCapWithEvent_ok f f1 end1 cap1 referenceEvent m1
  obtain ⟨g2, c2⟩ := makeCapWithEvent_ok f1 f2 end2 cap2 referenceEvent m2
  have c1' := getCapWithEvent_of_grows g2 end1 referenceEvent cap1 c1
  have l1 := isCapOf_lt f2 _ _ _ ((getCapWithEvent_eq_some f2 end1 referenceEvent cap1).mp c1').1
  have l2 := isCapOf_lt f2 _ _ _ ((getCapWithEvent_eq_some f2 end2 referenceEvent cap2).mp c2).1
  obtain ⟨g3, b1, b2⟩ := cap_makeAdjacent_spec f2 g cap1 cap2 a1 a2 l1 l2 m3
  exact ⟨(g1.trans g2).trans g3, node1, node2, end1, end2, cap1, cap2, p1, p2, q1, q2,
    getCapWithEvent_of_grows g3 _ _ _ c1', getCapWithEvent_of_grows g3 _ _ _ c2, b1, b2⟩

theorem edgeIsLinked_of_grows {f g : Flower} (h : Grows f g) (nodesToEnds : stHash)
    (referenceEvent : Event) (edge : stIntTuple)
    (hl : edgeIsLinked f nodesToEnds referenceEvent edge) :
    edgeIsLinked g nodesToEnds referenceEvent edge := by
  obtain ⟨node1, node2, end1, end2, cap1, cap2, p1, p2, q1, q2, c1, c2, b1, b2⟩ := hl
  exact ⟨node1, node2, end1, end2, cap1, cap2, p1, p2, q1, q2,
    getCapWithEvent_of_grows h _ _ _ c1, getCapWithEvent_of_grows h _ _ _ c2,
    cap_getAdjacency_of_grows h _ _ b1, cap_getAdjacency_of_grows h _ _ b2⟩

theorem nodeIsResolved_of_grows {f g : Flower} (h : Grows f g) (nodesToEnds : stHash)
    (referenceEvent : Event) (node : Nat)
    (hr : nodeIsResolved f nodesToEnds referenceEvent node) :
    nodeIsResolved g nodesToEnds referenceEvent node := by
  obtain ⟨e, c, x, h1, h2, h3⟩ := hr
  exact ⟨e, c, x, h1, getCapWithEvent_of_grows h _ _ _ h2, cap_getAdjacency_of_grows h _ _ h3⟩

theorem addAdjacenciesAndSegments_spec (nodesToEnds : stHash) (referenceEvent : Event)
    (edges : List stIntTuple) (f g : Flower)
    (h : addAdjacenciesAndSegments nodesToEnds referenceEvent edges f = .ok () g) :
    Grows f g ∧ ∀ edge ∈ edges, edgeIsLinked g nodesToEnds referenceEvent edge := by
  induction edges generalizing f with
  | nil =>
    simp only [addAdjacenciesAndSegments, Outcome.ok.injEq, true_and] at h
    subst h
    exact ⟨Grows.refl f, by simp⟩
  | cons edge rest ih =>
    unfold addAdjacenciesAndSegments at h
    cases hs : addAdjacenciesAndSegments_step nodesToEnds referenceEvent f edge with
    | abort f1 => simp [hs] at h
    | ok u f1 =>
      simp only [hs] at h
      obtain ⟨g1, l1⟩ := addAdjacenciesAndSegments_step_spec nodesToEnds referenceEvent f f1 edge hs
      obtain ⟨g2, l2⟩ := ih f1 h
      refine ⟨g1.trans g2, fun e he => ?_⟩
      rcases List.mem_cons.mp he with rfl | he
      · exact edgeIsLinked_of_grows g2 _ _ _ l1
      · exact l2 e he

theorem addAdjacenciesAndSegments_step_resolved (nodesToEnds : stHash) (referenceEvent : Event)
    (f : Flower) (edge : stIntTuple) (node : Nat) (hn : edgeHasNode edge node)
    (hr : nodeIsResolved f nodesToEnds referenceEvent node) :
    (addAdjacenciesAndSegments_step nodesToEnds referenceEvent f edge).isOk = false := by
  cases hs : addAdjacenciesAndSegments_step nodesToEnds referenceEvent f edge with
  | abort f1 => rfl
  | ok u g =>
    exfalso
    obtain ⟨node1, node2, end1, end2, cap1, cap2, f1, f2, p1, p2, q1, q2, m1, m2, a1, a2, _⟩ :=
      addAdjacenciesAndSegments_step_ok nodesToEnds referenceEvent f g edge hs
    obtain ⟨e, c, x, h1, h2, h3⟩ := hr
    obtain ⟨g1, c1⟩ := makeCapWithEvent_ok f f1 end1 cap1 referenceEvent m1
    obtain ⟨g2, c2⟩ := makeCapWithEvent_ok f1 f2 end2 cap2 referenceEvent m2
    have h3' := cap_getAdjacency_of_grows (g1.trans g2) c x h3
    have h2' := getCapWithEvent_of_grows (g1.trans g2) e referenceEvent c h2
    rcases hn with hn | hn
    · rw [p1] at hn
      cases hn
      rw [q1] at h1
      cases h1
      have c1' := getCapWithEvent_of_grows g2 end1 referenceEvent cap1 c1
      rw [c1'] at h2'
      cases h2'
      rw [a1] at h3'
      cases h3'
    · rw [p2] at hn
      cases hn
      rw [q2] at h1
      cases h1
      rw [c2] at h2'
      cases h2'
      rw [a2] at h3'
      cases h3'

theorem addAdjacenciesAndSegments_resolved (nodesToEnds : stHash) (referenceEvent : Event)
    (edges : List stIntTuple) (f : Flower) (edge : stIntTuple) (node : Nat)
    (he : edge ∈ edges) (hn : edgeHasNode edge node)
    (hr : nodeIsResolved f nodesToEnds referenceEvent node) :
    (addAdjacenciesAndSegments nodesToEnds referenceEvent edges f).isOk = false := by
  induction edges generalizing f with
  | nil => simp at he
  | cons e rest ih =>
    unfold addAdjacenciesAndSegments
    cases hs : addAdjacenciesAndSegments_step nodesToEnds referenceEvent f e with
    | abort f1 => rfl
    | ok u f1 =>
      simp only
      rcases List.mem_cons.mp he with rfl | he
      · have := addAdjacenciesAndSegments_step_resolved nodesToEnds referenceEvent f edge node
          hn hr
        rw [hs] at this
        exact absurd this (by simp [Outcome.isOk])
      · exact ih f1 he (nodeIsResolved_of_grows
          (addAdjacenciesAndSegments_step_spec _ _ _ _ _ hs).1 _ _ _ hr)

theorem edgeIsLinked_resolved (f : Flower) (nodesToEnds : stHash) (referenceEvent : Event)
    (edge : stIntTuple) (node : Nat) (hn : edgeHasNode edge node)
    (hl : edgeIsLinked f nodesToEnds referenceEvent edge) :
    nodeIsResolved f nodesToEnds referenceEvent node := by
  obtain ⟨node1, node2, end1, end2, cap1, cap2, p1, p2, q1, q2, c1, c2, b1, b2⟩ := hl
  rcases hn with hn | hn
  · rw [p1] at hn
    cases hn
    exact ⟨end1, cap1, cap2, q1, c1, b1⟩
  · rw [p2] at hn
    cases hn
    exact ⟨end2, cap2, cap1, q2, c2, b2⟩

theorem addAdjacenciesAndSegments_repeated_node (nodesToEnds : stHash) (referenceEvent : Event)
    (edges : List stIntTuple) (f : Flower) (i j node : Nat) (edge1 edge2 : stIntTuple)
    (hij : i < j) (h1 : edges[i]? = some edge1) (h2 : edges[j]? = some edge2)
    (n1 : edgeHasNode edge1 node) (n2 : edgeHasNode edge2 node) :
    (addAdjacenciesAndSegments nodesToEnds referenceEvent edges f).isOk = false := by
  induction edges generalizing f i j with
  | nil => simp at h1
  | cons e rest ih =>
    unfold addAdjacenciesAndSegments
    cases hs : addAdjacenciesAndSegments_step nodesToEnds referenceEvent f e with
    | abort f1 => rfl
    | ok u f1 =>
      simp only
      obtain ⟨j', rfl⟩ : ∃ j', j = j' + 1 := ⟨j - 1, by omega⟩
      simp only [List.getElem?_cons_succ] at h2
      cases i with
      | zero =>
        simp only [List.getElem?_cons_zero, Option.some.injEq] at h1
        subst h1
        have hl := (addAdjacenciesAndSegments_step_spec _ _ _ _ _ hs).2
        exact addAdjacenciesAndSegments_resolved nodesToEnds referenceEvent rest f1 edge2 node
          (List.getElem?_mem h2) n2 (edgeIsLinked_resolved f1 _ _ e node n1 hl)
      | succ i' =>
        simp only [List.getElem?_cons_succ] at h1
        exact ih f1 i' j' (by omega) h1 h2

/-- C8: when `addAdjacenciesAndSegments` succeeds, both ends of every chosen edge have a
cap for the reference event and the first such cap of each end has the other as its
adjacency. `makeCapWithEvent` returns a cap of the end for the event: the cap the end
already has, unchanged; else, for a block end, the cap made by a new segment of its
block; else a new bare cap. -/
theorem addAdjacenciesAndSegments_links_chosen_edges (nodesToEnds : stHash)
    (referenceEvent : Event) (chosenAdjacencyEdges : List stIntTuple) (f g : Flower)
    (h : addAdjacenciesAndSegments nodesToEnds referenceEvent chosenAdjacencyEdges f = .ok () g) :
    (∀ edge ∈ chosenAdjacencyEdges, edgeIsLinked g nodesToEnds referenceEvent edge) ∧
    (∀ (k k' : Flower) (e cap : Nat), makeCapWithEvent k e referenceEvent = .ok cap k' →
      getCapWithEvent k' e referenceEvent = some cap ∧
      (∀ c, getCapWithEvent k e referenceEvent = some c → cap = c ∧ k' = k) ∧
      (getCapWithEvent k e referenceEvent = none → end_isBlockEnd k e = some true →
        ∃ b, end_getBlock k e = some b ∧ segment_construct k b referenceEvent = some k') ∧
      (getCapWithEvent k e referenceEvent = none → end_isBlockEnd k e = some false →
        cap = k.caps.length ∧ k' = (cap_construct k e referenceEvent).2)) := by
  refine ⟨(addAdjacenciesAndSegments_spec nodesToEnds referenceEvent _ f g h).2, ?_⟩
  intro k k' e cap hm
  refine ⟨(makeCapWithEvent_ok k k' e cap referenceEvent hm).2, fun c hc => ?_, fun hn hb => ?_,
    fun hn hb => ?_⟩
  · rw [makeCapWithEvent_of_some k e c referenceEvent hc] at hm
    simp only [Outcome.ok.injEq] at hm
    exact ⟨hm.1.symm, hm.2.symm⟩
  · unfold makeCapWithEvent at hm
    simp only [hn, hb] at hm
    cases hs : (end_getBlock k e).bind (fun b => segment_construct k b referenceEvent) with
    | none => simp [hs] at hm
    | some f1 =>
      simp only [hs] at hm
      cases hc1 : getCapWithEvent f1 e referenceEvent with
      | none => simp [hc1] at hm
      | some c1 =>
        simp only [hc1, Outcome.ok.injEq] at hm
        obtain ⟨b, hb1, hb2⟩ := Option.bind_eq_some.mp hs
        exact ⟨b, hb1, by rw [hb2, hm.2]⟩
  · unfold makeCapWithEvent at hm
    simp only [hn, hb, Outcome.ok.injEq] at hm
    exact ⟨hm.1.symm, hm.2.symm⟩

/-- Witness of C8: in scenario A the chosen edges `[0, 1]` and `[2, 3]` are committed. -/
theorem addAdjacenciesAndSegments_links_chosen_edges_witness :
    edgeIsLinked
      (addAdjacenciesAndSegments scenarioA_nodesToEnds exampleEvent [[0, 1], [2, 3]]
        scenarioA).flower scenarioA_nodesToEnds exampleEvent [0, 1] ∧
    edgeIsLinked
      (addAdjacenciesAndSegments scenarioA_nodesToEnds exampleEvent [[0, 1], [2, 3]]
        scenarioA).flower scenarioA_nodesToEnds exampleEvent [2, 3] :=
  ⟨(addAdjacenciesAndSegments_links_chosen_edges scenarioA_nodesToEnds exampleEvent
      [[0, 1], [2, 3]] scenarioA _ (by decide)).1 [0, 1] (by decide),
    (addAdjacenciesAndSegments_links_chosen_edges scenarioA_nodesToEnds exampleEvent
      [[0, 1], [2, 3]] scenarioA _ (by decide)).1 [2, 3] (by decide)⟩

/-- C9: `addAdjacenciesAndSegments` fails when the cap for the reference event of an end
of a chosen edge carries an adjacency before the call; it fails when a node id occurs in
two of the chosen edges; and after a successful call every cap that had an adjacency
before the call still has the same adjacency. -/
theorem addAdjacenciesAndSegments_never_overwrites (nodesToEnds : stHash)
    (referenceEvent : Event) (chosenAdjacencyEdges : List stIntTuple) (f : Flower) :
    (∀ edge ∈ chosenAdjacencyEdges, ∀ node, edgeHasNode edge node →
      nodeIsResolved f nodesToEnds referenceEvent node →
      (addAdjacenciesAndSegments nodesToEnds referenceEvent chosenAdjacencyEdges f).isOk
        = false) ∧
    (∀ (i j node : Nat) (edge1 edge2 : stIntTuple), i < j →
      chosenAdjacencyEdges[i]? = some edge1 →
      chosenAdjacencyEdges[j]? = some edge2 → edgeHasNode edge1 node → edgeHasNode edge2 node →
      (addAdjacenciesAndSegments nodesToEnds referenceEvent chosenAdjacencyEdges f).isOk
        = false) ∧
    (∀ g, addAdjacenciesAndSegments nodesToEnds referenceEvent chosenAdjacencyEdges f = .ok () g →
      ∀ c x, cap_getAdjacency f c = some x → cap_getAdjacency g c = some x) := by
  refine ⟨fun edge he node hn hr => ?_, fun i j node edge1 edge2 hij h1 h2 n1 n2 => ?_,
    fun g hg c x hc => ?_⟩
  · exact addAdjacenciesAndSegments_resolved nodesToEnds referenceEvent _ f edge node he hn hr
  · exact addAdjacenciesAndSegments_repeated_node nodesToEnds referenceEvent _ f i j node edge1
      edge2 hij h1 h2 n1 n2
  · exact cap_getAdjacency_of_grows
      (addAdjacenciesAndSegments_spec nodesToEnds referenceEvent _ f g hg).1 c x hc

/-- Witness of C9: in scenario A the chosen edges `[0, 1]` and `[1, 2]` share node `1`,
and the call fails. -/
theorem addAdjacenciesAndSegments_never_overwrites_witness :
    (addAdjacenciesAndSegments scenarioA_nodesToEnds exampleEvent [[0, 1], [1, 2]]
      scenarioA).isOk = false :=
  (addAdjacenciesAndSegments_never_overwrites scenarioA_nodesToEnds exampleEvent
    [[0, 1], [1, 2]] scenarioA).2.1 0 1 1 [0, 1] [1, 2] (by decide) rfl rfl (by decide)
    (by decide)

/-! ### Every step keeps what the flower holds -/

theorem Grows.of_eq (f g : Flower) (h1 : g.ends = f.ends) (h2 : g.caps = f.caps)
    (h3 : g.blocks = f.blocks) (h4 : g.groups = f.groups) (h5 : g.chains = f.chains)
    (h6 : g.parent = f.parent) (h7 : g.eventTree = f.eventTree) : Grows f g :=
  ⟨fun e en h => ⟨en, by rw [h1]; exact h, rfl, rfl, rfl, rfl, rfl⟩,
    fun _ cap h => ⟨cap, by rw [h2]; exact h, rfl, rfl, rfl, fun _ hx => hx⟩,
    fun b blk h => ⟨blk, by rw [h3]; exact h, rfl, rfl, rfl, rfl⟩, h4, h5, h6, by rw [h7],
    fun _ h => by rw [h7]; exact h⟩

theorem getReferenceEvent_grows (f : Flower) (referenceEventHeader : String) :
    Grows f (getReferenceEvent f referenceEventHeader).flower := by
  unfold getReferenceEvent
  cases getEventByHeader f.eventTree referenceEventHeader with
  | some ev => exact Grows.refl f
  | none =>
    cases hp : f.parent with
    | none =>
      simp only [Outcome.flower]
      refine Grows.trans ?_ (Grows.event_construct _ _ _ _ _)
      exact Grows.of_eq _ _ rfl rfl rfl rfl rfl hp.symm rfl
    | some parentGroup =>
      simp only
      cases getEventByHeader parentGroup.eventTree referenceEventHeader with
      | none => exact Grows.refl f
      | some parentEvent => exact Grows.event_construct _ _ _ _ _

theorem getExtraAttachedStubsFromParent_loop_grows (parentEnds : List End) (newEnds : List Nat)
    (f : Flower) : Grows f (getExtraAttachedStubsFromParent_loop parentEnds newEnds f).2 := by
  induction parentEnds generalizing newEnds f with
  | nil => exact Grows.refl f
  | cons parentEnd rest ih =>
    unfold getExtraAttachedStubsFromParent_loop
    split
    · cases flower_getEnd f parentEnd.name with
      | none => exact (Grows.end_copyConstruct parentEnd f).trans (ih _ _)
      | some e => exact ih _ _
    · exact ih _ _

theorem getExtraAttachedStubsFromParent_grows (f : Flower) :
    Grows f (getExtraAttachedStubsFromParent f).flower := by
  unfold getExtraAttachedStubsFromParent
  have hr : Grows f (getExtraAttachedStubsFromParent_import f).2 := by
    unfold getExtraAttachedStubsFromParent_import
    cases f.parent with
    | none => exact Grows.refl f
    | some parentGroup => exact getExtraAttachedStubsFromParent_loop_grows _ _ _
  simp only
  split <;> exact hr

theorem addLinkBreakingBlocks_step_grows (f : Flower) (g : Nat) :
    Grows f (addLinkBreakingBlocks_step f g) := by
  unfold addLinkBreakingBlocks_step
  cases f.groups[g]? with
  | none => exact Grows.refl f
  | some grp =>
    simp only
    split
    · have h1 := Grows.block_construct 1 f
      have h2 : Grows (block_construct 1 f).2
          (match block_get5End (block_construct 1 f).2 (block_construct 1 f).1 with
            | some e5 => end_setGroup (block_construct 1 f).2 e5 (some g)
            | none => (block_construct 1 f).2) := by
        cases block_get5End (block_construct 1 f).2 (block_construct 1 f).1 with
        | none => exact Grows.refl _
        | some e5 => exact Grows.end_setGroup _ _ _
      refine h1.trans (h2.trans ?_)
      cases block_get3End _ (block_construct 1 f).1 with
      | none => exact Grows.refl _
      | some e3 => exact Grows.end_setGroup _ _ _
    · exact Grows.refl f

theorem addLinkBreakingBlocks_fold_grows (gs : List Nat) (f : Flower) :
    Grows f (gs.foldl addLinkBreakingBlocks_step f) := by
  induction gs generalizing f with
  | nil => exact Grows.refl f
  | cons g rest ih => exact (addLinkBreakingBlocks_step_grows f g).trans (ih _)

theorem addLinkBreakingBlocks_grows (f : Flower) : Grows f (addLinkBreakingBlocks f) :=
  addLinkBreakingBlocks_fold_grows _ f

theorem addBridgeBlocks_step_grows (nodesToEnds : stHash) (f : Flower) (edge : stIntTuple) :
    Grows f (addBridgeBlocks_step nodesToEnds f edge).flower := by
  unfold addBridgeBlocks_step
  cases (stIntTuple_getPosition edge 0).bind (getEndFromNode nodesToEnds) with
  | none => exact Grows.refl f
  | some end1 =>
    cases (stIntTuple_getPosition edge 1).bind (getEndFromNode nodesToEnds) with
    | none => exact Grows.refl f
    | some end2 =>
      simp only
      split
      · have h1 := Grows.block_construct 1 f
        have h2 : Grows (block_construct 1 f).2
            (match block_get5End (block_construct 1 f).2 (block_construct 1 f).1 with
              | some e5 => end_setGroup (block_construct 1 f).2 e5
                  (end_getGroup (block_construct 1 f).2 end1)
              | none => (block_construct 1 f).2) := by
          cases block_get5End (block_construct 1 f).2 (block_construct 1 f).1 with
          | none => exact Grows.refl _
          | some e5 => exact Grows.end_setGroup _ _ _
        cases block_get3End _ (block_construct 1 f).1 with
        | none => exact h1.trans h2
        | some e3 => exact h1.trans (h2.trans (Grows.end_setGroup _ _ _))
      · exact Grows.refl f

theorem addBridgeBlocks_grows (nodesToEnds : stHash) (edges : List stIntTuple) (f : Flower) :
    Grows f (addBridgeBlocks nodesToEnds edges f).flower := by
  induction edges generalizing f with
  | nil => exact Grows.refl f
  | cons edge rest ih =>
    unfold addBridgeBlocks
    have hs := addBridgeBlocks_step_grows nodesToEnds f edge
    cases hstep : addBridgeBlocks_step nodesToEnds f edge with
    | abort f1 => rw [hstep] at hs; exact hs
    | ok u f1 => rw [hstep] at hs; exact hs.trans (ih f1)

theorem assignGroups_grows (newEnds : List Nat) (f : Flower) :
    Grows f (assignGroups newEnds f).flower := by
  induction newEnds generalizing f with
  | nil => exact Grows.refl f
  | cons e rest ih =>
    unfold assignGroups
    split
    · split
      · exact Grows.refl f
      · split
        · exact Grows.refl f
        · exact (Grows.end_setGroup _ _ _).trans (ih _)
    · exact Grows.refl f

theorem edgeHasNode_of_mem (edge : stIntTuple) (v : Nat) (hl : edge.length = 2)
    (hv : v ∈ edge) : edgeHasNode edge v := by
  match edge, hl with
  | [a, b], _ => exact (edgeHasNode_pair a b v).mpr hv

theorem buildReferenceTopDown_core_caps (chooseMatching : MatchingStrategy)
    (referenceEvent : Event) (newEnds : List Nat) (f g : Flower)
    (hm : ∀ n adjacencyEdges stubEdges chainEdges isRoot chosen,
      chooseMatching n adjacencyEdges stubEdges chainEdges isRoot = some chosen →
      isPerfectMatching n chosen)
    (h : buildReferenceTopDown_core chooseMatching referenceEvent newEnds f = .ok () g)
    (e : Nat) (he : end_groupIsTangle f e = some true) :
    ∃ cap, getCapWithEvent g e referenceEvent = some cap := by
  unfold buildReferenceTopDown_core at h
  simp only at h
  split at h
  · split at h
    · exact Outcome.noConfusion h
    · split at h
      · exact Outcome.noConfusion h
      · split at h
        · exact Outcome.noConfusion h
        · split at h
          · exact Outcome.noConfusion h
          · rename_i chosen h4
            split at h
            · exact Outcome.noConfusion h
            · rename_i u f1 h5
              split at h
              · exact Outcome.noConfusion h
              · rename_i linkEdges h6
                split at h
                · exact Outcome.noConfusion h
                · rename_i u2 f2 h7
                  have hg : Grows f2 g := by
                    have := assignGroups_grows newEnds f2
                    rw [h] at this
                    exact this
                  have hpm := hm _ _ _ _ _ _ h4
                  obtain ⟨v, hv⟩ :=
                    List.mem_iff_getElem?.mp ((iterateOverTangleEnds_mem f e).mpr he)
                  have hvn : v < stHash_size (getMapOfTangleEndsToNodes f) := by
                    rw [stHash_size_endsToNodes]
                    exact (List.getElem?_eq_some_iff.mp hv).1
                  have hend := (getEndFromNode_nodesToEnds f e v).mpr hv
                  obtain ⟨edge, hedge, hve⟩ := isPerfectMatching_covers _ _ hpm v hvn
                  have hnode := edgeHasNode_of_mem edge v (hpm.1 edge hedge).1 hve
                  have hl := (addAdjacenciesAndSegments_spec _ _ _ _ _ h7).2 edge
                    (List.mem_append_left _ hedge)
                  obtain ⟨e', c, x, q1, q2, _⟩ := edgeIsLinked_resolved f2 _ _ edge v hnode hl
                  rw [hend] at q1
                  cases q1
                  exact ⟨c, getCapWithEvent_of_grows hg _ _ _ q2⟩
  · exact Outcome.noConfusion h

theorem forcedEdgesMatching_perfect (n : Nat)
    (adjacencyEdges stubEdges chainEdges : List stIntTuple) (isRoot : Bool)
    (chosen : List stIntTuple)
    (h : forcedEdgesMatching n adjacencyEdges stubEdges chainEdges isRoot = some chosen) :
    isPerfectMatching n chosen := by
  unfold forcedEdgesMatching at h
  split at h
  · rename_i hp
    simp only [Option.some.injEq] at h
    rw [← h]; exact hp
  · simp at h

/-- C7 (amended): when `buildReferenceTopDown` completes with a matching strategy whose
results are perfect matchings of the node ids, every end that is in a tangle group when
the node ids are assigned, that is in the flower the normalizer leaves, has a cap for the
reference event afterwards. -/
theorem buildReferenceTopDown_caps_on_matched_ends (chooseMatching : MatchingStrategy)
    (referenceEventHeader : String) (f g : Flower)
    (hm : ∀ n adjacencyEdges stubEdges chainEdges isRoot chosen,
      chooseMatching n adjacencyEdges stubEdges chainEdges isRoot = some chosen →
      isPerfectMatching n chosen)
    (h : buildReferenceTopDown chooseMatching referenceEventHeader f = .ok () g) :
    ∃ referenceEvent f1 newEnds f2,
      getReferenceEvent f referenceEventHeader = .ok referenceEvent f1 ∧
      getExtraAttachedStubsFromParent f1 = .ok newEnds f2 ∧
      ∀ e, end_groupIsTangle (addLinkBreakingBlocks f2) e = some true →
        ∃ cap, getCapWithEvent g e referenceEvent = some cap := by
  unfold buildReferenceTopDown at h
  cases hr : getReferenceEvent f referenceEventHeader with
  | abort f1 => simp [hr] at h
  | ok referenceEvent f1 =>
    simp only [hr] at h
    cases he : getExtraAttachedStubsFromParent f1 with
    | abort f2 => simp [he] at h
    | ok newEnds f2 =>
      simp only [he] at h
      exact ⟨referenceEvent, f1, newEnds, f2, rfl, he, fun e hte =>
        buildReferenceTopDown_core_caps chooseMatching referenceEvent newEnds _ g hm h e hte⟩

/-- Witness of C7: scenario A with the strategy that returns the forced edges. -/
theorem buildReferenceTopDown_caps_on_matched_ends_witness :
    ∃ referenceEvent f1 newEnds f2,
      getReferenceEvent scenarioA "reference" = .ok referenceEvent f1 ∧
      getExtraAttachedStubsFromParent f1 = .ok newEnds f2 ∧
      ∀ e, end_groupIsTangle (addLinkBreakingBlocks f2) e = some true →
        ∃ cap, getCapWithEvent
          (buildReferenceTopDown forcedEdgesMatching "reference" scenarioA).flower e
          referenceEvent = some cap :=
  buildReferenceTopDown_caps_on_matched_ends forcedEdgesMatching "reference" scenarioA _
    forcedEdgesMatching_perfect (by decide)

/-- C7 (as stated, refuted): on the flower with the tangle groups `{A}` and `{B, C, D}`
the run completes with a perfect matching of the six node ids that contains the forced
edges; the chosen edge between `A` and `B` joins two groups, and the two ends of the
bridge block made for it (ends 6 and 7) are in tangle groups afterwards and have no cap. -/
theorem buildReferenceTopDown_bridge_ends_without_cap :
    (buildReferenceTopDown forcedEdgesMatching "reference" bridgeFlower).isOk = true ∧
    forcedEdgesMatching 6 [] [[0, 3], [4, 5]] [[1, 2]] true = some [[1, 2], [0, 3], [4, 5]] ∧
    isPerfectMatching 6 [[1, 2], [0, 3], [4, 5]] ∧
    end_groupIsTangle
      (buildReferenceTopDown forcedEdgesMatching "reference" bridgeFlower).flower 6 = some true ∧
    end_getInstanceIterator
      (buildReferenceTopDown forcedEdgesMatching "reference" bridgeFlower).flower 6 = [] ∧
    end_groupIsTangle
      (buildReferenceTopDown forcedEdgesMatching "reference" bridgeFlower).flower 7 = some true ∧
    end_getInstanceIterator
      (buildReferenceTopDown forcedEdgesMatching "reference" bridgeFlower).flower 7 = [] := by
  decide

/-- C1 (code at the failing input): in scenario E the three raw edges `[2, 5]` are merged
into the weighted edge `[2, 5, 3]` in the local list `weightedAdjacencyEdges`, and the
function returns its local list `adjacencyEdges`, from which every edge was popped. -/
theorem getAdjacencyEdges_returns_popped_list :
    getAdjacencyEdges_raw scenarioE (getMapOfTangleEndsToNodes scenarioE)
      (iterateOverTangleEnds scenarioE) [] = some [[2, 5], [2, 5], [2, 5]] ∧
    getAdjacencyEdges_locals scenarioE (getMapOfTangleEndsToNodes scenarioE) =
      some { adjacencyEdges := [], weightedAdjacencyEdges := [[2, 5, 3]], weight := 3,
             edge := some [2, 5] } ∧
    getAdjacencyEdges scenarioE (getMapOfTangleEndsToNodes scenarioE) = some [] := by
  decide

theorem getLinkEdges_loop_none (f : Flower) (endsToNodes : stHash) (gs : List Nat)
    (linkEdges : List stIntTuple) (g : Nat) (grp : Group) (link : Link) (hmem : g ∈ gs)
    (hg : f.groups[g]? = some grp) (hl : grp.link = some link)
    (he : getEdge link.end5 link.end3 endsToNodes = none) :
    getLinkEdges_loop f endsToNodes gs linkEdges = none := by
  induction gs generalizing linkEdges with
  | nil => simp at hmem
  | cons g' rest ih =>
    unfold getLinkEdges_loop
    by_cases hgg : g = g'
    · subst hgg
      simp [hg, hl, he]
    · have hrest : g ∈ rest := by
        rcases List.mem_cons.mp hmem with h | h
        · exact absurd h hgg
        · exact h
      cases f.groups[g']? with
      | none => rfl
      | some grp' =>
        simp only
        cases grp'.link with
        | none => exact ih _ hrest
        | some link' =>
          simp only
          cases getEdge link'.end5 link'.end3 endsToNodes with
          | none => rfl
          | some edge => exact ih _ hrest

theorem getLinkEdges_none_of_link_end (f : Flower) (g : Nat) (grp : Group) (link : Link)
    (hg : f.groups[g]? = some grp) (hl : grp.link = some link)
    (hnt : end_groupIsTangle f link.end5 ≠ some true ∨
      end_groupIsTangle f link.end3 ≠ some true) :
    getLinkEdges f (getMapOfTangleEndsToNodes f) = none := by
  unfold getLinkEdges flower_getGroupIterator
  apply getLinkEdges_loop_none f _ _ _ g grp link
    (List.mem_range.mpr (List.getElem?_eq_some_iff.mp hg).1) hg hl
  unfold getEdge
  rcases hnt with h | h
  · rw [(stHash_search_endsToNodes_none f link.end5).mpr h]
  · rw [(stHash_search_endsToNodes_none f link.end3).mpr h]
    cases stHash_search (getMapOfTangleEndsToNodes f) link.end5 <;> rfl

/-- C6 (code at the failing input): the flower has two link groups, each holding the two
ends of its link. The ends of a link group are not in a tangle group, so they have no
node id, and `getLinkEdges` fails where it reads the id of the 5' end of the first link.
The steps of `buildReferenceTopDown` before it succeed on this flower, and the run ends
there. -/
theorem getLinkEdges_fails_on_link_group :
    end_getGroup linkFlower 2 = some 1 ∧ end_getGroup linkFlower 3 = some 1 ∧
    linkFlower.groups[1]? = some { name := 9, link := some { end5 := 2, end3 := 3 } } ∧
    stHash_search (getMapOfTangleEndsToNodes linkFlower) 2 = none ∧
    getLinkEdges linkFlower (getMapOfTangleEndsToNodes linkFlower) = none ∧
    getChainEdges linkFlower (getMapOfTangleEndsToNodes linkFlower) = some [] ∧
    getArbitraryStubEdges (getMapOfTangleEndsToNodes linkFlower) [] = some [[0, 1]] ∧
    getAdjacencyEdges linkFlower (getMapOfTangleEndsToNodes linkFlower) = some [] ∧
    forcedEdgesMatching 2 [] [[0, 1]] [] true = some [[0, 1]] ∧
    addBridgeBlocks (getMapOfNodesToTangleEnds (getMapOfTangleEndsToNodes linkFlower))
      [[0, 1]] linkFlower = .ok () linkFlower ∧
    (buildReferenceTopDown forcedEdgesMatching "reference" linkFlower).isOk = false := by
  decide

/-! ### `addLinkBreakingBlocks` -/

theorem end_getGroup_append_left (f : Flower) (added : List End) (g : Flower) (e : Nat)
    (hg : g.ends = f.ends ++ added) (he : e < f.ends.length) :
    end_getGroup g e = end_getGroup f e := by
  unfold end_getGroup
  rw [hg, List.getElem?_append_left he]

theorem end_setGroup_at (f : Flower) (l rest : List End) (en : End) (g : Option Nat)
    (hf : f.ends = l ++ en :: rest) :
    end_setGroup f l.length g = { f with ends := l ++ { en with group := g } :: rest } := by
  unfold end_setGroup
  have h1 : f.ends[l.length]? = some en := by
    rw [hf, List.getElem?_append_right (Nat.le_refl _)]
    simp
  rw [h1]
  simp only
  rw [hf, List.set_append_right _ _ (Nat.le_refl _)]
  simp

theorem block_construct_eq (f : Flower) :
    block_construct 1 f = (f.blocks.length, withNewBlock f none none) := rfl

theorem withNewBlock_setGroups (f : Flower) (a b g5 g3 : Option Nat) :
    (match block_get3End
        (match block_get5End (withNewBlock f a b) f.blocks.length with
          | some e5 => end_setGroup (withNewBlock f a b) e5 g5
          | none => withNewBlock f a b) f.blocks.length with
      | some e3 => end_setGroup
        (match block_get5End (withNewBlock f a b) f.blocks.length with
          | some e5 => end_setGroup (withNewBlock f a b) e5 g5
          | none => withNewBlock f a b) e3 g3
      | none => (match block_get5End (withNewBlock f a b) f.blocks.length with
          | some e5 => end_setGroup (withNewBlock f a b) e5 g5
          | none => withNewBlock f a b)) = withNewBlock f g5 g3 := by
  have h5 : block_get5End (withNewBlock f a b) f.blocks.length = some f.ends.length := by
    simp [block_get5End, withNewBlock]
  simp only [h5]
  have e1 : end_setGroup (withNewBlock f a b) f.ends.length g5 = withNewBlock f g5 b :=
    end_setGroup_at (withNewBlock f a b) f.ends
      [blockEnd (f.nextName + 2) false b f.blocks.length]
      (blockEnd (f.nextName + 1) true a f.blocks.length) g5 rfl
  rw [e1]
  have h3 : block_get3End (withNewBlock f g5 b) f.blocks.length = some (f.ends.length + 1) := by
    simp [block_get3End, withNewBlock]
  simp only [h3]
  have e2 := end_setGroup_at (withNewBlock f g5 b)
    (f.ends ++ [blockEnd (f.nextName + 1) true g5 f.blocks.length]) []
    (blockEnd (f.nextName + 2) false b f.blocks.length) g3 (by simp [withNewBlock])
  simp only [List.length_append, List.length_singleton] at e2
  rw [e2]
  simp [withNewBlock, blockEnd]

theorem addLinkBreakingBlocks_step_active (f : Flower) (g : Nat) (grp : Group)
    (hg : f.groups[g]? = some grp) (ht : group_isTangle grp = true)
    (hn : group_getEndNumber f g = 1) :
    addLinkBreakingBlocks_step f g = withNewBlock f (some g) (some g) := by
  unfold addLinkBreakingBlocks_step
  simp only [hg, ht, hn, beq_self_eq_true, Bool.and_self, if_true, block_construct_eq]
  exact withNewBlock_setGroups f none none (some g) (some g)

theorem addLinkBreakingBlocks_step_idle (f : Flower) (g : Nat)
    (h : ∀ grp, f.groups[g]? = some grp →
      ¬ (group_isTangle grp = true ∧ group_getEndNumber f g = 1)) :
    addLinkBreakingBlocks_step f g = f := by
  unfold addLinkBreakingBlocks_step
  cases hg : f.groups[g]? with
  | none => rfl
  | some grp =>
    have := h grp hg
    simp only
    split
    · rename_i hc
      simp only [Bool.and_eq_true, beq_iff_eq] at hc
      exact absurd hc this
    · rfl

theorem addsBlockEnds_refl (f : Flower) : AddsBlockEnds f f :=
  ⟨⟨[], by simp, by simp⟩, ⟨[], by simp⟩, rfl, rfl, rfl, rfl, rfl⟩

theorem addsBlockEnds_trans {f g k : Flower} (h1 : AddsBlockEnds f g) (h2 : AddsBlockEnds g k) :
    AddsBlockEnds f k := by
  obtain ⟨⟨a1, e1, b1⟩, ⟨c1, d1⟩, p1, p2, p3, p4, p5⟩ := h1
  obtain ⟨⟨a2, e2, b2⟩, ⟨c2, d2⟩, q1, q2, q3, q4, q5⟩ := h2
  refine ⟨⟨a1 ++ a2, by rw [e2, e1, List.append_assoc], fun a ha => ?_⟩,
    ⟨c1 ++ c2, by rw [d2, d1, List.append_assoc]⟩, by rw [q1, p1], by rw [q2, p2],
    by rw [q3, p3], by rw [q4, p4], by rw [q5, p5]⟩
  rcases List.mem_append.mp ha with h | h
  · exact b1 a h
  · exact b2 a h

theorem addsBlockEnds_withNewBlock (f : Flower) (g5 g3 : Option Nat) :
    AddsBlockEnds f (withNewBlock f g5 g3) :=
  ⟨⟨_, rfl, by simp [blockEnd]⟩, ⟨_, rfl⟩, rfl, rfl, rfl, rfl, rfl⟩

theorem group_getEndIterator_withNewBlock (f : Flower) (g5 g3 : Option Nat) (g : Nat) :
    group_getEndIterator (withNewBlock f g5 g3) g =
      group_getEndIterator f g ++
        ((if g5 = some g then [f.ends.length] else []) ++
          (if g3 = some g then [f.ends.length + 1] else [])) := by
  unfold group_getEndIterator
  have hlen : (withNewBlock f g5 g3).ends.length = f.ends.length + 2 := by
    simp [withNewBlock]
  rw [hlen, List.range_succ, List.range_succ, List.filter_append, List.filter_append]
  have h0 : (List.range f.ends.length).filter
      (fun e => end_getGroup (withNewBlock f g5 g3) e == some g) =
      (List.range f.ends.length).filter (fun e => end_getGroup f e == some g) := by
    apply List.filter_congr
    intro e he
    rw [end_getGroup_append_left f _ (withNewBlock f g5 g3) e rfl (List.mem_range.mp he)]
  have h1 : end_getGroup (withNewBlock f g5 g3) f.ends.length = g5 := by
    unfold end_getGroup withNewBlock
    simp only
    rw [List.getElem?_append_right (Nat.le_refl _)]
    simp [blockEnd]
  have h2 : end_getGroup (withNewBlock f g5 g3) (f.ends.length + 1) = g3 := by
    unfold end_getGroup withNewBlock
    simp only
    rw [List.getElem?_append_right (Nat.le_succ _)]
    simp [blockEnd]
  rw [h0, List.append_assoc]
  congr 1
  simp only [List.filter_cons, List.filter_nil, h1, h2, beq_iff_eq]

theorem isTangleGroup_of_groups_eq {f g : Flower} (h : g.groups = f.groups) (k : Nat) :
    isTangleGroup g k ↔ isTangleGroup f k := by
  unfold isTangleGroup
  rw [h]

theorem addLinkBreakingBlocks_step_eq (f : Flower) (g : Nat) :
    addLinkBreakingBlocks_step f g =
      if isTangleGroup f g ∧ group_getEndNumber f g = 1 then withNewBlock f (some g) (some g)
      else f := by
  by_cases h : isTangleGroup f g ∧ group_getEndNumber f g = 1
  · rw [if_pos h]
    obtain ⟨ht, hn⟩ := h
    unfold isTangleGroup at ht
    cases hg : f.groups[g]? with
    | none => simp [hg] at ht
    | some grp =>
      exact addLinkBreakingBlocks_step_active f g grp hg (by simpa [hg] using ht) hn
  · rw [if_neg h]
    apply addLinkBreakingBlocks_step_idle
    intro grp hg hc
    exact h ⟨by simp [isTangleGroup, hg, hc.1], hc.2⟩

theorem addLinkBreakingBlocks_fold_spec (gs : List Nat) (f : Flower) (hnd : gs.Nodup) :
    AddsBlockEnds f (gs.foldl addLinkBreakingBlocks_step f) ∧
    ∀ g,
      ((g ∈ gs ∧ isTangleGroup f g ∧ group_getEndNumber f g = 1) →
        ∃ b i blk, f.blocks.length ≤ b ∧ f.ends.length ≤ i ∧
          (gs.foldl addLinkBreakingBlocks_step f).blocks[b]? = some blk ∧
          blk.end5 = i ∧ blk.end3 = i + 1 ∧
          group_getEndIterator (gs.foldl addLinkBreakingBlocks_step f) g =
            group_getEndIterator f g ++ [i, i + 1]) ∧
      (¬ (g ∈ gs ∧ isTangleGroup f g ∧ group_getEndNumber f g = 1) →
        group_getEndIterator (gs.foldl addLinkBreakingBlocks_step f) g =
          group_getEndIterator f g) := by
  induction gs generalizing f with
  | nil =>
    refine ⟨addsBlockEnds_refl f, fun g => ⟨fun h => absurd h.1 (by simp), fun _ => rfl⟩⟩
  | cons g0 rest ih =>
    obtain ⟨hg0, hrest⟩ := List.nodup_cons.mp hnd
    simp only [List.foldl_cons]
    rw [addLinkBreakingBlocks_step_eq]
    by_cases hact : isTangleGroup f g0 ∧ group_getEndNumber f g0 = 1
    · rw [if_pos hact]
      obtain ⟨i1, i2⟩ := ih (withNewBlock f (some g0) (some g0)) hrest
      have hadd := addsBlockEnds_withNewBlock f (some g0) (some g0)
      have hit : ∀ g, g ≠ g0 → group_getEndIterator (withNewBlock f (some g0) (some g0)) g =
          group_getEndIterator f g := by
        intro g hne
        rw [group_getEndIterator_withNewBlock]
        have : ¬ (some g0 = some g) := fun h => hne (Option.some.inj h).symm
        simp [this]
      have hact' : ∀ g, g ≠ g0 →
          ((isTangleGroup (withNewBlock f (some g0) (some g0)) g ∧
            group_getEndNumber (withNewBlock f (some g0) (some g0)) g = 1) ↔
          (isTangleGroup f g ∧ group_getEndNumber f g = 1)) := by
        intro g hne
        unfold group_getEndNumber
        rw [hit g hne]
        exact Iff.rfl
      refine ⟨addsBlockEnds_trans hadd i1, fun g => ⟨fun h => ?_, fun h => ?_⟩⟩
      · by_cases hgg : g = g0
        · subst hgg
          have := (i2 g).2 (fun hc => hg0 hc.1)
          refine ⟨f.blocks.length, f.ends.length,
            { name := f.nextName, length := 1, end5 := f.ends.length,
              end3 := f.ends.length + 1, segments := [] },
            Nat.le_refl _, Nat.le_refl _, ?_, rfl, rfl, ?_⟩
          · obtain ⟨_, ⟨ab, hab⟩, _⟩ := i1
            rw [hab]
            exact getElem?_append_of_some _ _ _ _ (by simp [withNewBlock])
          · rw [this, group_getEndIterator_withNewBlock]
            simp
        · have hmem : g ∈ rest := by
            rcases List.mem_cons.mp h.1 with h' | h'
            · exact absurd h' hgg
            · exact h'
          obtain ⟨b, i, blk, hb, hi, hblk, h5, h3, hiter⟩ :=
            (i2 g).1 ⟨hmem, (hact' g hgg).mpr h.2⟩
          refine ⟨b, i, blk, ?_, ?_, hblk, h5, h3, ?_⟩
          · simp [withNewBlock] at hb; omega
          · simp [withNewBlock] at hi; omega
          · rw [hiter, hit g hgg]
      · have hgg : g ≠ g0 := by
          intro hgg
          subst hgg
          exact h ⟨by simp, hact⟩
        rw [(i2 g).2 (fun hc => h ⟨List.mem_cons_of_mem _ hc.1, (hact' g hgg).mp hc.2⟩),
          hit g hgg]
    · rw [if_neg hact]
      obtain ⟨i1, i2⟩ := ih f hrest
      refine ⟨i1, fun g => ⟨fun h => ?_, fun h => ?_⟩⟩
      · have hmem : g ∈ rest := by
          rcases List.mem_cons.mp h.1 with h' | h'
          · subst h'
            exact absurd h.2 hact
          · exact h'
        exact (i2 g).1 ⟨hmem, h.2⟩
      · exact (i2 g).2 (fun hc => h ⟨List.mem_cons_of_mem _ hc.1, hc.2⟩)

/-! ### The import of the stubs of the parent -/

theorem flower_getEnd_eq_none (f : Flower) (name : Nat) :
    flower_getEnd f name = none ↔ ∀ en ∈ f.ends, en.name ≠ name := by
  unfold flower_getEnd flower_getEndIterator
  rw [List.find?_range_eq_none]
  constructor
  · intro h en hen
    obtain ⟨i, hi, rfl⟩ := List.getElem_of_mem hen
    have := h i hi
    simpa [List.getElem?_eq_getElem hi] using this
  · intro h i hi
    have := h f.ends[i] (List.getElem_mem hi)
    simpa [List.getElem?_eq_getElem hi] using this

theorem end_copyConstruct_eq (parentEnd : End) (f : Flower) :
    end_copyConstruct parentEnd f =
      (f.ends.length,
        { f with ends := f.ends ++ [{ parentEnd with group := none, block := none }] }) := rfl

theorem getExtraAttachedStubsFromParent_loop_idle (ps : List End) (newEnds : List Nat)
    (g : Flower)
    (h : ∀ p ∈ ps, (p.isAttached || p.isBlockEnd) = true → flower_getEnd g p.name ≠ none) :
    getExtraAttachedStubsFromParent_loop ps newEnds g = (newEnds, g) := by
  induction ps with
  | nil => rfl
  | cons p rest ih =>
    unfold getExtraAttachedStubsFromParent_loop
    have ih' := ih (fun q hq => h q (List.mem_cons_of_mem _ hq))
    by_cases hq : (p.isAttached || p.isBlockEnd) = true
    · rw [if_pos hq]
      cases hf : flower_getEnd g p.name with
      | none => exact absurd hf (h p (by simp) hq)
      | some e => exact ih'
    · rw [if_neg hq]
      exact ih'

theorem getExtraAttachedStubsFromParent_loop_spec (ps : List End) (newEnds : List Nat)
    (g : Flower) :
    ∃ added : List End,
      (getExtraAttachedStubsFromParent_loop ps newEnds g).2 =
        { g with ends := g.ends ++ added } ∧
      (getExtraAttachedStubsFromParent_loop ps newEnds g).1 =
        newEnds ++ List.range' g.ends.length added.length ∧
      (∀ a ∈ added, ∃ p ∈ ps, (p.isAttached || p.isBlockEnd) = true ∧
        flower_getEnd g p.name = none ∧ a = { p with group := none, block := none }) ∧
      (added.map (fun a => a.name)).Nodup ∧
      (∀ p ∈ ps, (p.isAttached || p.isBlockEnd) = true → flower_getEnd g p.name = none →
        p.name ∈ added.map (fun a => a.name)) := by
  induction ps generalizing newEnds g with
  | nil => exact ⟨[], by simp [getExtraAttachedStubsFromParent_loop], by
      simp [getExtraAttachedStubsFromParent_loop], by simp, by simp, by simp⟩
  | cons p rest ih =>
    unfold getExtraAttachedStubsFromParent_loop
    by_cases hq : (p.isAttached || p.isBlockEnd) = true
    · rw [if_pos hq]
      cases hf : flower_getEnd g p.name with
      | some e =>
        obtain ⟨added, h1, h2, h3, h4, h5⟩ := ih newEnds g
        refine ⟨added, h1, h2, fun a ha => ?_, h4, fun q hq' hqa hqn => ?_⟩
        · obtain ⟨q, hq1, hq2⟩ := h3 a ha
          exact ⟨q, List.mem_cons_of_mem _ hq1, hq2⟩
        · rcases List.mem_cons.mp hq' with rfl | hq'
          · rw [hf] at hqn
            exact Option.noConfusion hqn
          · exact h5 q hq' hqa hqn
      | none =>
        simp only [end_copyConstruct_eq]
        obtain ⟨added, h1, h2, h3, h4, h5⟩ := ih (newEnds ++ [g.ends.length])
          { g with ends := g.ends ++ [{ p with group := none, block := none }] }
        have hsub : ∀ name, flower_getEnd
            { g with ends := g.ends ++ [{ p with group := none, block := none }] } name = none →
            flower_getEnd g name = none ∧ name ≠ p.name := by
          intro name hn
          rw [flower_getEnd_eq_none] at hn ⊢
          refine ⟨fun en hen => hn en (List.mem_append_left _ hen), fun hc => ?_⟩
          exact hn { p with group := none, block := none } (by simp) hc.symm
        refine ⟨{ p with group := none, block := none } :: added, ?_, ?_, ?_, ?_, ?_⟩
        · rw [h1]
          simp
        · rw [h2]
          simp [List.range'_succ, List.append_assoc]
        · intro a ha
          rcases List.mem_cons.mp ha with rfl | ha
          · exact ⟨p, by simp, hq, hf, rfl⟩
          · obtain ⟨q, hq1, hq2, hq3, hq4⟩ := h3 a ha
            exact ⟨q, List.mem_cons_of_mem _ hq1, hq2, (hsub _ hq3).1, hq4⟩
        · rw [List.map_cons, List.nodup_cons]
          refine ⟨fun hc => ?_, h4⟩
          obtain ⟨a, ha, hname⟩ := List.mem_map.mp hc
          obtain ⟨q, _, _, hq3, hq4⟩ := h3 a ha
          have := (hsub _ hq3).2
          rw [hq4] at hname
          exact this hname
        · intro q hq' hqa hqn
          by_cases hname : q.name = p.name
          · rw [hname]
            simp
          · rw [List.map_cons]
            apply List.mem_cons_of_mem
            have hq'' : q ∈ rest := by
              rcases List.mem_cons.mp hq' with h | h
              · exact absurd (h ▸ rfl) hname
              · exact h
            apply h5 q hq'' hqa
            rw [flower_getEnd_eq_none] at hqn ⊢
            intro en hen
            rcases List.mem_append.mp hen with h | h
            · exact hqn en h
            · have : en = { p with group := none, block := none } := by simpa using h
              rw [this]
              exact fun hc => hname hc.symm
    · rw [if_neg hq]
      obtain ⟨added, h1, h2, h3, h4, h5⟩ := ih newEnds g
      refine ⟨added, h1, h2, fun a ha => ?_, h4, fun q hq' hqa hqn => ?_⟩
      · obtain ⟨q, hq1, hq2⟩ := h3 a ha
        exact ⟨q, List.mem_cons_of_mem _ hq1, hq2⟩
      · rcases List.mem_cons.mp hq' with rfl | hq'
        · exact absurd hqa hq
        · exact h5 q hq' hqa hqn

theorem countP_name_eq_one (l : List End) (n : Nat)
    (hnd : (l.map (fun a => a.name)).Nodup) (hn : n ∈ l.map (fun a => a.name)) :
    l.countP (fun a => a.name == n) = 1 := by
  induction l with
  | nil => simp at hn
  | cons a l ih =>
    rw [List.map_cons, List.nodup_cons] at hnd
    by_cases ha : a.name = n
    · rw [List.countP_cons_of_pos _ _ (by simpa using ha)]
      have : l.countP (fun a => a.name == n) = 0 := by
        rw [List.countP_eq_zero]
        intro b hb hbn
        have hbn' : b.name = n := by simpa using hbn
        exact hnd.1 (List.mem_map.mpr ⟨b, hb, by rw [hbn', ha]⟩)
      rw [this]
    · rw [List.countP_cons_of_neg _ _ (by simpa using ha)]
      apply ih hnd.2
      rcases List.mem_cons.mp hn with h | h
      · exact absurd h.symm ha
      · exact h

theorem addLinkBreakingBlocks_spec (f : Flower) :
    AddsBlockEnds f (addLinkBreakingBlocks f) ∧
    ∀ g,
      ((isTangleGroup f g ∧ group_getEndNumber f g = 1) →
        ∃ b i blk, f.blocks.length ≤ b ∧ f.ends.length ≤ i ∧
          (addLinkBreakingBlocks f).blocks[b]? = some blk ∧ blk.end5 = i ∧ blk.end3 = i + 1 ∧
          group_getEndIterator (addLinkBreakingBlocks f) g =
            group_getEndIterator f g ++ [i, i + 1]) ∧
      (¬ (isTangleGroup f g ∧ group_getEndNumber f g = 1) →
        group_getEndIterator (addLinkBreakingBlocks f) g = group_getEndIterator f g) := by
  obtain ⟨h1, h2⟩ := addLinkBreakingBlocks_fold_spec (flower_getGroupIterator f) f
    (List.nodup_range _)
  refine ⟨h1, fun g => ⟨fun h => ?_, fun h => ?_⟩⟩
  · have hmem : g ∈ flower_getGroupIterator f := by
      unfold flower_getGroupIterator
      rw [List.mem_range]
      have := h.1
      unfold isTangleGroup at this
      cases hg : f.groups[g]? with
      | none => simp [hg] at this
      | some grp => exact (List.getElem?_eq_some_iff.mp hg).1
    exact (h2 g).1 ⟨hmem, h⟩
  · exact (h2 g).2 (fun hc => h hc.2)

/-- C13 (amended): a tangle group whose only end is `E` holds exactly three ends after
`addLinkBreakingBlocks`: `E`, the 5' end and the 3' end of one new block. -/
theorem addLinkBreakingBlocks_single_end_group (f : Flower) (g E : Nat)
    (ht : isTangleGroup f g) (hE : group_getEndIterator f g = [E]) :
    ∃ b i blk, f.blocks.length ≤ b ∧ f.ends.length ≤ i ∧
      (addLinkBreakingBlocks f).blocks[b]? = some blk ∧ blk.end5 = i ∧ blk.end3 = i + 1 ∧
      group_getEndIterator (addLinkBreakingBlocks f) g = [E, i, i + 1] := by
  have hn : group_getEndNumber f g = 1 := by
    unfold group_getEndNumber
    rw [hE]
    rfl
  obtain ⟨b, i, blk, p1, p2, p3, p4, p5, p6⟩ := ((addLinkBreakingBlocks_spec f).2 g).1 ⟨ht, hn⟩
  exact ⟨b, i, blk, p1, p2, p3, p4, p5, by rw [p6, hE]; rfl⟩

/-- Witness of C13: the tangle group `{A}` of the flower with the tangle groups `{A}` and
`{B, C, D}`. -/
theorem addLinkBreakingBlocks_single_end_group_witness :
    ∃ b i blk, bridgeFlower.blocks.length ≤ b ∧ bridgeFlower.ends.length ≤ i ∧
      (addLinkBreakingBlocks bridgeFlower).blocks[b]? = some blk ∧ blk.end5 = i ∧
      blk.end3 = i + 1 ∧
      group_getEndIterator (addLinkBreakingBlocks bridgeFlower) 0 = [0, i, i + 1] :=
  addLinkBreakingBlocks_single_end_group bridgeFlower 0 0 (by decide) (by decide)

/-- C13 (as stated, refuted): the tangle group `{A}` holds three ends after
`addLinkBreakingBlocks`, the end `A` and both ends of the new block, not two. -/
theorem addLinkBreakingBlocks_single_end_group_gets_three :
    isTangleGroup bridgeFlower 0 ∧
    group_getEndIterator bridgeFlower 0 = [0] ∧
    group_getEndIterator (addLinkBreakingBlocks bridgeFlower) 0 = [0, 4, 5] ∧
    (addLinkBreakingBlocks bridgeFlower).blocks =
      [{ name := 7, length := 1, end5 := 4, end3 := 5, segments := [] }] := by
  decide

theorem flower_getAttachedStubEndNumber_of_addsBlockEnds {f g : Flower}
    (h : AddsBlockEnds f g) :
    flower_getAttachedStubEndNumber g = flower_getAttachedStubEndNumber f := by
  obtain ⟨⟨added, h1, h2⟩, _⟩ := h
  unfold flower_getAttachedStubEndNumber
  rw [h1, List.filter_append, List.length_append]
  have : added.filter (fun x => x.isAttached && !x.isBlockEnd) = [] := by
    rw [List.filter_eq_nil_iff]
    intro a ha
    simp [h2 a ha]
  rw [this]
  rfl

theorem addLinkBreakingBlocks_fold_idle (gs : List Nat) (f : Flower)
    (h : ∀ g ∈ gs, ¬ (isTangleGroup f g ∧ group_getEndNumber f g = 1)) :
    gs.foldl addLinkBreakingBlocks_step f = f := by
  induction gs with
  | nil => rfl
  | cons g rest ih =>
    rw [List.foldl_cons, addLinkBreakingBlocks_step_eq, if_neg (h g (by simp))]
    exact ih (fun k hk => h k (List.mem_cons_of_mem _ hk))

theorem addLinkBreakingBlocks_idempotent (f : Flower) :
    addLinkBreakingBlocks (addLinkBreakingBlocks f) = addLinkBreakingBlocks f := by
  obtain ⟨h1, h2⟩ := addLinkBreakingBlocks_spec f
  have hgroups : (addLinkBreakingBlocks f).groups = f.groups := h1.2.2.2.1
  apply addLinkBreakingBlocks_fold_idle
  intro g _ hc
  have ht : isTangleGroup f g := (isTangleGroup_of_groups_eq hgroups g).mp hc.1
  have hn := hc.2
  unfold group_getEndNumber at hn
  by_cases h1 : group_getEndNumber f g = 1
  · obtain ⟨b, i, blk, _, _, _, _, _, hit⟩ := (h2 g).1 ⟨ht, h1⟩
    unfold group_getEndNumber at h1
    rw [hit, List.length_append, h1] at hn
    simp at hn
  · rw [(h2 g).2 (fun hc' => h1 hc'.2)] at hn
    exact h1 hn

theorem getExtraAttachedStubsFromParent_import_root (f : Flower) (hp : f.parent = none) :
    getExtraAttachedStubsFromParent_import f = ([], f) := by
  unfold getExtraAttachedStubsFromParent_import
  rw [hp]

theorem getExtraAttachedStubsFromParent_import_child (f : Flower) (parentGroup : ParentGroup)
    (hp : f.parent = some parentGroup) :
    getExtraAttachedStubsFromParent_import f =
      getExtraAttachedStubsFromParent_loop parentGroup.ends [] f := by
  unfold getExtraAttachedStubsFromParent_import
  rw [hp]

theorem getExtraAttachedStubsFromParent_ok (f g : Flower) (newEnds : List Nat)
    (h : getExtraAttachedStubsFromParent f = .ok newEnds g) :
    (newEnds, g) = getExtraAttachedStubsFromParent_import f ∧
    flower_getAttachedStubEndNumber g % 2 = 0 ∧ 0 < flower_getAttachedStubEndNumber g := by
  unfold getExtraAttachedStubsFromParent at h
  simp only at h
  split at h
  · rename_i hc
    simp only [Outcome.ok.injEq] at h
    obtain ⟨rfl, rfl⟩ := h
    exact ⟨rfl, hc⟩
  · exact Outcome.noConfusion h

/-- C14: after a successful `getExtraAttachedStubsFromParent` followed by
`addLinkBreakingBlocks`, a second `getExtraAttachedStubsFromParent` succeeds, returns no
new end and leaves the flower as it is, and a second `addLinkBreakingBlocks` leaves the
flower as it is. -/
theorem normalizer_idempotent (f f2 : Flower) (newEnds : List Nat)
    (h : getExtraAttachedStubsFromParent f = .ok newEnds f2) :
    getExtraAttachedStubsFromParent (addLinkBreakingBlocks f2) =
      .ok [] (addLinkBreakingBlocks f2) ∧
    addLinkBreakingBlocks (addLinkBreakingBlocks f2) = addLinkBreakingBlocks f2 := by
  refine ⟨?_, addLinkBreakingBlocks_idempotent f2⟩
  obtain ⟨hr, hc⟩ := getExtraAttachedStubsFromParent_ok f f2 newEnds h
  have hadd := (addLinkBreakingBlocks_spec f2).1
  have hcount := flower_getAttachedStubEndNumber_of_addsBlockEnds hadd
  obtain ⟨⟨added2, he2, _⟩, _, _, _, _, _, hparent⟩ := hadd
  have hloop : getExtraAttachedStubsFromParent_import (addLinkBreakingBlocks f2) =
      ([], addLinkBreakingBlocks f2) := by
    cases hp : f.parent with
    | none =>
      rw [getExtraAttachedStubsFromParent_import_root f hp, Prod.mk.injEq] at hr
      apply getExtraAttachedStubsFromParent_import_root
      rw [hparent, hr.2, hp]
    | some parentGroup =>
      rw [getExtraAttachedStubsFromParent_import_child f parentGroup hp] at hr
      obtain ⟨added, a1, a2, a3, a4, a5⟩ :=
        getExtraAttachedStubsFromParent_loop_spec parentGroup.ends [] f
      have hf2 : f2 = { f with ends := f.ends ++ added } := by
        rw [← a1, ← hr]
      have hp2 : f2.parent = some parentGroup := by rw [hf2]; exact hp
      rw [getExtraAttachedStubsFromParent_import_child _ parentGroup (by rw [hparent, hp2])]
      apply getExtraAttachedStubsFromParent_loop_idle
      intro p hp' hq hnone
      rw [flower_getEnd_eq_none] at hnone
      by_cases hfp : flower_getEnd f p.name = none
      · have := a5 p hp' hq hfp
        obtain ⟨a, ha, hname⟩ := List.mem_map.mp this
        refine hnone a ?_ hname
        rw [he2, hf2]
        exact List.mem_append_left _ (List.mem_append_right _ ha)
      · rw [flower_getEnd_eq_none] at hfp
        apply hfp
        intro en hen
        refine hnone en ?_
        rw [he2, hf2]
        exact List.mem_append_left _ (List.mem_append_left _ hen)
  unfold getExtraAttachedStubsFromParent
  simp only [hloop]
  rw [hcount, if_pos hc]

/-- Witness of C14: scenario A. -/
theorem normalizer_idempotent_witness :
    getExtraAttachedStubsFromParent (addLinkBreakingBlocks scenarioA) =
      .ok [] (addLinkBreakingBlocks scenarioA) ∧
    addLinkBreakingBlocks (addLinkBreakingBlocks scenarioA) = addLinkBreakingBlocks scenarioA :=
  normalizer_idempotent scenarioA scenarioA [] (by decide)

/-- C15: when `getExtraAttachedStubsFromParent` succeeds on a flower with a parent group,
the flower it leaves is the flower with new ends added behind its own ends, which are as
they were; the returned list holds the new ends in order; every new end is the copy,
without group, of an end of the parent group that is attached or a block end and whose
name is the name of no end of the flower; and for every such end of the parent group
exactly one new end has its name. On a flower without parent group the list is empty and
the flower is as it was. -/
theorem getExtraAttachedStubsFromParent_imports (f g : Flower) (newEnds : List Nat)
    (h : getExtraAttachedStubsFromParent f = .ok newEnds g) :
    (∀ parentGroup, f.parent = some parentGroup →
      ∃ added : List End, g = { f with ends := f.ends ++ added } ∧
        newEnds = List.range' f.ends.length added.length ∧
        (∀ a ∈ added, a.group = none ∧ ∃ p ∈ parentGroup.ends,
          (p.isAttached || p.isBlockEnd) = true ∧ flower_getEnd f p.name = none ∧
          a = { p with group := none, block := none }) ∧
        (∀ p ∈ parentGroup.ends, (p.isAttached || p.isBlockEnd) = true →
          flower_getEnd f p.name = none → added.countP (fun a => a.name == p.name) = 1)) ∧
    (f.parent = none → newEnds = [] ∧ g = f) := by
  obtain ⟨hr, _⟩ := getExtraAttachedStubsFromParent_ok f g newEnds h
  constructor
  · intro parentGroup hp
    rw [getExtraAttachedStubsFromParent_import_child f parentGroup hp] at hr
    obtain ⟨added, a1, a2, a3, a4, a5⟩ :=
      getExtraAttachedStubsFromParent_loop_spec parentGroup.ends [] f
    rw [← hr] at a1 a2
    simp only at a1 a2
    refine ⟨added, a1, by simpa using a2, fun a ha => ?_, fun p hp' hq hn => ?_⟩
    · obtain ⟨p, p1, p2, p3, p4⟩ := a3 a ha
      exact ⟨by rw [p4], p, p1, p2, p3, p4⟩
    · exact countP_name_eq_one added p.name a4 (a5 p hp' hq hn)
  · intro hp
    rw [getExtraAttachedStubsFromParent_import_root f hp, Prod.mk.injEq] at hr
    exact hr

/-- Witness of C15: the flower with one attached stub end whose parent group has a
second one. -/
theorem getExtraAttachedStubsFromParent_imports_witness :
    ∃ added : List End,
      (getExtraAttachedStubsFromParent lateStubFlower).flower =
        { lateStubFlower with ends := lateStubFlower.ends ++ added } ∧
      [1] = List.range' lateStubFlower.ends.length added.length ∧
      (∀ a ∈ added, a.group = none ∧ ∃ p ∈ [attachedStub 1 true 9, attachedStub 2 false 9],
        (p.isAttached || p.isBlockEnd) = true ∧ flower_getEnd lateStubFlower p.name = none ∧
        a = { p with group := none, block := none }) ∧
      (∀ p ∈ [attachedStub 1 true 9, attachedStub 2 false 9],
        (p.isAttached || p.isBlockEnd) = true →
        flower_getEnd lateStubFlower p.name = none →
        added.countP (fun a => a.name == p.name) = 1) :=
  (getExtraAttachedStubsFromParent_imports lateStubFlower
    (getExtraAttachedStubsFromParent lateStubFlower).flower [1] (by decide)).1
    { ends := [attachedStub 1 true 9, attachedStub 2 false 9], eventTree := rootOnlyEventTree }
    rfl

/-- C20 (amended): when `getExtraAttachedStubsFromParent` succeeds, the number of attached
stub ends of the flower it leaves, that is after the import, is even and positive; it
fails exactly when that number is odd or zero; the number before the import is not
checked, and it is the same number when the flower has no parent group. -/
theorem getExtraAttachedStubsFromParent_checks_count_after (f : Flower) :
    (∀ newEnds g, getExtraAttachedStubsFromParent f = .ok newEnds g →
      flower_getAttachedStubEndNumber g % 2 = 0 ∧ 0 < flower_getAttachedStubEndNumber g) ∧
    ((getExtraAttachedStubsFromParent f).isOk = false ↔
      (flower_getAttachedStubEndNumber (getExtraAttachedStubsFromParent f).flower % 2 ≠ 0 ∨
        flower_getAttachedStubEndNumber (getExtraAttachedStubsFromParent f).flower = 0)) ∧
    (f.parent = none → (getExtraAttachedStubsFromParent f).flower = f) := by
  refine ⟨fun newEnds g h => (getExtraAttachedStubsFromParent_ok f g newEnds h).2, ?_, ?_⟩
  · unfold getExtraAttachedStubsFromParent
    simp only
    split
    · rename_i hc
      simp only [Outcome.isOk, Outcome.flower]
      constructor
      · intro h
        exact Bool.noConfusion h
      · intro h
        omega
    · rename_i hc
      simp only [Outcome.isOk, Outcome.flower, true_iff]
      omega
  · intro hp
    unfold getExtraAttachedStubsFromParent
    simp only [getExtraAttachedStubsFromParent_import_root f hp]
    split <;> rfl

/-- Witness of C20: the flower with one attached stub end whose parent group has a
second one. -/
theorem getExtraAttachedStubsFromParent_checks_count_after_witness :
    flower_getAttachedStubEndNumber (getExtraAttachedStubsFromParent lateStubFlower).flower % 2
      = 0 ∧
    0 < flower_getAttachedStubEndNumber (getExtraAttachedStubsFromParent lateStubFlower).flower :=
  (getExtraAttachedStubsFromParent_checks_count_after lateStubFlower).1 [1]
    (getExtraAttachedStubsFromParent lateStubFlower).flower (by decide)

/-- C20 (as stated, refuted): the flower has one attached stub end before the import, an
odd number, and `getExtraAttachedStubsFromParent` succeeds on it: it copies the second
attached stub end of the parent group and finds two. A flower with three attached stub
ends and no parent group has an odd number before and after, and the run ends there. -/
theorem getExtraAttachedStubsFromParent_odd_before :
    flower_getAttachedStubEndNumber lateStubFlower = 1 ∧
    (getExtraAttachedStubsFromParent lateStubFlower).isOk = true ∧
    flower_getAttachedStubEndNumber (getExtraAttachedStubsFromParent lateStubFlower).flower
      = 2 ∧
    flower_getAttachedStubEndNumber oddStubFlower = 3 ∧
    (getExtraAttachedStubsFromParent oddStubFlower).isOk = false := by
  decide

/-! ### `addBridgeBlocks` -/

theorem block_get5End_withNewBlock (f : Flower) (a b : Option Nat) :
    block_get5End (withNewBlock f a b) f.blocks.length = some f.ends.length := by
  simp [block_get5End, withNewBlock]

theorem block_get3End_withNewBlock (f : Flower) (a b : Option Nat) :
    block_get3End (withNewBlock f a b) f.blocks.length = some (f.ends.length + 1) := by
  simp [block_get3End, withNewBlock]

theorem end_setGroup_withNewBlock5 (f : Flower) (a b g : Option Nat) :
    end_setGroup (withNewBlock f a b) f.ends.length g = withNewBlock f g b :=
  end_setGroup_at (withNewBlock f a b) f.ends
    [blockEnd (f.nextName + 2) false b f.blocks.length]
    (blockEnd (f.nextName + 1) true a f.blocks.length) g rfl

theorem end_setGroup_withNewBlock3 (f : Flower) (a b g : Option Nat) :
    end_setGroup (withNewBlock f a b) (f.ends.length + 1) g = withNewBlock f a g := by
  have e2 := end_setGroup_at (withNewBlock f a b)
    (f.ends ++ [blockEnd (f.nextName + 1) true a f.blocks.length]) []
    (blockEnd (f.nextName + 2) false b f.blocks.length) g (by simp [withNewBlock])
  simp only [List.length_append, List.length_singleton] at e2
  rw [e2]
  simp [withNewBlock, blockEnd]

theorem end_getGroup_withNewBlock (f : Flower) (a b : Option Nat) (e : Nat)
    (he : e < f.ends.length) : end_getGroup (withNewBlock f a b) e = end_getGroup f e :=
  end_getGroup_append_left f _ (withNewBlock f a b) e rfl he

theorem addBridgeBlocks_step_eq (nodesToEnds : stHash) (f : Flower) (edge : stIntTuple)
    (end1 end2 : Nat) (he : edgeEnds nodesToEnds edge = some (end1, end2))
    (h1 : end1 < f.ends.length) (h2 : end2 < f.ends.length) :
    addBridgeBlocks_step nodesToEnds f edge =
      .ok () (if isBridge f nodesToEnds edge
        then withNewBlock f (end_getGroup f end1) (end_getGroup f end2) else f) := by
  have hb : isBridge f nodesToEnds edge = (end_getGroup f end1 != end_getGroup f end2) := by
    simp [isBridge, he]
  unfold edgeEnds at he
  unfold addBridgeBlocks_step
  cases p1 : (stIntTuple_getPosition edge 0).bind (getEndFromNode nodesToEnds) with
  | none => simp [p1] at he
  | some e1 =>
    cases p2 : (stIntTuple_getPosition edge 1).bind (getEndFromNode nodesToEnds) with
    | none => simp [p1, p2] at he
    | some e2 =>
      simp only [p1, p2, Option.some.injEq, Prod.mk.injEq] at he
      obtain ⟨rfl, rfl⟩ := he
      simp only
      by_cases hg : end_getGroup f e1 = end_getGroup f e2
      · simp [hb, hg]
      · rw [if_pos hg]
        simp only [block_construct_eq, block_get5End_withNewBlock, end_setGroup_withNewBlock5,
          block_get3End_withNewBlock, end_setGroup_withNewBlock3,
          end_getGroup_withNewBlock f _ _ _ h1, end_getGroup_withNewBlock f _ _ _ h2, hb]
        simp [hg]

theorem isBridge_of_addsBlockEnds {f g : Flower} (h : AddsBlockEnds f g) (nodesToEnds : stHash)
    (edge : stIntTuple) (end1 end2 : Nat) (he : edgeEnds nodesToEnds edge = some (end1, end2))
    (h1 : end1 < f.ends.length) (h2 : end2 < f.ends.length) :
    isBridge g nodesToEnds edge = isBridge f nodesToEnds edge := by
  obtain ⟨⟨added, ha, _⟩, _⟩ := h
  simp only [isBridge, he]
  rw [end_getGroup_append_left f added g end1 ha h1, end_getGroup_append_left f added g end2 ha h2]

theorem addBridgeBlocks_spec (nodesToEnds : stHash) (edges : List stIntTuple) (f : Flower)
    (hwf : ∀ edge ∈ edges, ∃ end1 end2, edgeEnds nodesToEnds edge = some (end1, end2) ∧
      end1 < f.ends.length ∧ end2 < f.ends.length) :
    ∃ g, addBridgeBlocks nodesToEnds edges f = .ok () g ∧ AddsBlockEnds f g ∧
      g.blocks.length = f.blocks.length + (edges.filter (isBridge f nodesToEnds)).length ∧
      g.ends.length = f.ends.length + 2 * (edges.filter (isBridge f nodesToEnds)).length ∧
      ∀ k edge end1 end2, (edges.filter (isBridge f nodesToEnds))[k]? = some edge →
        edgeEnds nodesToEnds edge = some (end1, end2) →
        ∃ blk name5 name3, g.blocks[f.blocks.length + k]? = some blk ∧
          blk.end5 = f.ends.length + 2 * k ∧ blk.end3 = f.ends.length + 2 * k + 1 ∧
          g.ends[f.ends.length + 2 * k]? =
            some (blockEnd name5 true (end_getGroup f end1) (f.blocks.length + k)) ∧
          g.ends[f.ends.length + 2 * k + 1]? =
            some (blockEnd name3 false (end_getGroup f end2) (f.blocks.length + k)) := by
  induction edges generalizing f with
  | nil =>
    exact ⟨f, rfl, addsBlockEnds_refl f, by simp, by simp, by simp⟩
  | cons edge rest ih =>
    obtain ⟨e1, e2, he, l1, l2⟩ := hwf edge (by simp)
    unfold addBridgeBlocks
    rw [addBridgeBlocks_step_eq nodesToEnds f edge e1 e2 he l1 l2]
    simp only
    by_cases hb : isBridge f nodesToEnds edge = true
    · rw [if_pos hb]
      have hadd := addsBlockEnds_withNewBlock f (end_getGroup f e1) (end_getGroup f e2)
      have hlen : (withNewBlock f (end_getGroup f e1) (end_getGroup f e2)).ends.length =
          f.ends.length + 2 := by simp [withNewBlock]
      have hblen : (withNewBlock f (end_getGroup f e1) (end_getGroup f e2)).blocks.length =
          f.blocks.length + 1 := by simp [withNewBlock]
      have hwf' : ∀ edge ∈ rest, ∃ end1 end2, edgeEnds nodesToEnds edge = some (end1, end2) ∧
          end1 < (withNewBlock f (end_getGroup f e1) (end_getGroup f e2)).ends.length ∧
          end2 < (withNewBlock f (end_getGroup f e1) (end_getGroup f e2)).ends.length := by
        intro ed hed
        obtain ⟨a, b, h1, h2, h3⟩ := hwf ed (List.mem_cons_of_mem _ hed)
        exact ⟨a, b, h1, by omega, by omega⟩
      obtain ⟨g, g1, g2, g3, g4, g5⟩ := ih _ hwf'
      have hfilter : rest.filter
          (isBridge (withNewBlock f (end_getGroup f e1) (end_getGroup f e2)) nodesToEnds) =
          rest.filter (isBridge f nodesToEnds) := by
        apply List.filter_congr
        intro ed hed
        obtain ⟨a, b, h1, h2, h3⟩ := hwf ed (List.mem_cons_of_mem _ hed)
        exact isBridge_of_addsBlockEnds hadd nodesToEnds ed a b h1 h2 h3
      rw [hfilter] at g3 g4 g5
      refine ⟨g, g1, addsBlockEnds_trans hadd g2, ?_, ?_, ?_⟩
      · rw [g3, hblen, List.filter_cons_of_pos hb, List.length_cons]
        omega
      · rw [g4, hlen, List.filter_cons_of_pos hb, List.length_cons]
        omega
      · intro k ed a b hk hed
        rw [List.filter_cons_of_pos hb] at hk
        obtain ⟨⟨added, ha, _⟩, ⟨addedBlocks, hab⟩, _⟩ := g2
        cases k with
        | zero =>
          simp only [List.getElem?_cons_zero, Option.some.injEq] at hk
          subst hk
          rw [he] at hed
          simp only [Option.some.injEq, Prod.mk.injEq] at hed
          obtain ⟨rfl, rfl⟩ := hed
          refine ⟨
            { name := f.nextName, length := 1, end5 := f.ends.length,
              end3 := f.ends.length + 1, segments := [] },
            f.nextName + 1, f.nextName + 2, ?_, rfl, rfl, ?_, ?_⟩
          · rw [hab]
            exact getElem?_append_of_some _ _ _ _ (by simp [withNewBlock])
          · rw [ha]
            apply getElem?_append_of_some
            simp only [withNewBlock, Nat.mul_zero, Nat.add_zero]
            rw [List.getElem?_append_right (Nat.le_refl _)]
            simp
          · rw [ha]
            apply getElem?_append_of_some
            simp only [withNewBlock, Nat.mul_zero, Nat.add_zero]
            rw [List.getElem?_append_right (Nat.le_succ _)]
            simp
        | succ k =>
          simp only [List.getElem?_cons_succ] at hk
          obtain ⟨blk, n5, n3, q1, q2, q3, q4, q5⟩ := g5 k ed a b hk hed
          obtain ⟨a', b', h1, h2, h3⟩ := hwf ed
            (List.mem_cons_of_mem _ (List.mem_of_mem_filter (List.getElem?_mem hk)))
          rw [h1] at hed
          simp only [Option.some.injEq, Prod.mk.injEq] at hed
          obtain ⟨rfl, rfl⟩ := hed
          rw [end_getGroup_withNewBlock f _ _ _ h2] at q4
          rw [end_getGroup_withNewBlock f _ _ _ h3] at q5
          rw [hblen] at q1 q4 q5
          rw [hlen] at q2 q3 q4 q5
          have e1' : f.ends.length + 2 * (k + 1) = f.ends.length + 2 + 2 * k := by omega
          have e2' : f.blocks.length + (k + 1) = f.blocks.length + 1 + k := by omega
          rw [e1', e2']
          exact ⟨blk, n5, n3, q1, q2, q3, q4, q5⟩
    · rw [if_neg hb]
      have hwf' : ∀ edge ∈ rest, ∃ end1 end2, edgeEnds nodesToEnds edge = some (end1, end2) ∧
          end1 < f.ends.length ∧ end2 < f.ends.length :=
        fun ed hed => hwf ed (List.mem_cons_of_mem _ hed)
      obtain ⟨g, g1, g2, g3, g4, g5⟩ := ih f hwf'
      refine ⟨g, g1, g2, ?_, ?_, ?_⟩
      · rw [List.filter_cons_of_neg hb]; exact g3
      · rw [List.filter_cons_of_neg hb]; exact g4
      · intro k ed a b hk hed
        rw [List.filter_cons_of_neg hb] at hk
        exact g5 k ed a b hk hed

theorem addBridgeBlocks_no_bridge (nodesToEnds : stHash) (edges : List stIntTuple) (f : Flower)
    (hwf : ∀ edge ∈ edges, ∃ end1 end2, edgeEnds nodesToEnds edge = some (end1, end2) ∧
      end1 < f.ends.length ∧ end2 < f.ends.length)
    (hno : ∀ edge ∈ edges, isBridge f nodesToEnds edge = false) :
    addBridgeBlocks nodesToEnds edges f = .ok () f := by
  induction edges with
  | nil => rfl
  | cons edge rest ih =>
    obtain ⟨e1, e2, he, l1, l2⟩ := hwf edge (by simp)
    unfold addBridgeBlocks
    rw [addBridgeBlocks_step_eq nodesToEnds f edge e1 e2 he l1 l2, hno edge (by simp)]
    simp only [Bool.false_eq_true, if_false]
    exact ih (fun ed hed => hwf ed (List.mem_cons_of_mem _ hed))
      (fun ed hed => hno ed (List.mem_cons_of_mem _ hed))

/-- C11: on a chosen edge list whose edges join node ids of ends of the flower,
`addBridgeBlocks` succeeds; it leaves the ends and blocks of the flower as they were and
adds one block with its two ends for each chosen edge whose ends lie in different groups,
in the order of the edges: the 5' end of the block is in the group of the first end of
the edge and its 3' end in the group of the second end; when no chosen edge joins two
groups the flower is as it was. In scenario C the chosen edge `(Q, R)` gives one new
block, and `G1` and `G2` each go from two ends to three. -/
theorem addBridgeBlocks_creates_bridges (nodesToEnds : stHash) (edges : List stIntTuple)
    (f : Flower)
    (hwf : ∀ edge ∈ edges, ∃ end1 end2, edgeEnds nodesToEnds edge = some (end1, end2) ∧
      end1 < f.ends.length ∧ end2 < f.ends.length) :
    (∃ g, addBridgeBlocks nodesToEnds edges f = .ok () g ∧ AddsBlockEnds f g ∧
      g.blocks.length = f.blocks.length + (edges.filter (isBridge f nodesToEnds)).length ∧
      g.ends.length = f.ends.length + 2 * (edges.filter (isBridge f nodesToEnds)).length ∧
      (∀ k edge end1 end2, (edges.filter (isBridge f nodesToEnds))[k]? = some edge →
        edgeEnds nodesToEnds edge = some (end1, end2) →
        ∃ blk name5 name3, g.blocks[f.blocks.length + k]? = some blk ∧
          blk.end5 = f.ends.length + 2 * k ∧ blk.end3 = f.ends.length + 2 * k + 1 ∧
          g.ends[f.ends.length + 2 * k]? =
            some (blockEnd name5 true (end_getGroup f end1) (f.blocks.length + k)) ∧
          g.ends[f.ends.length + 2 * k + 1]? =
            some (blockEnd name3 false (end_getGroup f end2) (f.blocks.length + k))) ∧
      ((∀ edge ∈ edges, isBridge f nodesToEnds edge = false) → g = f)) ∧
    (group_getEndIterator scenarioC 0 = [0, 1] ∧ group_getEndIterator scenarioC 1 = [2, 3] ∧
      getMapOfNodesToTangleEnds (getMapOfTangleEndsToNodes scenarioC) =
        [(0, 0), (1, 1), (2, 2), (3, 3)] ∧
      (addBridgeBlocks [(0, 0), (1, 1), (2, 2), (3, 3)] [[1, 2]] scenarioC).isOk = true ∧
      (addBridgeBlocks [(0, 0), (1, 1), (2, 2), (3, 3)] [[1, 2]] scenarioC).flower.blocks =
        [{ name := 7, length := 1, end5 := 4, end3 := 5, segments := [] }] ∧
      group_getEndIterator
        (addBridgeBlocks [(0, 0), (1, 1), (2, 2), (3, 3)] [[1, 2]] scenarioC).flower 0 =
        [0, 1, 4] ∧
      group_getEndIterator
        (addBridgeBlocks [(0, 0), (1, 1), (2, 2), (3, 3)] [[1, 2]] scenarioC).flower 1 =
        [2, 3, 5]) := by
  refine ⟨?_, by decide⟩
  obtain ⟨g, g1, g2, g3, g4, g5⟩ := addBridgeBlocks_spec nodesToEnds edges f hwf
  refine ⟨g, g1, g2, g3, g4, g5, fun hno => ?_⟩
  rw [addBridgeBlocks_no_bridge nodesToEnds edges f hwf hno] at g1
  simp only [Outcome.ok.injEq, true_and] at g1
  exact g1.symm

/-- Witness of C11: scenario C with the chosen edge `(Q, R)`. -/
theorem addBridgeBlocks_creates_bridges_witness :
    ∃ g, addBridgeBlocks [(0, 0), (1, 1), (2, 2), (3, 3)] [[1, 2]] scenarioC = .ok () g ∧
      AddsBlockEnds scenarioC g ∧
      g.blocks.length = scenarioC.blocks.length +
        ([[1, 2]].filter (isBridge scenarioC [(0, 0), (1, 1), (2, 2), (3, 3)])).length :=
  match (addBridgeBlocks_creates_bridges [(0, 0), (1, 1), (2, 2), (3, 3)] [[1, 2]] scenarioC
    (fun edge he => by
      rw [List.mem_singleton.mp he]
      exact ⟨1, 2, by decide, by decide, by decide⟩)).1 with
  | ⟨g, g1, g2, g3, _⟩ => ⟨g, g1, g2, g3⟩

/-! ### `getTrivialChainEdges` -/

theorem getEdge_eq_some (end1 end2 : Nat) (endsToNodes : stHash) (edge : stIntTuple) :
    getEdge end1 end2 endsToNodes = some edge ↔
      ∃ node1 node2, stHash_search endsToNodes end1 = some node1 ∧
        stHash_search endsToNodes end2 = some node2 ∧ edge = getEdge2 node1 node2 := by
  unfold getEdge
  constructor
  · intro h
    split at h
    · rename_i node1 node2 h1 h2
      exact ⟨node1, node2, h1, h2, (Option.some.inj h).symm⟩
    · exact Option.noConfusion h
  · rintro ⟨node1, node2, h1, h2, rfl⟩
    rw [h1, h2]

theorem getEdge_of_tangle (f : Flower) (end1 end2 : Nat)
    (h1 : end_groupIsTangle f end1 = some true) (h2 : end_groupIsTangle f end2 = some true) :
    ∃ node1 node2, stHash_search (getMapOfTangleEndsToNodes f) end1 = some node1 ∧
      stHash_search (getMapOfTangleEndsToNodes f) end2 = some node2 ∧
      getEdge end1 end2 (getMapOfTangleEndsToNodes f) = some (getEdge2 node1 node2) := by
  rw [← iterateOverTangleEnds_mem, List.mem_iff_getElem?] at h1 h2
  obtain ⟨node1, h1⟩ := h1
  obtain ⟨node2, h2⟩ := h2
  rw [← stHash_search_endsToNodes] at h1 h2
  exact ⟨node1, node2, h1, h2, (getEdge_eq_some _ _ _ _).mpr ⟨node1, node2, h1, h2, rfl⟩⟩

theorem getTrivialChainEdges_loop_ok (f : Flower) (blocks : List Block)
    (chainEdges : List stIntTuple) (h : ∀ block ∈ blocks, blockIsUniform f block) :
    ∃ added : List stIntTuple,
      getTrivialChainEdges_loop f (getMapOfTangleEndsToNodes f) blocks chainEdges =
        some (chainEdges ++ added) ∧
      (blocks.filter (fun b => end_groupIsTangle f b.end5 == some true)).map
        (fun b => getEdge b.end5 b.end3 (getMapOfTangleEndsToNodes f)) = added.map some := by
  induction blocks generalizing chainEdges with
  | nil => exact ⟨[], by simp [getTrivialChainEdges_loop], rfl⟩
  | cons block rest ih =>
    have hrest : ∀ b ∈ rest, blockIsUniform f b := fun b hb => h b (List.mem_cons_of_mem _ hb)
    rcases h block (List.mem_cons_self _ _) with ⟨h5, h3⟩ | ⟨h5, h3⟩
    · obtain ⟨node1, node2, _, _, he⟩ := getEdge_of_tangle f _ _ h5 h3
      obtain ⟨added, h1, h2⟩ := ih (chainEdges ++ [getEdge2 node1 node2]) hrest
      refine ⟨getEdge2 node1 node2 :: added, ?_, ?_⟩
      · unfold getTrivialChainEdges_loop
        simp only [h5, h3, he, if_true]
        rw [h1, List.append_assoc, List.singleton_append]
      · rw [List.filter_cons_of_pos (by simp [h5]), List.map_cons, he, h2, List.map_cons]
    · obtain ⟨added, h1, h2⟩ := ih chainEdges hrest
      refine ⟨added, ?_, ?_⟩
      · unfold getTrivialChainEdges_loop
        simp only [h5, h3, if_true]
        exact h1
      · rw [List.filter_cons_of_neg (by simp [h5])]
        exact h2

theorem getTrivialChainEdges_loop_none (f : Flower) (endsToNodes : stHash)
    (blocks : List Block) (chainEdges : List stIntTuple)
    (h : ∃ block ∈ blocks, ¬ blockIsUniform f block) :
    getTrivialChainEdges_loop f endsToNodes blocks chainEdges = none := by
  induction blocks generalizing chainEdges with
  | nil =>
    obtain ⟨_, hb, _⟩ := h
    exact absurd hb (List.not_mem_nil _)
  | cons block rest ih =>
    unfold getTrivialChainEdges_loop
    by_cases hu : blockIsUniform f block
    · have hrest : ∃ b ∈ rest, ¬ blockIsUniform f b := by
        obtain ⟨b, hb, hnb⟩ := h
        rcases List.mem_cons.mp hb with rfl | hb
        · exact absurd hu hnb
        · exact ⟨b, hb, hnb⟩
      rcases hu with ⟨h5, h3⟩ | ⟨h5, h3⟩
      · simp only [h5, h3, if_true]
        cases getEdge block.end5 block.end3 endsToNodes with
        | none => rfl
        | some edge => exact ih _ hrest
      · simp only [h5, h3, if_true]
        exact ih _ hrest
    · unfold blockIsUniform at hu
      cases h5 : end_groupIsTangle f block.end5 with
      | none => rfl
      | some t =>
        cases t with
        | true =>
          have h3 : ¬ end_groupIsTangle f block.end3 = some true := fun h3 =>
            hu (Or.inl ⟨h5, h3⟩)
          simp only [h3, if_false]
        | false =>
          have h3 : ¬ end_groupIsLink f block.end3 = some true := fun h3 =>
            hu (Or.inr ⟨h5, h3⟩)
          simp only [h3, if_false]

/-- What `getTrivialChainEdges` does: it completes exactly on the flowers in which every
block has both ends in tangle groups, or its 5' end in a group that is not a
tangle group and its 3' end in a link group. On such a flower it appends, in the order of
the blocks, exactly one edge for each block with both ends in tangle groups, the edge of
the node ids of the 5' and the 3' end of the block, and no edge for the other blocks. On
a flower with any other block (the 5' end in a tangle group and the 3' end not, the 5'
end in a link group and the 3' end not, or the 5' end in no group) it fails. -/
theorem getTrivialChainEdges_uniform_blocks (f : Flower) (chainEdges : List stIntTuple) :
    ((∀ block ∈ f.blocks, blockIsUniform f block) →
      ∃ added : List stIntTuple,
        getTrivialChainEdges f (getMapOfTangleEndsToNodes f) chainEdges =
          some (chainEdges ++ added) ∧
        (f.blocks.filter (fun b => end_groupIsTangle f b.end5 == some true)).map
          (fun b => getEdge b.end5 b.end3 (getMapOfTangleEndsToNodes f)) = added.map some) ∧
    ((∃ block ∈ f.blocks, ¬ blockIsUniform f block) →
      getTrivialChainEdges f (getMapOfTangleEndsToNodes f) chainEdges = none) ∧
    getTrivialChainEdges tangleBlockFlower (getMapOfTangleEndsToNodes tangleBlockFlower) [] =
      some [[2, 3]] ∧
    getTrivialChainEdges linkFlower (getMapOfTangleEndsToNodes linkFlower) [] = some [] :=
  ⟨getTrivialChainEdges_loop_ok f f.blocks chainEdges,
    getTrivialChainEdges_loop_none f _ f.blocks chainEdges, by decide, by decide⟩

/-- In `chainStartFlower` the only block has its 5' end in a tangle group and its 3' end
in a link group, so it does not have both ends in tangle groups, and
`getTrivialChainEdges` fails on it. -/
theorem getTrivialChainEdges_fails_on_chain_start :
    chainStartFlower.blocks = [{ name := 6, length := 1, end5 := 2, end3 := 3, segments := [] }] ∧
    end_groupIsTangle chainStartFlower 2 = some true ∧
    end_groupIsLink chainStartFlower 3 = some true ∧
    getTrivialChainEdges chainStartFlower (getMapOfTangleEndsToNodes chainStartFlower) [] =
      none := by
  decide

/-! ### Reading a committed adjacency back -/

theorem flower_getEnd_of_grows {f g : Flower} (h : Grows f g) (name e : Nat)
    (he : flower_getEnd f name = some e) : flower_getEnd g name = some e := by
  unfold flower_getEnd flower_getEndIterator at he ⊢
  rw [List.find?_range_eq_some] at he ⊢
  obtain ⟨h1, h2, h3⟩ := he
  have hlt : e < f.ends.length := List.mem_range.mp h2
  have key : ∀ j, j < f.ends.length →
      g.ends[j]?.map (fun x => x.name) = f.ends[j]?.map (fun x => x.name) := by
    intro j hj
    obtain ⟨en', q1, q2, _⟩ := h.1 j f.ends[j] (List.getElem?_eq_getElem hj)
    rw [q1, List.getElem?_eq_getElem hj]
    simp [q2]
  refine ⟨by rw [key e hlt]; exact h1, ?_, fun j hj => ?_⟩
  · obtain ⟨en', q1, _⟩ := h.1 e f.ends[e] (List.getElem?_eq_getElem hlt)
    exact List.mem_range.mpr (List.getElem?_eq_some_iff.mp q1).1
  · rw [key j (by omega)]
    exact h3 j hj

theorem cap_getEnd_of_getCapWithEvent (f : Flower) (e c : Nat) (event : Event)
    (h : getCapWithEvent f e event = some c) : cap_getEnd f c = some e := by
  have h1 := ((getCapWithEvent_eq_some f e event c).mp h).1
  unfold isCapOf at h1
  unfold cap_getEnd
  simp only [Bool.and_eq_true, beq_iff_eq] at h1
  exact h1.1

theorem getAdjacentEndFromParent_of_linked (g : Flower) (referenceEvent : Event)
    (parentGroup : ParentGroup) (X Y cap1 cap2 : Nat) (xen yen : End)
    (hp : g.parent = some parentGroup) (hX : g.ends[X]? = some xen)
    (hY : g.ends[Y]? = some yen) (hpX : (group_getEnd parentGroup xen.name).isSome = true)
    (hnY : flower_getEnd g yen.name = some Y)
    (hc1 : getCapWithEvent g X referenceEvent = some cap1)
    (hc2 : getCapWithEvent g Y referenceEvent = some cap2)
    (ha : cap_getAdjacency g cap1 = some cap2) :
    getAdjacentEndFromParent g X referenceEvent = some Y := by
  obtain ⟨pe, hpe⟩ := Option.isSome_iff_exists.mp hpX
  unfold getAdjacentEndFromParent
  simp only [hp, hX, hpe, hc1, ha, cap_getEnd_of_getCapWithEvent g Y cap2 referenceEvent hc2, hY,
    hnY]

theorem edgeEnds_eq_some (nodesToEnds : stHash) (edge : stIntTuple) (end1 end2 : Nat) :
    edgeEnds nodesToEnds edge = some (end1, end2) ↔
      (stIntTuple_getPosition edge 0).bind (getEndFromNode nodesToEnds) = some end1 ∧
      (stIntTuple_getPosition edge 1).bind (getEndFromNode nodesToEnds) = some end2 := by
  unfold edgeEnds
  constructor
  · intro h
    split at h
    · rename_i a b h1 h2
      simp only [Option.some.injEq, Prod.mk.injEq] at h
      rw [h1, h2, h.1, h.2]
      exact ⟨rfl, rfl⟩
    · exact Option.noConfusion h
  · rintro ⟨h1, h2⟩
    rw [h1, h2]

theorem edgeIsLinked_edgeEnds (f : Flower) (nodesToEnds : stHash) (referenceEvent : Event)
    (edge : stIntTuple) (end1 end2 : Nat)
    (h : edgeIsLinked f nodesToEnds referenceEvent edge)
    (he : edgeEnds nodesToEnds edge = some (end1, end2)) :
    ∃ cap1 cap2, getCapWithEvent f end1 referenceEvent = some cap1 ∧
      getCapWithEvent f end2 referenceEvent = some cap2 ∧
      cap_getAdjacency f cap1 = some cap2 ∧ cap_getAdjacency f cap2 = some cap1 := by
  obtain ⟨node1, node2, e1, e2, cap1, cap2, p1, p2, q1, q2, c1, c2, a1, a2⟩ := h
  rw [edgeEnds_eq_some, p1, p2, Option.some_bind, Option.some_bind, q1, q2] at he
  obtain ⟨r1, r2⟩ := he
  rw [Option.some.injEq] at r1 r2
  subst r1 r2
  exact ⟨cap1, cap2, c1, c2, a1, a2⟩

/-- Reading back a committed edge: after `addAdjacenciesAndSegments` has committed a
chosen edge with the ends `X` and `Y` (in either order) in a flower with a parent group, `getAdjacentEndFromParent`
reads `Y` back at `X`: if the parent group has an end with the name of `X`, and `Y` is
the end that the flower finds under its own name, then the cap of `X` for the reference
event is adjacent to a cap whose end, projected into the flower by name, is `Y`. -/
theorem addAdjacenciesAndSegments_round_trip (nodesToEnds : stHash) (referenceEvent : Event)
    (edges : List stIntTuple) (f g : Flower) (edge : stIntTuple) (X Y : Nat)
    (parentGroup : ParentGroup) (xen yen : End)
    (h : addAdjacenciesAndSegments nodesToEnds referenceEvent edges f = .ok () g)
    (he : edge ∈ edges)
    (hXY : edgeEnds nodesToEnds edge = some (X, Y) ∨ edgeEnds nodesToEnds edge = some (Y, X))
    (hp : f.parent = some parentGroup) (hX : f.ends[X]? = some xen)
    (hY : f.ends[Y]? = some yen) (hpX : (group_getEnd parentGroup xen.name).isSome = true)
    (hnY : flower_getEnd f yen.name = some Y) :
    getAdjacentEndFromParent g X referenceEvent = some Y := by
  obtain ⟨hg, hl⟩ := addAdjacenciesAndSegments_spec nodesToEnds referenceEvent edges f g h
  obtain ⟨xen', hX', hxn, _⟩ := hg.1 X xen hX
  obtain ⟨yen', hY', hyn, _⟩ := hg.1 Y yen hY
  have hp' : g.parent = some parentGroup := by rw [hg.2.2.2.2.2.1]; exact hp
  have hnY' : flower_getEnd g yen'.name = some Y := by
    rw [hyn]; exact flower_getEnd_of_grows hg _ _ hnY
  have hpX' : (group_getEnd parentGroup xen'.name).isSome = true := by rw [hxn]; exact hpX
  rcases hXY with hXY | hXY
  · obtain ⟨cap1, cap2, c1, c2, a1, _⟩ :=
      edgeIsLinked_edgeEnds g nodesToEnds referenceEvent edge X Y (hl edge he) hXY
    exact getAdjacentEndFromParent_of_linked g referenceEvent parentGroup X Y cap1 cap2 xen' yen'
      hp' hX' hY' hpX' hnY' c1 c2 a1
  · obtain ⟨cap1, cap2, c1, c2, _, a2⟩ :=
      edgeIsLinked_edgeEnds g nodesToEnds referenceEvent edge Y X (hl edge he) hXY
    exact getAdjacentEndFromParent_of_linked g referenceEvent parentGroup X Y cap2 cap1 xen' yen'
      hp' hX' hY' hpX' hnY' c2 c1 a2

/-- Reading back in `importFlower`, which has a parent group: committing the edge of its
two ends and reading the adjacency back at the first end gives the other end. The edge is
not a stub edge: before it is committed no adjacency can be read. -/
theorem addAdjacenciesAndSegments_round_trip_witness :
    getAdjacentEndFromParent
      (addAdjacenciesAndSegments [(0, 0), (1, 1)] exampleEvent [[0, 1]] importFlower).flower
      0 exampleEvent = some 1 ∧
    getAdjacentEndFromParent importFlower 0 exampleEvent = none :=
  ⟨addAdjacenciesAndSegments_round_trip [(0, 0), (1, 1)] exampleEvent [[0, 1]] importFlower _
    [0, 1] 0 1 _ (attachedStub 1 true 0) (attachedStub 2 false 0) (by decide)
    (by decide) (Or.inl (by decide)) rfl (by decide) (by decide) (by decide) (by decide),
    by decide⟩

/-! ### `getStubEdgesFromParent` -/

theorem getEdge2_comm (a b : Nat) : getEdge2 a b = getEdge2 b a := by
  unfold getEdge2
  by_cases h1 : a < b
  · have h2 : ¬ b < a := by omega
    rw [if_pos h1, if_neg h2]
  · by_cases h2 : b < a
    · rw [if_neg h1, if_pos h2]
    · have h3 : a = b := by omega
      subst h3
      rfl

theorem getEdge_comm (end1 end2 : Nat) (endsToNodes : stHash) :
    getEdge end1 end2 endsToNodes = getEdge end2 end1 endsToNodes := by
  unfold getEdge
  cases stHash_search endsToNodes end1 <;> cases stHash_search endsToNodes end2
  · rfl
  · rfl
  · rfl
  · exact congrArg some (getEdge2_comm _ _)

theorem getEdge2_form (a b : Nat) (h : a ≠ b) :
    (∃ x y : Nat, getEdge2 a b = [x, y] ∧ x < y) ∧ (getEdge2 a b).Perm [b, a] := by
  unfold getEdge2
  by_cases h1 : a < b
  · rw [if_pos h1]
    exact ⟨⟨a, b, rfl, h1⟩, List.Perm.swap b a []⟩
  · rw [if_neg h1]
    exact ⟨⟨b, a, rfl, by omega⟩, List.Perm.refl _⟩

theorem stHash_search_endsToNodes_inj (f : Flower) (a b v : Nat)
    (ha : stHash_search (getMapOfTangleEndsToNodes f) a = some v)
    (hb : stHash_search (getMapOfTangleEndsToNodes f) b = some v) : a = b := by
  rw [stHash_search_endsToNodes] at ha hb
  rw [ha] at hb
  exact Option.some.inj hb

theorem getStubEdgesFromParent_loop_spec (f : Flower) (endsToNodes : stHash)
    (referenceEvent : Event)
    (hinj : ∀ a b v, stHash_search endsToNodes a = some v →
      stHash_search endsToNodes b = some v → a = b)
    (rest : List Nat) :
    ∀ (endsSeen : List Nat) (stubEdges result : List stIntTuple),
      getStubEdgesFromParent_loop f endsToNodes referenceEvent rest endsSeen stubEdges =
        some result →
      isStubPairing f endsToNodes referenceEvent endsSeen stubEdges →
      ∃ seen : List Nat, isStubPairing f endsToNodes referenceEvent seen result ∧
        (∀ e ∈ endsSeen, e ∈ seen) ∧
        ∀ e ∈ rest, ∀ en : End, f.ends[e]? = some en → en.isAttached = true →
          en.isBlockEnd = false → e ∈ seen := by
  induction rest with
  | nil =>
    intro endsSeen stubEdges result h hinv
    simp only [getStubEdgesFromParent_loop, Option.some.injEq] at h
    subst h
    exact ⟨endsSeen, hinv, fun e he => he, fun e he => absurd he (List.not_mem_nil _)⟩
  | cons e rest ih =>
    intro endsSeen stubEdges result h hinv
    unfold getStubEdgesFromParent_loop at h
    cases hen : f.ends[e]? with
    | none => simp [hen] at h
    | some en =>
      simp only [hen] at h
      by_cases hc : (en.isAttached && !en.isBlockEnd && !endsSeen.contains e) = true
      · rw [if_pos hc] at h
        simp only [Bool.and_eq_true, Bool.not_eq_true', List.contains_eq_any_beq,
          List.any_eq_false, beq_iff_eq] at hc
        have hns : e ∉ endsSeen := fun hm => (hc.2 e hm) rfl
        cases hadj : getAdjacentEndFromParent f e referenceEvent with
        | none => simp [hadj] at h
        | some adjacentEnd =>
          simp only [hadj] at h
          by_cases hk : end_groupIsTangle f e = some true ∧
              end_groupIsTangle f adjacentEnd = some true ∧ ¬ adjacentEnd ∈ endsSeen ∧
              adjacentEnd ≠ e
          · rw [if_pos hk] at h
            obtain ⟨_, _, hk3, hk4⟩ := hk
            cases hedge : getEdge e adjacentEnd endsToNodes with
            | none => simp [hedge] at h
            | some edge =>
              simp only [hedge] at h
              obtain ⟨va, vb, hva, hvb, rfl⟩ := (getEdge_eq_some _ _ _ _).mp hedge
              have hne : va ≠ vb := fun hv => hk4 (hinj _ _ _ hvb (hv ▸ hva))
              obtain ⟨⟨x, y, hxy, hlt⟩, hperm⟩ := getEdge2_form va vb hne
              obtain ⟨i1, i2, i3, i4⟩ := hinv
              have hinv' : isStubPairing f endsToNodes referenceEvent
                  (adjacentEnd :: e :: endsSeen) (stubEdges ++ [getEdge2 va vb]) := by
                refine ⟨?_, ?_, ?_, ?_⟩
                · refine List.nodup_cons.mpr ⟨?_, List.nodup_cons.mpr ⟨hns, i1⟩⟩
                  intro hm
                  rcases List.mem_cons.mp hm with hm | hm
                  · exact hk4 hm
                  · exact hk3 hm
                · rw [List.filterMap_cons_some hvb, List.filterMap_cons_some hva,
                    List.flatten_append]
                  simp only [List.flatten_cons, List.flatten_nil, List.append_nil]
                  exact (List.perm_append_comm.trans (hperm.append i2))
                · intro e' he'
                  rcases List.mem_cons.mp he' with rfl | he'
                  · refine ⟨e, _, Or.inr hadj, ?_, List.mem_append_right _
                      (List.mem_singleton_self _)⟩
                    rw [getEdge_comm]; exact hedge
                  · rcases List.mem_cons.mp he' with rfl | he'
                    · exact ⟨adjacentEnd, _, Or.inl hadj, hedge,
                        List.mem_append_right _ (List.mem_singleton_self _)⟩
                    · obtain ⟨p, edge, q1, q2, q3⟩ := i3 e' he'
                      exact ⟨p, edge, q1, q2, List.mem_append_left _ q3⟩
                · intro edge he
                  rcases List.mem_append.mp he with he | he
                  · exact i4 edge he
                  · rw [List.mem_singleton.mp he]
                    exact ⟨x, y, hxy, hlt⟩
              obtain ⟨seen, s1, s2, s3⟩ := ih _ _ _ h hinv'
              refine ⟨seen, s1, fun e' he' => s2 e' (List.mem_cons_of_mem _
                (List.mem_cons_of_mem _ he')), fun e' he' en' hen' hat hst => ?_⟩
              rcases List.mem_cons.mp he' with rfl | he'
              · exact s2 _ (List.mem_cons_of_mem _ (List.mem_cons_self _ _))
              · exact s3 e' he' en' hen' hat hst
          · rw [if_neg hk] at h
            exact Option.noConfusion h
      · rw [if_neg hc] at h
        obtain ⟨seen, s1, s2, s3⟩ := ih _ _ _ h hinv
        refine ⟨seen, s1, s2, fun e' he' en' hen' hat hst => ?_⟩
        rcases List.mem_cons.mp he' with rfl | he'
        · rw [hen] at hen'
          have hee := Option.some.inj hen'
          subst hee
          apply s2
          by_contra hns
          apply hc
          simp only [Bool.and_eq_true, Bool.not_eq_true', List.contains_eq_any_beq,
            List.any_eq_false, beq_iff_eq]
          exact ⟨⟨hat, hst⟩, fun x hx hxe => hns (hxe ▸ hx)⟩
        · exact s3 e' he' en' hen' hat hst

theorem isStubPairing_nil (f : Flower) (endsToNodes : stHash) (referenceEvent : Event) :
    isStubPairing f endsToNodes referenceEvent [] [] :=
  ⟨List.nodup_nil, List.Perm.refl _, fun _ he => absurd he (List.not_mem_nil _),
    fun _ he => absurd he (List.not_mem_nil _)⟩

theorem getStubEdgesFromParent_spec (f : Flower) (referenceEvent : Event)
    (stubEdges : List stIntTuple)
    (h : getStubEdgesFromParent f (getMapOfTangleEndsToNodes f) referenceEvent =
      some stubEdges) :
    ∃ seen : List Nat, isStubPairing f (getMapOfTangleEndsToNodes f) referenceEvent seen
        stubEdges ∧
      ∀ (e : Nat) (en : End), f.ends[e]? = some en → en.isAttached = true →
        en.isBlockEnd = false → e ∈ seen := by
  obtain ⟨seen, s1, _, s3⟩ := getStubEdgesFromParent_loop_spec f _ referenceEvent
    (stHash_search_endsToNodes_inj f) _ _ _ _ h (isStubPairing_nil f _ referenceEvent)
  refine ⟨seen, s1, fun e en hen hat hst => s3 e ?_ en hen hat hst⟩
  exact List.mem_range.mpr (List.getElem?_eq_some_iff.mp hen).1

theorem getStubEdgesFromParent_loop_consumed (f : Flower) (endsToNodes : stHash)
    (referenceEvent : Event) (e adjacentEnd : Nat) (en : End) (rest endsSeen : List Nat)
    (stubEdges : List stIntTuple) (hen : f.ends[e]? = some en) (hat : en.isAttached = true)
    (hst : en.isBlockEnd = false) (hns : e ∉ endsSeen)
    (hadj : getAdjacentEndFromParent f e referenceEvent = some adjacentEnd)
    (hbad : adjacentEnd ∈ endsSeen ∨ adjacentEnd = e) :
    getStubEdgesFromParent_loop f endsToNodes referenceEvent (e :: rest) endsSeen stubEdges =
      none := by
  unfold getStubEdgesFromParent_loop
  have hc : (en.isAttached && !en.isBlockEnd && !endsSeen.contains e) = true := by
    simp only [Bool.and_eq_true, Bool.not_eq_true', List.contains_eq_any_beq,
      List.any_eq_false, beq_iff_eq]
    exact ⟨⟨hat, hst⟩, fun x hx hxe => hns (hxe ▸ hx)⟩
  have hk : ¬ (end_groupIsTangle f e = some true ∧
      end_groupIsTangle f adjacentEnd = some true ∧ ¬ adjacentEnd ∈ endsSeen ∧
      adjacentEnd ≠ e) := by
    rintro ⟨_, _, h3, h4⟩
    rcases hbad with hb | hb
    · exact h3 hb
    · exact h4 hb
  simp only [hen, hc, if_true, hadj, if_neg hk]

theorem getStubEdgesFromParent_partner (f : Flower) (referenceEvent : Event)
    (stubEdges : List stIntTuple) (e : Nat) (en : End)
    (h : getStubEdgesFromParent f (getMapOfTangleEndsToNodes f) referenceEvent =
      some stubEdges)
    (hen : f.ends[e]? = some en) (hat : en.isAttached = true) (hst : en.isBlockEnd = false) :
    ∃ p node nodeP : Nat, p ≠ e ∧
      (getAdjacentEndFromParent f e referenceEvent = some p ∨
        getAdjacentEndFromParent f p referenceEvent = some e) ∧
      stHash_search (getMapOfTangleEndsToNodes f) e = some node ∧
      stHash_search (getMapOfTangleEndsToNodes f) p = some nodeP ∧
      getEdge2 node nodeP ∈ stubEdges := by
  obtain ⟨seen, ⟨_, _, i3, i4⟩, hall⟩ := getStubEdgesFromParent_spec f referenceEvent stubEdges h
  obtain ⟨p, edge, q1, q2, q3⟩ := i3 e (hall e en hen hat hst)
  obtain ⟨node, nodeP, r1, r2, rfl⟩ := (getEdge_eq_some _ _ _ _).mp q2
  refine ⟨p, node, nodeP, ?_, q1, r1, r2, q3⟩
  rintro rfl
  rw [r1] at r2
  have hv := Option.some.inj r2
  subst hv
  obtain ⟨a, b, hab, hlt⟩ := i4 _ q3
  unfold getEdge2 at hab
  simp only [Nat.lt_irrefl, if_false, List.cons.injEq, and_true] at hab
  omega

/-- C16: when `getStubEdgesFromParent` succeeds on a flower, every attached stub end of
the flower has a node id that is in exactly one of the returned stub edges; no node id is
in two stub edges, and no node id occurs twice in them; every stub edge is a pair
`[a, b]` with `a < b`, so none joins an end to itself; and every attached stub end `e` is
paired with another end `p`, where `p` is the end adjacent to `e` or `e` is the end
adjacent to `p`. In the loop, at an attached stub end that was not consumed yet, the
operation fails if the adjacent end was consumed by an earlier pair or is the stub end
itself. -/
theorem getStubEdgesFromParent_pairs_each_stub_once (f : Flower) (referenceEvent : Event)
    (stubEdges : List stIntTuple)
    (h : getStubEdgesFromParent f (getMapOfTangleEndsToNodes f) referenceEvent =
      some stubEdges) :
    (∀ (e : Nat) (en : End), f.ends[e]? = some en → en.isAttached = true →
      en.isBlockEnd = false →
      ∃ node : Nat, stHash_search (getMapOfTangleEndsToNodes f) e = some node ∧
        stubEdges.countP (fun edge => decide (node ∈ edge)) = 1) ∧
    (∀ node : Nat, stubEdges.countP (fun edge => decide (node ∈ edge)) ≤ 1) ∧
    stubEdges.flatten.Nodup ∧
    (∀ edge ∈ stubEdges, ∃ a b : Nat, edge = [a, b] ∧ a < b) ∧
    (∀ (e : Nat) (en : End), f.ends[e]? = some en → en.isAttached = true →
      en.isBlockEnd = false →
      ∃ p node nodeP : Nat, p ≠ e ∧
        (getAdjacentEndFromParent f e referenceEvent = some p ∨
          getAdjacentEndFromParent f p referenceEvent = some e) ∧
        stHash_search (getMapOfTangleEndsToNodes f) e = some node ∧
        stHash_search (getMapOfTangleEndsToNodes f) p = some nodeP ∧
        getEdge2 node nodeP ∈ stubEdges) ∧
    (∀ (e adjacentEnd : Nat) (en : End) (rest endsSeen : List Nat) (edges : List stIntTuple),
      f.ends[e]? = some en → en.isAttached = true → en.isBlockEnd = false → e ∉ endsSeen →
      getAdjacentEndFromParent f e referenceEvent = some adjacentEnd →
      adjacentEnd ∈ endsSeen ∨ adjacentEnd = e →
      getStubEdgesFromParent_loop f (getMapOfTangleEndsToNodes f) referenceEvent (e :: rest)
        endsSeen edges = none) := by
  obtain ⟨seen, ⟨i1, i2, i3, i4⟩, hall⟩ := getStubEdgesFromParent_spec f referenceEvent stubEdges h
  have hnd : stubEdges.flatten.Nodup :=
    i2.nodup_iff.mpr (List.Nodup.filterMap
      (fun a a' b ha ha' => stHash_search_endsToNodes_inj f a a' b ha ha') i1)
  refine ⟨fun e en hen hat hst => ?_, fun node => ?_, hnd, i4,
    fun e en hen hat hst => getStubEdgesFromParent_partner f referenceEvent stubEdges e en h
      hen hat hst,
    fun e adjacentEnd en rest endsSeen edges hen hat hst hns hadj hbad =>
      getStubEdgesFromParent_loop_consumed f _ referenceEvent e adjacentEnd en rest endsSeen
        edges hen hat hst hns hadj hbad⟩
  · have hs := hall e en hen hat hst
    obtain ⟨p, edge, _, q2, _⟩ := i3 e hs
    obtain ⟨node, _, r1, _, _⟩ := (getEdge_eq_some _ _ _ _).mp q2
    refine ⟨node, r1, countP_mem_flatten_eq_one _ _ hnd ?_⟩
    exact i2.mem_iff.mpr (List.mem_filterMap.mpr ⟨e, hs, r1⟩)
  · by_cases hm : node ∈ stubEdges.flatten
    · exact le_of_eq (countP_mem_flatten_eq_one _ _ hnd hm)
    · have h0 : stubEdges.countP (fun edge => decide (node ∈ edge)) = 0 := by
        rw [List.countP_eq_zero]
        intro edge he hn
        exact hm (List.mem_flatten.mpr ⟨edge, he, of_decide_eq_true hn⟩)
      omega

/-- Witness of C16: in scenario B the operation returns the stub edges `[0, 2]` and
`[1, 3]`. -/
theorem getStubEdgesFromParent_pairs_each_stub_once_witness :
    getStubEdgesFromParent scenarioB (getMapOfTangleEndsToNodes scenarioB) exampleEvent =
      some [[0, 2], [1, 3]] ∧
    [[0, 2], [1, 3]].flatten.Nodup ∧
    ∃ node : Nat, stHash_search (getMapOfTangleEndsToNodes scenarioB) 3 = some node ∧
      [[0, 2], [1, 3]].countP (fun edge => decide (node ∈ edge)) = 1 :=
  ⟨by decide,
    (getStubEdgesFromParent_pairs_each_stub_once scenarioB exampleEvent [[0, 2], [1, 3]]
      (by decide)).2.2.1,
    (getStubEdgesFromParent_pairs_each_stub_once scenarioB exampleEvent [[0, 2], [1, 3]]
      (by decide)).1 3 (attachedStub 4 false 0) (by decide) rfl rfl⟩

theorem getAdjacentEndFromParent_congr (f k : Flower) (e : Nat) (referenceEvent : Event)
    (h1 : k.ends = f.ends) (h2 : k.caps = f.caps) (h4 : k.parent = f.parent) :
    getAdjacentEndFromParent k e referenceEvent = getAdjacentEndFromParent f e referenceEvent := by
  unfold getAdjacentEndFromParent getCapWithEvent end_getInstanceIterator cap_getAdjacency
    cap_getEnd flower_getEnd flower_getEndIterator
  rw [h1, h2, h4]

theorem end_groupIsTangle_congr (f k : Flower) (e : Nat)
    (h1 : k.ends = f.ends) (h3 : k.groups = f.groups) :
    end_groupIsTangle k e = end_groupIsTangle f e := by
  unfold end_groupIsTangle end_getGroup
  rw [h1, h3]

theorem getMapOfTangleEndsToNodes_congr (f k : Flower)
    (h1 : k.ends = f.ends) (h3 : k.groups = f.groups) :
    getMapOfTangleEndsToNodes k = getMapOfTangleEndsToNodes f := by
  rw [getMapOfTangleEndsToNodes_eq, getMapOfTangleEndsToNodes_eq]
  have : iterateOverTangleEnds k = iterateOverTangleEnds f := by
    unfold iterateOverTangleEnds flower_getGroupIterator group_getEndIterator end_getGroup
    rw [h1, h3]
  rw [this]

theorem getStubEdgesFromParent_loop_congr (f k : Flower) (endsToNodes : stHash)
    (referenceEvent : Event) (h1 : k.ends = f.ends) (h2 : k.caps = f.caps)
    (h3 : k.groups = f.groups) (h4 : k.parent = f.parent) (rest : List Nat) :
    ∀ (endsSeen : List Nat) (stubEdges : List stIntTuple),
      getStubEdgesFromParent_loop k endsToNodes referenceEvent rest endsSeen stubEdges =
        getStubEdgesFromParent_loop f endsToNodes referenceEvent rest endsSeen stubEdges := by
  induction rest with
  | nil => intro endsSeen stubEdges; rfl
  | cons e rest ih =>
    intro endsSeen stubEdges
    unfold getStubEdgesFromParent_loop
    simp only [getAdjacentEndFromParent_congr f k _ referenceEvent h1 h2 h4,
      end_groupIsTangle_congr f k _ h1 h3, ih, h1]

theorem getStubEdgesFromParent_congr (f k : Flower) (referenceEvent : Event)
    (h1 : k.ends = f.ends) (h2 : k.caps = f.caps) (h3 : k.groups = f.groups)
    (h4 : k.parent = f.parent) :
    getStubEdgesFromParent k (getMapOfTangleEndsToNodes k) referenceEvent =
      getStubEdgesFromParent f (getMapOfTangleEndsToNodes f) referenceEvent := by
  unfold getStubEdgesFromParent flower_getEndIterator
  rw [getMapOfTangleEndsToNodes_congr f k h1 h3, h1]
  exact getStubEdgesFromParent_loop_congr f k _ referenceEvent h1 h2 h3 h4 _ _ _

theorem getAdjacentEndFromParent_lt (f : Flower) (e x : Nat) (referenceEvent : Event)
    (h : getAdjacentEndFromParent f e referenceEvent = some x) : e < f.ends.length := by
  unfold getAdjacentEndFromParent at h
  cases hen : f.ends[e]? with
  | none =>
    rw [hen] at h
    split at h <;> simp_all
  | some en => exact (List.getElem?_eq_some_iff.mp hen).1

/-- C17: when `getStubEdgesFromParent` succeeds on a flower in which the cap for the
reference event of the attached stub end `X` has an adjacency whose end projects by name
to the end `Y` of the flower (`getAdjacentEndFromParent` reads `Y` at `X`), and the
adjacency is symmetric at `X` (an end whose adjacency reads `X` is read at `X`), the
returned stub edges contain the edge of the node ids of `X` and `Y`, and so does every
chosen set that includes all stub edges. The stub edges are read from the ends, the caps,
the groups and the parent group of the flower only: a flower that differs in its chains
and blocks gives the same stub edges. -/
theorem getStubEdgesFromParent_reads_parent_adjacency (f : Flower) (referenceEvent : Event)
    (stubEdges : List stIntTuple) (X Y : Nat) (xen : End)
    (h : getStubEdgesFromParent f (getMapOfTangleEndsToNodes f) referenceEvent =
      some stubEdges)
    (hX : f.ends[X]? = some xen) (hat : xen.isAttached = true) (hst : xen.isBlockEnd = false)
    (hadj : getAdjacentEndFromParent f X referenceEvent = some Y)
    (hsym : ∀ p, getAdjacentEndFromParent f p referenceEvent = some X →
      getAdjacentEndFromParent f X referenceEvent = some p) :
    (∃ nodeX nodeY : Nat, stHash_search (getMapOfTangleEndsToNodes f) X = some nodeX ∧
      stHash_search (getMapOfTangleEndsToNodes f) Y = some nodeY ∧
      getEdge2 nodeX nodeY ∈ stubEdges ∧
      ∀ chosen : List stIntTuple, (∀ edge ∈ stubEdges, edge ∈ chosen) →
        getEdge2 nodeX nodeY ∈ chosen) ∧
    ∀ k : Flower, k.ends = f.ends → k.caps = f.caps → k.groups = f.groups →
      k.parent = f.parent →
      getStubEdgesFromParent k (getMapOfTangleEndsToNodes k) referenceEvent = some stubEdges := by
  refine ⟨?_, fun k h1 h2 h3 h4 => by
    rw [getStubEdgesFromParent_congr f k referenceEvent h1 h2 h3 h4]; exact h⟩
  obtain ⟨p, node, nodeP, _, q1, r1, r2, q3⟩ :=
    getStubEdgesFromParent_partner f referenceEvent stubEdges X xen h hX hat hst
  have hp : p = Y := by
    rcases q1 with q1 | q1
    · rw [hadj] at q1; exact (Option.some.inj q1).symm
    · have := hsym p q1
      rw [hadj] at this; exact (Option.some.inj this).symm
  subst hp
  exact ⟨node, nodeP, r1, r2, q3, fun chosen hc => hc _ q3⟩

/-- Witness of C17: in scenario B the cap of end 0 is adjacent to the cap of end 2, and
the stub edges contain the edge `[0, 2]`. -/
theorem getStubEdgesFromParent_reads_parent_adjacency_witness :
    getAdjacentEndFromParent scenarioB 0 exampleEvent = some 2 ∧
    ∃ nodeX nodeY : Nat, stHash_search (getMapOfTangleEndsToNodes scenarioB) 0 = some nodeX ∧
      stHash_search (getMapOfTangleEndsToNodes scenarioB) 2 = some nodeY ∧
      getEdge2 nodeX nodeY ∈ [[0, 2], [1, 3]] ∧
      ∀ chosen : List stIntTuple, (∀ edge ∈ [[0, 2], [1, 3]], edge ∈ chosen) →
        getEdge2 nodeX nodeY ∈ chosen :=
  ⟨by decide,
    (getStubEdgesFromParent_reads_parent_adjacency scenarioB exampleEvent [[0, 2], [1, 3]] 0 2
      (attachedStub 1 true 0) (by decide) (by decide) rfl rfl (by decide)
      (fun p hp => by
        have hlt : p < 4 := getAdjacentEndFromParent_lt scenarioB p 0 exampleEvent hp
        interval_cases p
        · exact absurd hp (by decide)
        · exact absurd hp (by decide)
        · decide
        · exact absurd hp (by decide))).1⟩

/-! ### `getAdjacencyEdges` -/

theorem getAdjacencyEdges_merge_empties (rounds : Nat) :
    ∀ st st' : MergeState, st.adjacencyEdges.length ≤ rounds →
      getAdjacencyEdges_merge rounds st = some st' → st'.adjacencyEdges = [] := by
  induction rounds with
  | zero =>
    intro st st' hlen h
    simp only [getAdjacencyEdges_merge, Option.some.injEq] at h
    subst h
    exact List.length_eq_zero.mp (Nat.le_zero.mp hlen)
  | succ rounds ih =>
    intro st st' hlen h
    unfold getAdjacencyEdges_merge at h
    have hdrop : st.adjacencyEdges.dropLast.length ≤ rounds := by
      rw [List.length_dropLast]; omega
    cases hl : st.adjacencyEdges.getLast? with
    | none =>
      simp only [hl, Option.some.injEq] at h
      subst h
      exact List.getLast?_eq_none_iff.mp hl
    | some edge2 =>
      simp only [hl] at h
      cases he : st.edge with
      | none =>
        simp only [he] at h
        exact ih _ _ hdrop h
      | some edge =>
        simp only [he] at h
        split at h
        · exact ih _ _ hdrop h
        · cases hw : weightedEdge edge st.weight with
          | none => simp [hw] at h
          | some w =>
            simp only [hw] at h
            exact ih _ _ hdrop h

theorem getAdjacencyEdges_eq_nil (f : Flower) (endsToNodes : stHash)
    (adjacencyEdges : List stIntTuple)
    (h : getAdjacencyEdges f endsToNodes = some adjacencyEdges) : adjacencyEdges = [] := by
  unfold getAdjacencyEdges at h
  obtain ⟨st, hst, rfl⟩ := Option.map_eq_some'.mp h
  unfold getAdjacencyEdges_locals at hst
  cases hraw : getAdjacencyEdges_raw f endsToNodes (iterateOverTangleEnds f) [] with
  | none => simp [hraw] at hst
  | some raw =>
    simp only [hraw] at hst
    cases hm : getAdjacencyEdges_merge (stList_sort raw).length
        { adjacencyEdges := stList_sort raw, weightedAdjacencyEdges := [], weight := 0,
          edge := none } with
    | none => simp [hm] at hst
    | some st1 =>
      simp only [hm] at hst
      have h1 : st1.adjacencyEdges = [] :=
        getAdjacencyEdges_merge_empties (stList_sort raw).length _ st1 (Nat.le_refl _) hm
      cases he : st1.edge with
      | none =>
        simp only [he, Option.some.injEq] at hst
        subst hst
        exact h1
      | some edge =>
        simp only [he] at hst
        cases hw : weightedEdge edge st1.weight with
        | none => simp [hw] at hst
        | some w =>
          simp only [hw, Option.some.injEq] at hst
          subst hst
          exact h1

theorem buildReferenceTopDown_core_no_adjacency_edges (chooseMatching : MatchingStrategy)
    (referenceEvent : Event) (newEnds : List Nat) (f : Flower) :
    buildReferenceTopDown_core chooseMatching referenceEvent newEnds f =
      buildReferenceTopDown_core
        (fun nodeNumber _ stubEdges chainEdges isRoot =>
          chooseMatching nodeNumber [] stubEdges chainEdges isRoot)
        referenceEvent newEnds f := by
  cases h : getAdjacencyEdges f (getMapOfTangleEndsToNodes f) with
  | none => simp only [buildReferenceTopDown_core, h]
  | some adjacencyEdges =>
    have := getAdjacencyEdges_eq_nil f _ adjacencyEdges h
    subst this
    simp only [buildReferenceTopDown_core, h]

/-- C26: when `getAdjacencyEdges` succeeds it returns the empty list: its merge loop pops
every edge from the raw list, which is the list it returns, whatever weighted edges it
has built from them. So `buildReferenceTopDown` gives the matching strategy no adjacency
edge: it runs as it would with a strategy that is handed the empty list. -/
theorem getAdjacencyEdges_returns_empty (f : Flower) (endsToNodes : stHash)
    (h : (getAdjacencyEdges f endsToNodes).isSome = true) :
    getAdjacencyEdges f endsToNodes = some [] ∧
    (∀ st, getAdjacencyEdges_locals f endsToNodes = some st → st.adjacencyEdges = []) ∧
    ∀ (chooseMatching : MatchingStrategy) (referenceEvent : Event) (newEnds : List Nat),
      buildReferenceTopDown_core chooseMatching referenceEvent newEnds f =
        buildReferenceTopDown_core
          (fun nodeNumber _ stubEdges chainEdges isRoot =>
            chooseMatching nodeNumber [] stubEdges chainEdges isRoot)
          referenceEvent newEnds f := by
  obtain ⟨adjacencyEdges, he⟩ := Option.isSome_iff_exists.mp h
  have hnil := getAdjacencyEdges_eq_nil f endsToNodes adjacencyEdges he
  subst hnil
  refine ⟨he, fun st hst => ?_, fun chooseMatching referenceEvent newEnds =>
    buildReferenceTopDown_core_no_adjacency_edges chooseMatching referenceEvent newEnds f⟩
  exact getAdjacencyEdges_eq_nil f endsToNodes st.adjacencyEdges
    (by unfold getAdjacencyEdges; rw [hst]; rfl)

/-- Witness of C26: in scenario E the three raw votes for the pair `(2, 5)` are merged
into the weighted edge `(2, 5, 3)`, and the list returned is empty. -/
theorem getAdjacencyEdges_returns_empty_witness :
    getAdjacencyEdges scenarioE (getMapOfTangleEndsToNodes scenarioE) = some [] ∧
    (getAdjacencyEdges_locals scenarioE (getMapOfTangleEndsToNodes scenarioE)).map
      (fun st => st.weightedAdjacencyEdges) = some [[2, 5, 3]] :=
  ⟨(getAdjacencyEdges_returns_empty scenarioE (getMapOfTangleEndsToNodes scenarioE)
      (by decide)).1, by decide⟩

/-! ### When `getArbitraryStubEdges` fails -/

theorem getArbitraryStubEdges_filter_isSome (chainEdges : List stIntTuple)
    (hpairs : ∀ c ∈ chainEdges, 2 ≤ c.length) (s : List Nat) :
    ∃ r, getArbitraryStubEdges_filter chainEdges s = some r := by
  induction chainEdges generalizing s with
  | nil => exact ⟨s, rfl⟩
  | cons c rest ih =>
    have hc := hpairs c (List.mem_cons_self _ _)
    match c, hc with
    | a :: b :: tl, _ =>
      unfold getArbitraryStubEdges_filter
      simp only [stIntTuple_getPosition, List.getElem?_cons_zero, List.getElem?_cons_succ]
      exact ih (fun c' hc' => hpairs c' (List.mem_cons_of_mem _ hc')) _

theorem getArbitraryStubEdges_filter_length (endsToNodes : stHash)
    (chainEdges : List stIntTuple) (r : List Nat)
    (h : getArbitraryStubEdges_filter chainEdges
      (stList_getSortedSet (stHash_getValues endsToNodes)) = some r) :
    r.length = untouchedNodeNumber endsToNodes chainEdges := by
  obtain ⟨s1, s2⟩ := stList_getSortedSet_spec (stHash_getValues endsToNodes)
  obtain ⟨r1, r2⟩ := getArbitraryStubEdges_filter_spec chainEdges _ r s1 h
  have hn : r.Nodup := r1.imp (fun h => Nat.ne_of_lt h)
  unfold untouchedNodeNumber
  refine List.Perm.length_eq ((List.perm_ext_iff_of_nodup hn
    ((List.nodup_dedup _).filter _)).mpr (fun v => ?_))
  rw [r2, s2, List.mem_filter, List.mem_dedup, decide_eq_true_eq]

/-- C23, as the code has it: on chain edges that have their two positions,
`getArbitraryStubEdges` fails if and only if the number of node ids that no chain edge
touches is odd or zero. -/
theorem getArbitraryStubEdges_fails_iff_odd_or_zero (endsToNodes : stHash)
    (chainEdges : List stIntTuple) (hpairs : ∀ c ∈ chainEdges, 2 ≤ c.length) :
    getArbitraryStubEdges endsToNodes chainEdges = none ↔
      (untouchedNodeNumber endsToNodes chainEdges % 2 = 1 ∨
        untouchedNodeNumber endsToNodes chainEdges = 0) := by
  obtain ⟨r, hr⟩ := getArbitraryStubEdges_filter_isSome chainEdges hpairs
    (stList_getSortedSet (stHash_getValues endsToNodes))
  have hlen := getArbitraryStubEdges_filter_length endsToNodes chainEdges r hr
  unfold getArbitraryStubEdges
  simp only [hr, hlen]
  split
  · rename_i hc
    constructor
    · intro h; exact Option.noConfusion h
    · intro h; omega
  · rename_i hc
    constructor
    · intro _; omega
    · intro _; rfl

/-- Witness of C23: with four node ids and the chain edge `[0, 1]` two node ids are
untouched and the operation succeeds; with the chain edge `[0, 1]` and three node ids
one is untouched and it fails. -/
theorem getArbitraryStubEdges_fails_iff_odd_or_zero_witness :
    untouchedNodeNumber [(0, 0), (1, 1), (2, 2), (3, 3)] [[0, 1]] = 2 ∧
    getArbitraryStubEdges [(0, 0), (1, 1), (2, 2), (3, 3)] [[0, 1]] ≠ none ∧
    untouchedNodeNumber [(0, 0), (1, 1), (2, 2)] [[0, 1]] = 1 ∧
    getArbitraryStubEdges [(0, 0), (1, 1), (2, 2)] [[0, 1]] = none :=
  ⟨by decide,
    fun h => absurd ((getArbitraryStubEdges_fails_iff_odd_or_zero
      [(0, 0), (1, 1), (2, 2), (3, 3)] [[0, 1]] (by decide)).mp h) (by decide),
    by decide,
    (getArbitraryStubEdges_fails_iff_odd_or_zero [(0, 0), (1, 1), (2, 2)] [[0, 1]]
      (by decide)).mpr (Or.inl (by decide))⟩

/-- C23 does not hold as stated: with two node ids and the chain edge `[0, 1]` the number
of node ids that no chain edge touches is zero, an even number, and
`getArbitraryStubEdges` fails. -/
theorem getArbitraryStubEdges_fails_with_none_untouched :
    untouchedNodeNumber [(0, 0), (1, 1)] [[0, 1]] = 0 ∧
    untouchedNodeNumber [(0, 0), (1, 1)] [[0, 1]] % 2 ≠ 1 ∧
    getArbitraryStubEdges [(0, 0), (1, 1)] [[0, 1]] = none := by
  decide

/-! ### `getNonTrivialChainEdges` -/

theorem getNonTrivialChainEdges_loop_ok (f : Flower) (chains : List Chain)
    (chainEdges : List stIntTuple) (hr : ∀ chain ∈ chains, chainIsReadable f chain)
    (ht : ∀ chain ∈ chains, chainIsBounded f chain = true → chainHasTangleOutwardEnds f chain) :
    ∃ added : List stIntTuple,
      getNonTrivialChainEdges_loop f (getMapOfTangleEndsToNodes f) chains chainEdges =
        some (chainEdges ++ added) ∧
      (chains.filter (chainIsBounded f)).map
        (fun chain => (chainOutwardEnds f chain).bind
          (fun p => getEdge p.1 p.2 (getMapOfTangleEndsToNodes f))) = added.map some := by
  induction chains generalizing chainEdges with
  | nil => exact ⟨[], by simp [getNonTrivialChainEdges_loop], rfl⟩
  | cons chain rest ih =>
    have hr' : ∀ c ∈ rest, chainIsReadable f c := fun c hc => hr c (List.mem_cons_of_mem _ hc)
    have ht' : ∀ c ∈ rest, chainIsBounded f c = true → chainHasTangleOutwardEnds f c :=
      fun c hc => ht c (List.mem_cons_of_mem _ hc)
    obtain ⟨first, last, h1, h2, h3, h4⟩ := hr chain (List.mem_cons_self _ _)
    obtain ⟨b5, hb5⟩ := Option.isSome_iff_exists.mp h3
    obtain ⟨b3, hb3⟩ := Option.isSome_iff_exists.mp h4
    by_cases hb : chainIsBounded f chain = true
    · obtain ⟨end1, end2, ho, t1, t2⟩ := ht chain (List.mem_cons_self _ _) hb
      obtain ⟨node1, node2, _, _, he⟩ := getEdge_of_tangle f end1 end2 t1 t2
      obtain ⟨added, a1, a2⟩ := ih (chainEdges ++ [getEdge2 node1 node2]) hr' ht'
      have hb' := hb
      unfold chainIsBounded at hb'
      simp only [h1, h2, hb5, hb3, Bool.and_eq_true, beq_iff_eq, Option.some.injEq] at hb'
      have ho' := ho
      unfold chainOutwardEnds at ho'
      simp only [h1, h2] at ho'
      cases ho1 : end_getOtherBlockEnd f first.end5 with
      | none => simp [ho1] at ho'
      | some e1 =>
        cases ho2 : end_getOtherBlockEnd f last.end3 with
        | none => simp [ho1, ho2] at ho'
        | some e2 =>
          simp only [ho1, ho2, Option.some.injEq, Prod.mk.injEq] at ho'
          refine ⟨getEdge2 node1 node2 :: added, ?_, ?_⟩
          · unfold getNonTrivialChainEdges_loop
            simp only [h1, h2, hb5, hb3, hb'.1, hb'.2, Bool.and_self, if_true, ho1, ho2,
              ho'.1, ho'.2, he]
            rw [a1, List.append_assoc, List.singleton_append]
          · rw [List.filter_cons_of_pos hb, List.map_cons, ho, Option.some_bind, he, a2,
              List.map_cons]
    · obtain ⟨added, a1, a2⟩ := ih chainEdges hr' ht'
      have hb' := hb
      unfold chainIsBounded at hb'
      simp only [h1, h2, hb5, hb3, Bool.and_eq_true, beq_iff_eq, Option.some.injEq] at hb'
      refine ⟨added, ?_, ?_⟩
      · unfold getNonTrivialChainEdges_loop
        have hbb : (b5 && b3) = false := by
          cases b5 <;> cases b3 <;> simp_all
        simp only [h1, h2, hb5, hb3, hbb, Bool.false_eq_true, if_false]
        exact a1
      · rw [List.filter_cons_of_neg hb]
        exact a2

theorem getNonTrivialChainEdges_loop_none (f : Flower) (chains : List Chain)
    (chainEdges : List stIntTuple)
    (h : ∃ chain ∈ chains, chainIsBounded f chain = true ∧ ¬ chainHasTangleOutwardEnds f chain) :
    getNonTrivialChainEdges_loop f (getMapOfTangleEndsToNodes f) chains chainEdges = none := by
  induction chains generalizing chainEdges with
  | nil =>
    obtain ⟨_, hc, _⟩ := h
    exact absurd hc (List.not_mem_nil _)
  | cons chain rest ih =>
    cases hres : getNonTrivialChainEdges_loop f (getMapOfTangleEndsToNodes f) (chain :: rest)
        chainEdges with
    | none => rfl
    | some result =>
      exfalso
      unfold getNonTrivialChainEdges_loop at hres
      cases h1 : chain.links.head? with
      | none => simp [h1] at hres
      | some first =>
        cases h2 : chain.links.getLast? with
        | none => simp [h1, h2] at hres
        | some last =>
          simp only [h1, h2] at hres
          cases hb5 : end_isBlockEnd f first.end5 with
          | none => simp [hb5] at hres
          | some b5 =>
            cases hb3 : end_isBlockEnd f last.end3 with
            | none => simp [hb5, hb3] at hres
            | some b3 =>
              simp only [hb5, hb3] at hres
              by_cases hbb : (b5 && b3) = true
              · rw [if_pos hbb] at hres
                cases ho1 : end_getOtherBlockEnd f first.end5 with
                | none => simp [ho1] at hres
                | some e1 =>
                  cases ho2 : end_getOtherBlockEnd f last.end3 with
                  | none => simp [ho1, ho2] at hres
                  | some e2 =>
                    simp only [ho1, ho2] at hres
                    cases he : getEdge e1 e2 (getMapOfTangleEndsToNodes f) with
                    | none => simp [he] at hres
                    | some edge =>
                      simp only [he] at hres
                      obtain ⟨c, hc, hcb, hct⟩ := h
                      rcases List.mem_cons.mp hc with rfl | hc
                      · apply hct
                        obtain ⟨n1, n2, s1, s2, _⟩ := (getEdge_eq_some _ _ _ _).mp he
                        have t1 : end_groupIsTangle f e1 = some true := by
                          by_contra hne
                          rw [(stHash_search_endsToNodes_none f e1).mpr hne] at s1
                          exact Option.noConfusion s1
                        have t2 : end_groupIsTangle f e2 = some true := by
                          by_contra hne
                          rw [(stHash_search_endsToNodes_none f e2).mpr hne] at s2
                          exact Option.noConfusion s2
                        refine ⟨e1, e2, ?_, t1, t2⟩
                        unfold chainOutwardEnds
                        simp only [h1, h2, ho1, ho2]
                      · rw [ih _ ⟨c, hc, hcb, hct⟩] at hres
                        exact Option.noConfusion hres
              · rw [if_neg hbb] at hres
                obtain ⟨c, hc, hcb, hct⟩ := h
                rcases List.mem_cons.mp hc with rfl | hc
                · unfold chainIsBounded at hcb
                  simp only [h1, h2, hb5, hb3, Bool.and_eq_true, beq_iff_eq,
                    Option.some.injEq] at hcb
                  apply hbb
                  rw [hcb.1, hcb.2]
                  rfl
                · rw [ih _ ⟨c, hc, hcb, hct⟩] at hres
                  exact Option.noConfusion hres

/-- C21: on a flower whose chains can be read (each has a link, and the 5' end of its
first link and the 3' end of its last link are ends of the flower),
`getNonTrivialChainEdges` appends, in the order of the chains, exactly one edge for each
chain that is bounded by block ends, the edge of the node ids of the two outward-facing
ends of the chain, and nothing for the other chains, when the outward-facing ends of
every bounded chain are tangle ends; and it fails when a bounded chain has an
outward-facing end that is not a tangle end. -/
theorem getNonTrivialChainEdges_bounded_chains (f : Flower) (chainEdges : List stIntTuple)
    (hr : ∀ chain ∈ f.chains, chainIsReadable f chain) :
    ((∀ chain ∈ f.chains, chainIsBounded f chain = true → chainHasTangleOutwardEnds f chain) →
      ∃ added : List stIntTuple,
        getNonTrivialChainEdges f (getMapOfTangleEndsToNodes f) chainEdges =
          some (chainEdges ++ added) ∧
        (f.chains.filter (chainIsBounded f)).map
          (fun chain => (chainOutwardEnds f chain).bind
            (fun p => getEdge p.1 p.2 (getMapOfTangleEndsToNodes f))) = added.map some) ∧
    ((∃ chain ∈ f.chains, chainIsBounded f chain = true ∧ ¬ chainHasTangleOutwardEnds f chain) →
      getNonTrivialChainEdges f (getMapOfTangleEndsToNodes f) chainEdges = none) :=
  ⟨getNonTrivialChainEdges_loop_ok f f.chains chainEdges hr,
    getNonTrivialChainEdges_loop_none f f.chains chainEdges⟩

/-- Witness of C21: the chain of `boundedChainFlower` is bounded by two blocks whose
outward-facing ends have the node ids 0 and 1, and the edge `[0, 1]` is appended; the
chain of `linkFlower` starts at a stub end, and nothing is appended; in
`inwardChainFlower` an outward-facing end is in a link group, and the operation fails. -/
theorem getNonTrivialChainEdges_bounded_chains_witness :
    getNonTrivialChainEdges boundedChainFlower (getMapOfTangleEndsToNodes boundedChainFlower)
      [] = some [[0, 1]] ∧
    getNonTrivialChainEdges linkFlower (getMapOfTangleEndsToNodes linkFlower) [] = some [] ∧
    getNonTrivialChainEdges inwardChainFlower (getMapOfTangleEndsToNodes inwardChainFlower)
      [] = none :=
  ⟨by decide, by decide,
    (getNonTrivialChainEdges_bounded_chains inwardChainFlower []
      (fun chain hc => by
        rw [List.mem_singleton.mp hc]
        exact ⟨{ end5 := 1, end3 := 2 }, { end5 := 1, end3 := 2 }, rfl, rfl, rfl, rfl⟩)).2
      ⟨{ links := [{ end5 := 1, end3 := 2 }] }, List.mem_singleton_self _, by decide,
        by
          rintro ⟨end1, end2, h1, _, h2⟩
          have h3 : chainOutwardEnds inwardChainFlower { links := [{ end5 := 1, end3 := 2 }] } =
              some (0, 3) := by decide
          rw [h3] at h1
          simp only [Option.some.injEq, Prod.mk.injEq] at h1
          rw [← h1.2] at h2
          exact absurd h2 (by decide)⟩⟩

/-! ### No edge joins a node id to itself -/

theorem getEdge_lt_of_ne (f : Flower) (end1 end2 : Nat) (edge : stIntTuple)
    (hne : end1 ≠ end2) (h : getEdge end1 end2 (getMapOfTangleEndsToNodes f) = some edge) :
    ∃ a b : Nat, edge = [a, b] ∧ a < b := by
  obtain ⟨node1, node2, h1, h2, rfl⟩ := (getEdge_eq_some _ _ _ _).mp h
  have hn : node1 ≠ node2 := by
    rintro rfl
    exact hne (stHash_search_endsToNodes_inj f _ _ _ h1 h2)
  exact (getEdge2_form node1 node2 hn).1

theorem getNonTrivialChainEdges_loop_mem (f : Flower) (endsToNodes : stHash)
    (chains : List Chain) :
    ∀ (chainEdges result : List stIntTuple),
      getNonTrivialChainEdges_loop f endsToNodes chains chainEdges = some result →
      ∀ edge ∈ result, edge ∈ chainEdges ∨ ∃ chain ∈ chains, ∃ end1 end2 : Nat,
        chainOutwardEnds f chain = some (end1, end2) ∧
        getEdge end1 end2 endsToNodes = some edge := by
  induction chains with
  | nil =>
    intro chainEdges result h edge he
    simp only [getNonTrivialChainEdges_loop, Option.some.injEq] at h
    subst h
    exact Or.inl he
  | cons chain rest ih =>
    intro chainEdges result h edge he
    have lift : (edge ∈ chainEdges ∨ ∃ c ∈ rest, ∃ end1 end2 : Nat,
        chainOutwardEnds f c = some (end1, end2) ∧ getEdge end1 end2 endsToNodes = some edge) →
        edge ∈ chainEdges ∨ ∃ c ∈ chain :: rest, ∃ end1 end2 : Nat,
        chainOutwardEnds f c = some (end1, end2) ∧ getEdge end1 end2 endsToNodes = some edge := by
      rintro (h1 | ⟨c, hc, h2⟩)
      · exact Or.inl h1
      · exact Or.inr ⟨c, List.mem_cons_of_mem _ hc, h2⟩
    unfold getNonTrivialChainEdges_loop at h
    cases h1 : chain.links.head? with
    | none => simp [h1] at h
    | some first =>
      cases h2 : chain.links.getLast? with
      | none => simp [h1, h2] at h
      | some last =>
        simp only [h1, h2] at h
        cases hb5 : end_isBlockEnd f first.end5 with
        | none => simp [hb5] at h
        | some b5 =>
          cases hb3 : end_isBlockEnd f last.end3 with
          | none => simp [hb5, hb3] at h
          | some b3 =>
            simp only [hb5, hb3] at h
            by_cases hbb : (b5 && b3) = true
            · rw [if_pos hbb] at h
              cases ho1 : end_getOtherBlockEnd f first.end5 with
              | none => simp [ho1] at h
              | some e1 =>
                cases ho2 : end_getOtherBlockEnd f last.end3 with
                | none => simp [ho1, ho2] at h
                | some e2 =>
                  simp only [ho1, ho2] at h
                  cases hg : getEdge e1 e2 endsToNodes with
                  | none => simp [hg] at h
                  | some new =>
                    simp only [hg] at h
                    rcases ih _ _ h edge he with hm | hm
                    · rcases List.mem_append.mp hm with hm | hm
                      · exact Or.inl hm
                      · rw [List.mem_singleton.mp hm]
                        refine Or.inr ⟨chain, List.mem_cons_self _ _, e1, e2, ?_, hg⟩
                        unfold chainOutwardEnds
                        simp only [h1, h2, ho1, ho2]
                    · exact lift (Or.inr hm)
            · rw [if_neg hbb] at h
              exact lift (ih _ _ h edge he)

theorem getTrivialChainEdges_loop_mem (f : Flower) (endsToNodes : stHash)
    (blocks : List Block) :
    ∀ (chainEdges result : List stIntTuple),
      getTrivialChainEdges_loop f endsToNodes blocks chainEdges = some result →
      ∀ edge ∈ result, edge ∈ chainEdges ∨ ∃ block ∈ blocks,
        getEdge block.end5 block.end3 endsToNodes = some edge := by
  induction blocks with
  | nil =>
    intro chainEdges result h edge he
    simp only [getTrivialChainEdges_loop, Option.some.injEq] at h
    subst h
    exact Or.inl he
  | cons block rest ih =>
    intro chainEdges result h edge he
    have lift : (edge ∈ chainEdges ∨ ∃ b ∈ rest,
        getEdge b.end5 b.end3 endsToNodes = some edge) →
        edge ∈ chainEdges ∨ ∃ b ∈ block :: rest,
        getEdge b.end5 b.end3 endsToNodes = some edge := by
      rintro (h1 | ⟨b, hb, h2⟩)
      · exact Or.inl h1
      · exact Or.inr ⟨b, List.mem_cons_of_mem _ hb, h2⟩
    unfold getTrivialChainEdges_loop at h
    cases h5 : end_groupIsTangle f block.end5 with
    | none => simp [h5] at h
    | some t =>
      cases t with
      | true =>
        simp only [h5] at h
        split at h
        · cases hg : getEdge block.end5 block.end3 endsToNodes with
          | none => simp [hg] at h
          | some new =>
            simp only [hg] at h
            rcases ih _ _ h edge he with hm | hm
            · rcases List.mem_append.mp hm with hm | hm
              · exact Or.inl hm
              · rw [List.mem_singleton.mp hm]
                exact Or.inr ⟨block, List.mem_cons_self _ _, hg⟩
            · exact lift (Or.inr hm)
        · exact Option.noConfusion h
      | false =>
        simp only [h5] at h
        split at h
        · exact lift (ih _ _ h edge he)
        · exact Option.noConfusion h

theorem getChainEdges_lt (f : Flower) (chainEdges : List stIntTuple)
    (hblocks : ∀ block ∈ f.blocks, block.end5 ≠ block.end3)
    (hchains : ∀ chain ∈ f.chains, ∀ end1 end2 : Nat,
      chainOutwardEnds f chain = some (end1, end2) → end1 ≠ end2)
    (h : getChainEdges f (getMapOfTangleEndsToNodes f) = some chainEdges) :
    ∀ edge ∈ chainEdges, ∃ a b : Nat, edge = [a, b] ∧ a < b := by
  unfold getChainEdges at h
  cases h1 : getNonTrivialChainEdges f (getMapOfTangleEndsToNodes f) [] with
  | none => simp [h1] at h
  | some nonTrivial =>
    simp only [h1] at h
    intro edge he
    rcases getTrivialChainEdges_loop_mem f _ f.blocks _ _ h edge he with hm | ⟨b, hb, hg⟩
    · rcases getNonTrivialChainEdges_loop_mem f _ f.chains _ _ h1 edge hm with
        hm | ⟨c, hc, e1, e2, ho, hg⟩
      · exact absurd hm (List.not_mem_nil _)
      · exact getEdge_lt_of_ne f e1 e2 edge (hchains c hc e1 e2 ho) hg
    · exact getEdge_lt_of_ne f _ _ edge (hblocks b hb) hg

/-- C22: in a flower whose blocks have two different ends and whose chains have two
different outward-facing ends, every edge of the edge lists built for the matching is a
pair `[a, b]` of node ids with `a < b`, so no edge joins a node id to itself: the chain
edges of `getChainEdges`, the stub edges of `getStubEdgesFromParent` and of
`getArbitraryStubEdges`, and the adjacency edges of `getAdjacencyEdges`, a list that is
always empty. -/
theorem edge_lists_have_no_self_pair (f : Flower) (referenceEvent : Event)
    (hblocks : ∀ block ∈ f.blocks, block.end5 ≠ block.end3)
    (hchains : ∀ chain ∈ f.chains, ∀ end1 end2 : Nat,
      chainOutwardEnds f chain = some (end1, end2) → end1 ≠ end2) :
    (∀ chainEdges, getChainEdges f (getMapOfTangleEndsToNodes f) = some chainEdges →
      ∀ edge ∈ chainEdges, ∃ a b : Nat, edge = [a, b] ∧ a < b) ∧
    (∀ stubEdges,
      getStubEdgesFromParent f (getMapOfTangleEndsToNodes f) referenceEvent = some stubEdges →
      ∀ edge ∈ stubEdges, ∃ a b : Nat, edge = [a, b] ∧ a < b) ∧
    (∀ chainEdges stubEdges,
      getArbitraryStubEdges (getMapOfTangleEndsToNodes f) chainEdges = some stubEdges →
      ∀ edge ∈ stubEdges, ∃ a b : Nat, edge = [a, b] ∧ a < b) ∧
    (∀ adjacencyEdges,
      getAdjacencyEdges f (getMapOfTangleEndsToNodes f) = some adjacencyEdges →
      ∀ edge ∈ adjacencyEdges, ∃ a b : Nat, edge = [a, b] ∧ a < b) := by
  refine ⟨fun chainEdges h => getChainEdges_lt f chainEdges hblocks hchains h,
    fun stubEdges h => ?_, fun chainEdges stubEdges h => ?_, fun adjacencyEdges h => ?_⟩
  · obtain ⟨_, ⟨_, _, _, i4⟩, _⟩ := getStubEdgesFromParent_spec f referenceEvent stubEdges h
    exact i4
  · exact (getArbitraryStubEdges_spec _ chainEdges stubEdges h).1
  · rw [getAdjacencyEdges_eq_nil f _ adjacencyEdges h]
    intro edge he
    exact absurd he (List.not_mem_nil _)

/-- Witness of C22: in scenario A the chain edge of the block is `[0, 1]` and the stub
edge is `[2, 3]`. -/
theorem edge_lists_have_no_self_pair_witness :
    getChainEdges scenarioA (getMapOfTangleEndsToNodes scenarioA) = some [[0, 1]] ∧
    getArbitraryStubEdges (getMapOfTangleEndsToNodes scenarioA) [[0, 1]] = some [[2, 3]] ∧
    (∃ a b : Nat, [0, 1] = [a, b] ∧ a < b) ∧ ∃ a b : Nat, [2, 3] = [a, b] ∧ a < b :=
  ⟨by decide, by decide,
    (edge_lists_have_no_self_pair scenarioA exampleEvent (by decide)
      (fun _ hc => absurd hc (List.not_mem_nil _))).1 [[0, 1]]
      (by decide) [0, 1] (List.mem_singleton_self _),
    (edge_lists_have_no_self_pair scenarioA exampleEvent (by decide)
      (fun _ hc => absurd hc (List.not_mem_nil _))).2.2.1
      [[0, 1]] [[2, 3]] (by decide) [2, 3] (List.mem_singleton_self _)⟩

/-! ### `assignGroups` -/

theorem end_setGroup_caps (f : Flower) (e : Nat) (g : Option Nat) :
    (end_setGroup f e g).caps = f.caps := by
  unfold end_setGroup
  cases f.ends[e]? <;> rfl

theorem end_setGroup_ends_ne (f : Flower) (e e' : Nat) (g : Option Nat) (h : e' ≠ e) :
    (end_setGroup f e g).ends[e']? = f.ends[e']? := by
  unfold end_setGroup
  cases f.ends[e]? with
  | none => rfl
  | some en => exact List.getElem?_set_ne (Ne.symm h)

theorem end_getGroup_setGroup_self (f : Flower) (e : Nat) (en : End) (g : Option Nat)
    (h : f.ends[e]? = some en) : end_getGroup (end_setGroup f e g) e = g := by
  unfold end_getGroup end_setGroup
  rw [h]
  simp only
  rw [List.getElem?_set_self (List.getElem?_eq_some_iff.mp h).1]
  rfl

theorem end_getGroup_setGroup_ne (f : Flower) (e e' : Nat) (g : Option Nat) (h : e' ≠ e) :
    end_getGroup (end_setGroup f e g) e' = end_getGroup f e' := by
  unfold end_getGroup
  rw [end_setGroup_ends_ne f e e' g h]

theorem end_setGroup_rest (f : Flower) (e : Nat) (g : Option Nat) :
    (end_setGroup f e g).blocks = f.blocks ∧ (end_setGroup f e g).groups = f.groups ∧
    (end_setGroup f e g).chains = f.chains ∧ (end_setGroup f e g).eventTree = f.eventTree ∧
    (end_setGroup f e g).parent = f.parent ∧ (end_setGroup f e g).nextName = f.nextName := by
  unfold end_setGroup
  cases f.ends[e]? <;> exact ⟨rfl, rfl, rfl, rfl, rfl, rfl⟩

theorem assignGroups_cons_ok (e : Nat) (rest : List Nat) (f g : Flower)
    (h : assignGroups (e :: rest) f = .ok () g) :
    ∃ cap adjacentCap adjacentEnd group : Nat, end_getInstanceIterator f e = [cap] ∧
      cap_getAdjacency f cap = some adjacentCap ∧ cap_getEnd f adjacentCap = some adjacentEnd ∧
      end_getGroup f adjacentEnd = some group ∧
      assignGroups rest (end_setGroup f e (some group)) = .ok () g := by
  unfold assignGroups at h
  split at h
  · rename_i cap hcap
    cases ha : (cap_getAdjacency f cap).bind (cap_getEnd f) with
    | none => simp [ha] at h
    | some adjacentEnd =>
      simp only [ha] at h
      obtain ⟨adjacentCap, a1, a2⟩ := Option.bind_eq_some.mp ha
      cases hg : end_getGroup f adjacentEnd with
      | none => simp [hg] at h
      | some group =>
        simp only [hg] at h
        exact ⟨cap, adjacentCap, adjacentEnd, group, hcap, a1, a2, hg, h⟩
  · exact Outcome.noConfusion h

theorem assignGroups_keeps (newEnds : List Nat) :
    ∀ f g : Flower, assignGroups newEnds f = .ok () g →
      g.caps = f.caps ∧ g.blocks = f.blocks ∧ g.groups = f.groups ∧ g.chains = f.chains ∧
      g.eventTree = f.eventTree ∧ g.parent = f.parent ∧ g.nextName = f.nextName ∧
      ∀ e, e ∉ newEnds → g.ends[e]? = f.ends[e]? := by
  induction newEnds with
  | nil =>
    intro f g h
    simp only [assignGroups, Outcome.ok.injEq, true_and] at h
    subst h
    exact ⟨rfl, rfl, rfl, rfl, rfl, rfl, rfl, fun _ _ => rfl⟩
  | cons e rest ih =>
    intro f g h
    obtain ⟨cap, adjacentCap, adjacentEnd, group, _, _, _, _, hrest⟩ :=
      assignGroups_cons_ok e rest f g h
    obtain ⟨k1, k2, k3, k4, k5, k6, k7, k8⟩ := ih _ g hrest
    obtain ⟨r2, r3, r4, r5, r6, r7⟩ := end_setGroup_rest f e (some group)
    refine ⟨by rw [k1, end_setGroup_caps], by rw [k2, r2], by rw [k3, r3], by rw [k4, r4],
      by rw [k5, r5], by rw [k6, r6], by rw [k7, r7], fun e' he' => ?_⟩
    rw [k8 e' (fun hm => he' (List.mem_cons_of_mem _ hm))]
    exact end_setGroup_ends_ne f e e' _ (fun hee => he' (hee ▸ List.mem_cons_self _ _))

theorem assignGroups_places (newEnds : List Nat) :
    ∀ f g : Flower, assignGroups newEnds f = .ok () g → newEnds.Nodup →
      (∀ e ∈ newEnds, ∃ en : End, f.ends[e]? = some en ∧ en.group = none) →
      ∀ e ∈ newEnds, ∃ cap adjacentCap adjacentEnd group : Nat,
        end_getInstanceIterator g e = [cap] ∧ cap_getAdjacency g cap = some adjacentCap ∧
        cap_getEnd g adjacentCap = some adjacentEnd ∧
        end_getGroup g adjacentEnd = some group ∧ end_getGroup g e = some group := by
  induction newEnds with
  | nil => intro f g _ _ _ e he; exact absurd he (List.not_mem_nil _)
  | cons e0 rest ih =>
    intro f g h hnd hnew e he
    obtain ⟨cap, adjacentCap, adjacentEnd, group, c1, c2, c3, c4, hrest⟩ :=
      assignGroups_cons_ok e0 rest f g h
    obtain ⟨hn0, hndr⟩ := List.nodup_cons.mp hnd
    have hkeep := assignGroups_keeps rest _ g hrest
    have hcaps : g.caps = f.caps := by rw [hkeep.1, end_setGroup_caps]
    have hgroup : ∀ x, x ∉ rest → end_getGroup g x =
        end_getGroup (end_setGroup f e0 (some group)) x := by
      intro x hx
      unfold end_getGroup
      rw [hkeep.2.2.2.2.2.2.2 x hx]
    rcases List.mem_cons.mp he with rfl | he
    · obtain ⟨en, hen, _⟩ := hnew e (List.mem_cons_self _ _)
      have hadj : adjacentEnd ∉ e :: rest := by
        intro hm
        obtain ⟨aen, haen, hag⟩ := hnew adjacentEnd hm
        unfold end_getGroup at c4
        rw [haen, Option.some_bind, hag] at c4
        exact Option.noConfusion c4
      refine ⟨cap, adjacentCap, adjacentEnd, group, ?_, ?_, ?_, ?_, ?_⟩
      · unfold end_getInstanceIterator at c1 ⊢
        rw [hcaps]; exact c1
      · unfold cap_getAdjacency at c2 ⊢
        rw [hcaps]; exact c2
      · unfold cap_getEnd at c3 ⊢
        rw [hcaps]; exact c3
      · rw [hgroup adjacentEnd (fun hm => hadj (List.mem_cons_of_mem _ hm)),
          end_getGroup_setGroup_ne f e adjacentEnd _
            (fun hee => hadj (hee ▸ List.mem_cons_self _ _))]
        exact c4
      · rw [hgroup e hn0]
        exact end_getGroup_setGroup_self f e en _ hen
    · refine ih _ g hrest hndr (fun x hx => ?_) e he
      obtain ⟨en, hen, hg⟩ := hnew x (List.mem_cons_of_mem _ hx)
      refine ⟨en, ?_, hg⟩
      rw [end_setGroup_ends_ne f e0 x _ (fun hxe => hn0 (hxe ▸ hx))]
      exact hen

theorem assignGroups_fails (newEnds : List Nat) :
    ∀ (f : Flower) (e cap adjacentCap adjacentEnd : Nat), e ∈ newEnds →
      end_getInstanceIterator f e = [cap] → cap_getAdjacency f cap = some adjacentCap →
      cap_getEnd f adjacentCap = some adjacentEnd → adjacentEnd ∉ newEnds →
      end_getGroup f adjacentEnd = none → (assignGroups newEnds f).isOk = false := by
  induction newEnds with
  | nil => intro f e _ _ _ he; exact absurd he (List.not_mem_nil _)
  | cons e0 rest ih =>
    intro f e cap adjacentCap adjacentEnd he c1 c2 c3 hno hg
    cases hres : assignGroups (e0 :: rest) f with
    | abort k => rfl
    | ok u g =>
      exfalso
      obtain ⟨cap0, adjacentCap0, adjacentEnd0, group0, d1, d2, d3, d4, hrest⟩ :=
        assignGroups_cons_ok e0 rest f g hres
      rcases List.mem_cons.mp he with rfl | he
      · rw [c1] at d1
        have hc := List.head_eq_of_cons_eq d1
        subst hc
        rw [c2] at d2
        have ha := Option.some.inj d2
        subst ha
        rw [c3] at d3
        have hb := Option.some.inj d3
        subst hb
        rw [hg] at d4
        exact Option.noConfusion d4
      · have hcaps := end_setGroup_caps f e0 (some group0)
        have := ih (end_setGroup f e0 (some group0)) e cap adjacentCap adjacentEnd he
          (by unfold end_getInstanceIterator at c1 ⊢; rw [hcaps]; exact c1)
          (by unfold cap_getAdjacency at c2 ⊢; rw [hcaps]; exact c2)
          (by unfold cap_getEnd at c3 ⊢; rw [hcaps]; exact c3)
          (fun hm => hno (List.mem_cons_of_mem _ hm))
          (by
            rw [end_getGroup_setGroup_ne f e0 adjacentEnd _
              (fun hee => hno (hee ▸ List.mem_cons_self _ _))]
            exact hg)
        rw [hrest] at this
        exact Bool.noConfusion this

/-- C24: when `assignGroups` succeeds on a list of different ends of the flower that have
no group, each of these ends has exactly one cap (so its cap for the reference event, if
it has one, is this cap), that cap has an adjacent cap, and the end is afterwards in the
group of the end of the adjacent cap; all other ends are as they
were, with the group they had, and so are the caps, blocks, groups and chains. And
`assignGroups` fails on a list with an end whose only cap is adjacent to a cap of an end
that has no group and is not in the list; it fails at the first end of the list when the
end of the cap adjacent to its cap has no group. -/
theorem assignGroups_places_new_ends (newEnds : List Nat) (f g : Flower)
    (h : assignGroups newEnds f = .ok () g) (hnd : newEnds.Nodup)
    (hnew : ∀ e ∈ newEnds, ∃ en : End, f.ends[e]? = some en ∧ en.group = none) :
    (∀ e ∈ newEnds, ∃ cap adjacentCap adjacentEnd group : Nat,
      end_getInstanceIterator g e = [cap] ∧
      (∀ (referenceEvent : Event) (c : Nat),
        getCapWithEvent g e referenceEvent = some c → c = cap) ∧
      cap_getAdjacency g cap = some adjacentCap ∧
      cap_getEnd g adjacentCap = some adjacentEnd ∧
      end_getGroup g adjacentEnd = some group ∧ end_getGroup g e = some group) ∧
    (∀ e, e ∉ newEnds → g.ends[e]? = f.ends[e]?) ∧
    (g.caps = f.caps ∧ g.blocks = f.blocks ∧ g.groups = f.groups ∧ g.chains = f.chains) ∧
    (∀ (k : Flower) (ends : List Nat) (e cap adjacentCap adjacentEnd : Nat), e ∈ ends →
      end_getInstanceIterator k e = [cap] → cap_getAdjacency k cap = some adjacentCap →
      cap_getEnd k adjacentCap = some adjacentEnd → adjacentEnd ∉ ends →
      end_getGroup k adjacentEnd = none → (assignGroups ends k).isOk = false) ∧
    (∀ (k : Flower) (rest : List Nat) (e cap adjacentCap adjacentEnd : Nat),
      end_getInstanceIterator k e = [cap] → cap_getAdjacency k cap = some adjacentCap →
      cap_getEnd k adjacentCap = some adjacentEnd →
      end_getGroup k adjacentEnd = none → (assignGroups (e :: rest) k).isOk = false) := by
  obtain ⟨k1, k2, k3, k4, _, _, _, k8⟩ := assignGroups_keeps newEnds f g h
  refine ⟨fun e he => ?_, k8, ⟨k1, k2, k3, k4⟩,
    fun k ends e cap adjacentCap adjacentEnd he c1 c2 c3 hno hg =>
      assignGroups_fails ends k e cap adjacentCap adjacentEnd he c1 c2 c3 hno hg,
    fun k rest e cap adjacentCap adjacentEnd c1 c2 c3 hg => ?_⟩
  · obtain ⟨cap, adjacentCap, adjacentEnd, group, p1, p2, p3, p4, p5⟩ :=
      assignGroups_places newEnds f g h hnd hnew e he
    refine ⟨cap, adjacentCap, adjacentEnd, group, p1, fun referenceEvent c hc => ?_, p2, p3, p4,
      p5⟩
    unfold getCapWithEvent at hc
    have hm := List.mem_of_find?_eq_some hc
    rw [p1] at hm
    exact List.mem_singleton.mp hm
  cases hres : assignGroups (e :: rest) k with
  | abort _ => rfl
  | ok u g' =>
    exfalso
    obtain ⟨cap0, adjacentCap0, adjacentEnd0, group0, d1, d2, d3, d4, _⟩ :=
      assignGroups_cons_ok e rest k g' hres
    rw [c1] at d1
    have hc := List.head_eq_of_cons_eq d1
    subst hc
    rw [c2] at d2
    have ha := Option.some.inj d2
    subst ha
    rw [c3] at d3
    have hb := Option.some.inj d3
    subst hb
    rw [hg] at d4
    exact Option.noConfusion d4

/-- Witness of C24: the imported ends 2 and 3 of `importedEndsFlower` are put into group
0, the group of the ends their caps are adjacent to; in `ungroupedPairFlower` the cap of
the imported end 2 is adjacent to the cap of the imported end 3, which has no group, and
the operation fails. -/
theorem assignGroups_places_new_ends_witness :
    (∃ cap adjacentCap adjacentEnd group : Nat,
      end_getInstanceIterator (assignGroups [2, 3] importedEndsFlower).flower 2 = [cap] ∧
      (∀ (referenceEvent : Event) (c : Nat),
        getCapWithEvent (assignGroups [2, 3] importedEndsFlower).flower 2 referenceEvent =
          some c → c = cap) ∧
      cap_getAdjacency (assignGroups [2, 3] importedEndsFlower).flower cap =
        some adjacentCap ∧
      cap_getEnd (assignGroups [2, 3] importedEndsFlower).flower adjacentCap =
        some adjacentEnd ∧
      end_getGroup (assignGroups [2, 3] importedEndsFlower).flower adjacentEnd = some group ∧
      end_getGroup (assignGroups [2, 3] importedEndsFlower).flower 2 = some group) ∧
    end_getGroup importedEndsFlower 2 = none ∧
    end_getGroup (assignGroups [2, 3] importedEndsFlower).flower 2 = some 0 ∧
    end_getGroup (assignGroups [2, 3] importedEndsFlower).flower 3 = some 0 ∧
    (assignGroups [2, 3] ungroupedPairFlower).isOk = false :=
  ⟨(assignGroups_places_new_ends [2, 3] importedEndsFlower
      (assignGroups [2, 3] importedEndsFlower).flower (by decide) (by decide)
      (fun e he => by
        rcases List.mem_cons.mp he with rfl | he
        · exact ⟨importedStub 3 true, rfl, rfl⟩
        · rw [List.mem_singleton.mp he]
          exact ⟨importedStub 4 false, rfl, rfl⟩)).1 2 (by decide),
    by decide, by decide, by decide, by decide⟩

/-! ### `getReferenceEvent` -/

theorem getEventByHeader_header (eventTree : EventTree) (eventHeader : String) (event : Event)
    (h : getEventByHeader eventTree eventHeader = some event) : event.header = eventHeader := by
  unfold getEventByHeader at h
  have := List.find?_some h
  simpa using this

theorem getEventByHeader_append (eventTree : EventTree) (event : Event)
    (h : getEventByHeader eventTree event.header = none) :
    getEventByHeader { eventTree with events := eventTree.events ++ [event] } event.header =
      some event := by
  unfold getEventByHeader at h ⊢
  simp only [List.find?_append, h, Option.none_or]
  simp [List.find?_cons]

theorem getReferenceEvent_found (f : Flower) (referenceEventHeader : String) (event : Event)
    (h : getEventByHeader f.eventTree referenceEventHeader = some event) :
    getReferenceEvent f referenceEventHeader = .ok event f := by
  unfold getReferenceEvent
  rw [h]

theorem getReferenceEvent_root (f : Flower) (referenceEventHeader : String)
    (h : getEventByHeader f.eventTree referenceEventHeader = none) (hp : f.parent = none) :
    getReferenceEvent f referenceEventHeader =
      .ok { name := f.nextName, header := referenceEventHeader, branchLength := INT32_MAX,
            parent := some f.eventTree.rootEvent }
        { f with
          eventTree := { f.eventTree with events := f.eventTree.events ++
            [{ name := f.nextName, header := referenceEventHeader, branchLength := INT32_MAX,
               parent := some f.eventTree.rootEvent }] },
          nextName := f.nextName + 1 } := by
  unfold getReferenceEvent
  rw [h]
  simp only [hp]
  rfl

theorem getReferenceEvent_child (f : Flower) (referenceEventHeader : String)
    (parentGroup : ParentGroup) (parentEvent : Event)
    (h : getEventByHeader f.eventTree referenceEventHeader = none)
    (hp : f.parent = some parentGroup)
    (he : getEventByHeader parentGroup.eventTree referenceEventHeader = some parentEvent) :
    getReferenceEvent f referenceEventHeader =
      .ok { name := parentEvent.name, header := referenceEventHeader,
            branchLength := INT32_MAX, parent := some f.eventTree.rootEvent }
        { f with
          eventTree := { f.eventTree with events := f.eventTree.events ++
            [{ name := parentEvent.name, header := referenceEventHeader,
               branchLength := INT32_MAX, parent := some f.eventTree.rootEvent }] } } := by
  unfold getReferenceEvent
  rw [h]
  simp only [hp, he]
  rw [← hp]
  rfl

theorem getReferenceEvent_orphan (f : Flower) (referenceEventHeader : String)
    (parentGroup : ParentGroup)
    (h : getEventByHeader f.eventTree referenceEventHeader = none)
    (hp : f.parent = some parentGroup)
    (he : getEventByHeader parentGroup.eventTree referenceEventHeader = none) :
    getReferenceEvent f referenceEventHeader = .abort f := by
  unfold getReferenceEvent
  rw [h]
  simp only [hp, he]

theorem getReferenceEvent_twice (f g : Flower) (referenceEventHeader : String) (event : Event)
    (h : getReferenceEvent f referenceEventHeader = .ok event g) :
    getReferenceEvent g referenceEventHeader = .ok event g ∧
    event.header = referenceEventHeader ∧
    (g.eventTree.events = f.eventTree.events ∨
      g.eventTree.events = f.eventTree.events ++ [event]) := by
  cases hf : getEventByHeader f.eventTree referenceEventHeader with
  | some found =>
    rw [getReferenceEvent_found f _ found hf, Outcome.ok.injEq] at h
    obtain ⟨rfl, rfl⟩ := h
    exact ⟨getReferenceEvent_found f _ found hf, getEventByHeader_header _ _ _ hf, Or.inl rfl⟩
  | none =>
    cases hp : f.parent with
    | none =>
      rw [getReferenceEvent_root f _ hf hp, Outcome.ok.injEq] at h
      obtain ⟨rfl, rfl⟩ := h
      exact ⟨getReferenceEvent_found _ _ _ (getEventByHeader_append f.eventTree _ hf), rfl,
        Or.inr rfl⟩
    | some parentGroup =>
      cases he : getEventByHeader parentGroup.eventTree referenceEventHeader with
      | none =>
        rw [getReferenceEvent_orphan f _ parentGroup hf hp he] at h
        exact Outcome.noConfusion h
      | some parentEvent =>
        rw [getReferenceEvent_child f _ parentGroup parentEvent hf hp he, Outcome.ok.injEq] at h
        obtain ⟨rfl, rfl⟩ := h
        exact ⟨getReferenceEvent_found _ _ _ (getEventByHeader_append f.eventTree _ hf), rfl,
          Or.inr rfl⟩

/-- C25, as the code has it: `getReferenceEvent` returns the first event of the event
tree of the flower with the reference header when there is one, and leaves the flower as
it is; a second call on the flower that a successful call leaves returns the same event
and leaves the flower as it is, so at most one event is created. When the event tree has
no such event and the flower has a parent group, the new event takes the name of the
event with the reference header of the event tree of the parent, and its parent event is
the root event of the event tree of the flower itself; the operation fails when the event
tree of the parent has no event with the header. At the root the new event has a new name
and the root event as its parent event. -/
theorem getReferenceEvent_get_or_create (f : Flower) (referenceEventHeader : String) :
    (∀ event, getEventByHeader f.eventTree referenceEventHeader = some event →
      getReferenceEvent f referenceEventHeader = .ok event f) ∧
    (∀ event g, getReferenceEvent f referenceEventHeader = .ok event g →
      getReferenceEvent g referenceEventHeader = .ok event g ∧
      event.header = referenceEventHeader ∧
      (g.eventTree.events = f.eventTree.events ∨
        g.eventTree.events = f.eventTree.events ++ [event])) ∧
    (∀ parentGroup parentEvent,
      getEventByHeader f.eventTree referenceEventHeader = none →
      f.parent = some parentGroup →
      getEventByHeader parentGroup.eventTree referenceEventHeader = some parentEvent →
      getReferenceEvent f referenceEventHeader =
        .ok { name := parentEvent.name, header := referenceEventHeader,
              branchLength := INT32_MAX, parent := some f.eventTree.rootEvent }
          { f with
            eventTree := { f.eventTree with events := f.eventTree.events ++
              [{ name := parentEvent.name, header := referenceEventHeader,
                 branchLength := INT32_MAX, parent := some f.eventTree.rootEvent }] } }) ∧
    (∀ parentGroup,
      getEventByHeader f.eventTree referenceEventHeader = none →
      f.parent = some parentGroup →
      getEventByHeader parentGroup.eventTree referenceEventHeader = none →
      getReferenceEvent f referenceEventHeader = .abort f) ∧
    (getEventByHeader f.eventTree referenceEventHeader = none → f.parent = none →
      getReferenceEvent f referenceEventHeader =
        .ok { name := f.nextName, header := referenceEventHeader, branchLength := INT32_MAX,
              parent := some f.eventTree.rootEvent }
          { f with
            eventTree := { f.eventTree with events := f.eventTree.events ++
              [{ name := f.nextName, header := referenceEventHeader,
                 branchLength := INT32_MAX, parent := some f.eventTree.rootEvent }] },
            nextName := f.nextName + 1 }) :=
  ⟨fun event h => getReferenceEvent_found f _ event h,
    fun event g h => getReferenceEvent_twice f g _ event h,
    fun parentGroup parentEvent h hp he => getReferenceEvent_child f _ parentGroup parentEvent h
      hp he,
    fun parentGroup h hp he => getReferenceEvent_orphan f _ parentGroup h hp he,
    fun h hp => getReferenceEvent_root f _ h hp⟩

/-- C25 does not hold as stated: the event tree of `importFlower` has no event with the
header `reference`, and the event tree of its parent has one, of name 8. The event that
`getReferenceEvent` creates has the name 8, and its parent event is the event 0, the
root event of the event tree of the flower, not the event 8 of the level above. -/
theorem getReferenceEvent_parents_to_root :
    getEventByHeader importFlower.eventTree "reference" = none ∧
    importFlower.parent.bind (fun p => getEventByHeader p.eventTree "reference") =
      some { name := 8, header := "reference", branchLength := INT32_MAX, parent := some 0 } ∧
    importFlower.eventTree.rootEvent = 0 ∧
    (∃ g, getReferenceEvent importFlower "reference" =
      .ok { name := 8, header := "reference", branchLength := INT32_MAX, parent := some 0 } g) ∧
    (some 0 : Option Nat) ≠ some 8 := by
  refine ⟨by decide, by decide, rfl, ⟨_, rfl⟩, by decide⟩

/-! ### Stub edges read from the parent cannot be committed -/

theorem getAdjacentEndFromParent_resolved (f : Flower) (e y : Nat) (referenceEvent : Event)
    (h : getAdjacentEndFromParent f e referenceEvent = some y) :
    ∃ c x : Nat, getCapWithEvent f e referenceEvent = some c ∧
      cap_getAdjacency f c = some x := by
  unfold getAdjacentEndFromParent at h
  split at h
  · split at h
    · exact Option.noConfusion h
    · split at h
      · exact Option.noConfusion h
      · rename_i cap hcap
        split at h
        · exact Option.noConfusion h
        · rename_i adjacentCap hadj
          exact ⟨cap, adjacentCap, hcap, hadj⟩
  · exact Option.noConfusion h

theorem getStubEdgesFromParent_loop_edges (f : Flower) (endsToNodes : stHash)
    (referenceEvent : Event) (rest : List Nat) :
    ∀ (endsSeen : List Nat) (stubEdges result : List stIntTuple),
      getStubEdgesFromParent_loop f endsToNodes referenceEvent rest endsSeen stubEdges =
        some result →
      ∀ edge ∈ result, edge ∈ stubEdges ∨ ∃ e p : Nat,
        getAdjacentEndFromParent f e referenceEvent = some p ∧
        getEdge e p endsToNodes = some edge := by
  induction rest with
  | nil =>
    intro endsSeen stubEdges result h edge he
    simp only [getStubEdgesFromParent_loop, Option.some.injEq] at h
    subst h
    exact Or.inl he
  | cons e rest ih =>
    intro endsSeen stubEdges result h edge he
    unfold getStubEdgesFromParent_loop at h
    cases hen : f.ends[e]? with
    | none => simp [hen] at h
    | some en =>
      simp only [hen] at h
      split at h
      · cases hadj : getAdjacentEndFromParent f e referenceEvent with
        | none => simp [hadj] at h
        | some adjacentEnd =>
          simp only [hadj] at h
          split at h
          · cases hedge : getEdge e adjacentEnd endsToNodes with
            | none => simp [hedge] at h
            | some new =>
              simp only [hedge] at h
              rcases ih _ _ _ h edge he with hm | hm
              · rcases List.mem_append.mp hm with hm | hm
                · exact Or.inl hm
                · rw [List.mem_singleton.mp hm]
                  exact Or.inr ⟨e, adjacentEnd, hadj, hedge⟩
              · exact Or.inr hm
          · exact Option.noConfusion h
      · exact ih _ _ _ h edge he

theorem getEndFromNode_of_search (f : Flower) (e v : Nat)
    (h : stHash_search (getMapOfTangleEndsToNodes f) e = some v) :
    getEndFromNode (getMapOfNodesToTangleEnds (getMapOfTangleEndsToNodes f)) v = some e :=
  (getEndFromNode_nodesToEnds f e v).mpr ((stHash_search_endsToNodes f e v).mp h)

theorem edgeHasNode_getEdge2 (a b : Nat) : edgeHasNode (getEdge2 a b) a := by
  unfold getEdge2
  split
  · exact (edgeHasNode_pair a b a).mpr (List.mem_cons_self _ _)
  · exact (edgeHasNode_pair b a a).mpr (List.mem_cons_of_mem _ (List.mem_cons_self _ _))

theorem getStubEdgesFromParent_edge_resolved (f : Flower) (referenceEvent : Event)
    (stubEdges : List stIntTuple) (edge : stIntTuple)
    (h : getStubEdgesFromParent f (getMapOfTangleEndsToNodes f) referenceEvent =
      some stubEdges)
    (he : edge ∈ stubEdges) :
    ∃ node : Nat, edgeHasNode edge node ∧
      nodeIsResolved f (getMapOfNodesToTangleEnds (getMapOfTangleEndsToNodes f)) referenceEvent
        node := by
  rcases getStubEdgesFromParent_loop_edges f _ referenceEvent _ _ _ _ h edge he with
    hm | ⟨e, p, hadj, hedge⟩
  · exact absurd hm (List.not_mem_nil _)
  · obtain ⟨node1, node2, s1, _, rfl⟩ := (getEdge_eq_some _ _ _ _).mp hedge
    obtain ⟨c, x, hc, hx⟩ := getAdjacentEndFromParent_resolved f e p referenceEvent hadj
    exact ⟨node1, edgeHasNode_getEdge2 node1 node2, e, c, x, getEndFromNode_of_search f e node1 s1,
      hc, hx⟩

theorem getStubEdgesFromParent_ne_nil (f : Flower) (referenceEvent : Event)
    (stubEdges : List stIntTuple)
    (h : getStubEdgesFromParent f (getMapOfTangleEndsToNodes f) referenceEvent =
      some stubEdges)
    (hstub : ∃ (e : Nat) (en : End), f.ends[e]? = some en ∧ en.isAttached = true ∧
      en.isBlockEnd = false) :
    ∃ edge, edge ∈ stubEdges := by
  obtain ⟨e, en, hen, hat, hst⟩ := hstub
  obtain ⟨p, node, nodeP, _, _, _, _, hm⟩ :=
    getStubEdgesFromParent_partner f referenceEvent stubEdges e en h hen hat hst
  exact ⟨_, hm⟩

theorem buildReferenceTopDown_core_fails (chooseMatching : MatchingStrategy)
    (referenceEvent : Event) (newEnds : List Nat) (f : Flower)
    (hhon : honoursStubEdges chooseMatching) (hp : f.parent.isSome = true)
    (hstub : ∃ (e : Nat) (en : End), f.ends[e]? = some en ∧ en.isAttached = true ∧
      en.isBlockEnd = false) :
    (buildReferenceTopDown_core chooseMatching referenceEvent newEnds f).isOk = false := by
  unfold buildReferenceTopDown_core
  simp only
  split
  · split
    · rfl
    · split
      · rfl
      · rename_i stubEdges hse
        obtain ⟨edge, hedge⟩ := getStubEdgesFromParent_ne_nil f referenceEvent stubEdges hse hstub
        obtain ⟨node, hn, hr⟩ :=
          getStubEdgesFromParent_edge_resolved f referenceEvent stubEdges edge hse hedge
        split
        · rfl
        · split
          · rfl
          · rename_i chosen hcm
            have hch : edge ∈ chosen := hhon _ _ _ _ _ _ hcm edge hedge
            have hb := addBridgeBlocks_grows
              (getMapOfNodesToTangleEnds (getMapOfTangleEndsToNodes f)) chosen f
            split
            · rfl
            · rename_i u f1 hf1
              rw [hf1] at hb
              split
              · rfl
              · rename_i linkEdges _
                have hfail := addAdjacenciesAndSegments_resolved
                  (getMapOfNodesToTangleEnds (getMapOfTangleEndsToNodes f)) referenceEvent
                  (chosen ++ linkEdges) f1 edge node (List.mem_append_left _ hch) hn
                  (nodeIsResolved_of_grows hb _ _ _ hr)
                split
                · rfl
                · rename_i u2 f2 hf2
                  rw [hf2] at hfail
                  exact Bool.noConfusion hfail
  · rfl

/-- C27: `buildReferenceTopDown` with a matching strategy that honours the forced stub
edges does not complete on a flower that has a parent group and an attached stub end.
When `getStubEdgesFromParent` succeeds, an end of each stub edge has a cap for the
reference event that carries an adjacency, the one `getAdjacentEndFromParent` has read;
`makeCapWithEvent` returns this cap, so in every flower that keeps these caps
`addAdjacenciesAndSegments` fails at the stub edge, and on every chosen edge list that
contains it. -/
theorem buildReferenceTopDown_fails_below_root (chooseMatching : MatchingStrategy)
    (referenceEventHeader : String) (f : Flower)
    (hhon : honoursStubEdges chooseMatching) (hp : f.parent.isSome = true)
    (hstub : ∃ (e : Nat) (en : End), f.ends[e]? = some en ∧ en.isAttached = true ∧
      en.isBlockEnd = false) :
    (buildReferenceTopDown chooseMatching referenceEventHeader f).isOk = false ∧
    ∀ (referenceEvent : Event) (stubEdges chosen : List stIntTuple) (edge : stIntTuple)
      (k : Flower),
      getStubEdgesFromParent f (getMapOfTangleEndsToNodes f) referenceEvent = some stubEdges →
      edge ∈ stubEdges → edge ∈ chosen → Grows f k →
      (∃ node : Nat, edgeHasNode edge node ∧
        nodeIsResolved k (getMapOfNodesToTangleEnds (getMapOfTangleEndsToNodes f))
          referenceEvent node) ∧
      (addAdjacenciesAndSegments_step (getMapOfNodesToTangleEnds (getMapOfTangleEndsToNodes f))
        referenceEvent k edge).isOk = false ∧
      (addAdjacenciesAndSegments (getMapOfNodesToTangleEnds (getMapOfTangleEndsToNodes f))
        referenceEvent chosen k).isOk = false := by
  constructor
  · unfold buildReferenceTopDown
    have h1 := getReferenceEvent_grows f referenceEventHeader
    cases hr : getReferenceEvent f referenceEventHeader with
    | abort f1 => rfl
    | ok referenceEvent f1 =>
      rw [hr] at h1
      dsimp only
      have h2 := getExtraAttachedStubsFromParent_grows f1
      cases he : getExtraAttachedStubsFromParent f1 with
      | abort f2 => rfl
      | ok newEnds f2 =>
        rw [he] at h2
        dsimp only
        have hg : Grows f (addLinkBreakingBlocks f2) :=
          h1.trans (h2.trans (addLinkBreakingBlocks_grows f2))
        refine buildReferenceTopDown_core_fails chooseMatching referenceEvent newEnds _ hhon
          (by rw [hg.2.2.2.2.2.1]; exact hp) ?_
        obtain ⟨e, en, hen, hat, hst⟩ := hstub
        obtain ⟨en', q1, _, q3, q4, _⟩ := hg.1 e en hen
        exact ⟨e, en', q1, by rw [q4]; exact hat, by rw [q3]; exact hst⟩
  · intro referenceEvent stubEdges chosen edge k hse hedge hch hg
    obtain ⟨node, hn, hr⟩ :=
      getStubEdgesFromParent_edge_resolved f referenceEvent stubEdges edge hse hedge
    have hr' := nodeIsResolved_of_grows hg _ _ _ hr
    exact ⟨⟨node, hn, hr'⟩,
      addAdjacenciesAndSegments_step_resolved _ referenceEvent k edge node hn hr',
      addAdjacenciesAndSegments_resolved _ referenceEvent chosen k edge node hch hn hr'⟩

theorem forcedEdgesMatching_honours : honoursStubEdges forcedEdgesMatching := by
  intro nodeNumber adjacencyEdges stubEdges chainEdges chosen isRoot h edge he
  unfold forcedEdgesMatching at h
  split at h
  · rw [← Option.some.inj h]
    exact List.mem_append_right _ he
  · exact Option.noConfusion h

/-- Witness of C27: scenario B, whose stub edges `[0, 2]` and `[1, 3]` are read from the
adjacencies of the caps for the reference event; the strategy chooses them, and the run
ends in `addAdjacenciesAndSegments`. -/
theorem buildReferenceTopDown_fails_below_root_witness :
    (buildReferenceTopDown forcedEdgesMatching "reference" scenarioB).isOk = false ∧
    getStubEdgesFromParent scenarioB (getMapOfTangleEndsToNodes scenarioB) exampleEvent =
      some [[0, 2], [1, 3]] ∧
    forcedEdgesMatching 4 [] [[0, 2], [1, 3]] [] false = some [[0, 2], [1, 3]] ∧
    (addAdjacenciesAndSegments_step
      (getMapOfNodesToTangleEnds (getMapOfTangleEndsToNodes scenarioB)) exampleEvent scenarioB
      [0, 2]).isOk = false :=
  ⟨(buildReferenceTopDown_fails_below_root forcedEdgesMatching "reference" scenarioB
      forcedEdgesMatching_honours (by decide)
      ⟨0, attachedStub 1 true 0, rfl, rfl, rfl⟩).1,
    by decide, by decide, by decide⟩

/-! ### What an aborted run leaves -/

theorem two_le_length_of_mem {l : List Nat} {a b : Nat} (ha : a ∈ l) (hb : b ∈ l)
    (hab : a ≠ b) : 2 ≤ l.length := by
  have hsub : [a, b] ⊆ l := by
    intro x hx
    rcases List.mem_cons.mp hx with rfl | hx
    · exact ha
    · rw [List.mem_singleton.mp hx]; exact hb
  have hnd : [a, b].Nodup := by simp [hab]
  exact (List.subperm_of_subset hnd hsub).length_le

theorem mem_group_getEndIterator (f : Flower) (g e : Nat) (h : end_getGroup f e = some g) :
    e ∈ group_getEndIterator f g := by
  unfold group_getEndIterator
  rw [List.mem_filter, List.mem_range]
  refine ⟨?_, by simp [h]⟩
  unfold end_getGroup at h
  cases he : f.ends[e]? with
  | none => simp [he] at h
  | some en => exact (List.getElem?_eq_some_iff.mp he).1

theorem group_getEndNumber_link (f : Flower) (hlink : linkGroupsHoldTheirLinks f) (g : Nat)
    (hg : g < f.groups.length) (hnt : ¬ isTangleGroup f g) : 2 ≤ group_getEndNumber f g := by
  unfold isTangleGroup at hnt
  rw [List.getElem?_eq_getElem hg] at hnt
  cases hl : (f.groups[g]).link with
  | none => simp [group_isTangle, hl] at hnt
  | some link =>
    have hmem : g ∈ flower_getGroupIterator f := List.mem_range.mpr hg
    obtain ⟨h5, h3, hne⟩ := hlink g hmem link (by
      rw [List.getElem?_eq_getElem hg]
      exact hl)
    unfold group_getEndNumber
    exact two_le_length_of_mem
      (mem_group_getEndIterator f g _ h5) (mem_group_getEndIterator f g _ h3) hne

/-- C12: in a flower whose groups are all non-empty and whose link groups hold the two
ends of their link, after `addLinkBreakingBlocks` every tangle group has at least two
ends; every group that had exactly one end has at least two, in fact three, and it was a
tangle group; and every group that did not have exactly one end keeps exactly the ends it
had. The groups are the same groups, and every group that is not a tangle group with
exactly one end keeps its ends. -/
theorem addLinkBreakingBlocks_tangle_groups (f : Flower)
    (hne : ∀ g, g < f.groups.length → group_getEndNumber f g ≠ 0)
    (hlink : linkGroupsHoldTheirLinks f) :
    (addLinkBreakingBlocks f).groups = f.groups ∧
    (∀ g, isTangleGroup f g → 2 ≤ group_getEndNumber (addLinkBreakingBlocks f) g) ∧
    (∀ g, g < f.groups.length → group_getEndNumber f g = 1 →
      isTangleGroup f g ∧ group_getEndNumber (addLinkBreakingBlocks f) g = 3 ∧
      2 ≤ group_getEndNumber (addLinkBreakingBlocks f) g) ∧
    (∀ g, group_getEndNumber f g ≠ 1 →
      group_getEndIterator (addLinkBreakingBlocks f) g = group_getEndIterator f g) ∧
    (∀ g, isTangleGroup f g → group_getEndNumber f g = 1 →
      group_getEndNumber (addLinkBreakingBlocks f) g = 3) ∧
    (∀ g, ¬ (isTangleGroup f g ∧ group_getEndNumber f g = 1) →
      group_getEndIterator (addLinkBreakingBlocks f) g = group_getEndIterator f g) := by
  obtain ⟨h1, h2⟩ := addLinkBreakingBlocks_spec f
  have h3 : ∀ g, isTangleGroup f g → group_getEndNumber f g = 1 →
      group_getEndNumber (addLinkBreakingBlocks f) g = 3 := by
    intro g ht hn
    obtain ⟨b, i, blk, _, _, _, _, _, hit⟩ := (h2 g).1 ⟨ht, hn⟩
    unfold group_getEndNumber at hn ⊢
    rw [hit, List.length_append, hn]
    rfl
  refine ⟨h1.2.2.2.1, fun g ht => ?_, fun g hg hn => ?_, fun g hn => (h2 g).2 (fun hc => hn hc.2),
    h3, fun g h => (h2 g).2 h⟩
  · by_cases hn : group_getEndNumber f g = 1
    · rw [h3 g ht hn]
      omega
    · have hlt : g < f.groups.length := by
        unfold isTangleGroup at ht
        cases hg : f.groups[g]? with
        | none => simp [hg] at ht
        | some grp => exact (List.getElem?_eq_some_iff.mp hg).1
      have := hne g hlt
      unfold group_getEndNumber at hn this ⊢
      rw [(h2 g).2 (fun hc => hn hc.2)]
      omega
  · have ht : isTangleGroup f g := by
      by_contra hnt
      have := group_getEndNumber_link f hlink g hg hnt
      omega
    exact ⟨ht, h3 g ht hn, by rw [h3 g ht hn]; omega⟩

/-- Witness of C12: the flower with two tangle groups of one end each and two link
groups; each tangle group has three ends afterwards, and the link groups keep their two
ends. -/
theorem addLinkBreakingBlocks_tangle_groups_witness :
    (group_getEndNumber singleEndGroupsFlower 0 = 1 ∧
      isTangleGroup singleEndGroupsFlower 0 ∧
      group_getEndNumber (addLinkBreakingBlocks singleEndGroupsFlower) 0 = 3 ∧
      2 ≤ group_getEndNumber (addLinkBreakingBlocks singleEndGroupsFlower) 0) ∧
    group_getEndIterator (addLinkBreakingBlocks singleEndGroupsFlower) 1 = [2, 3] :=
  ⟨⟨by decide, (addLinkBreakingBlocks_tangle_groups singleEndGroupsFlower (by decide)
      (by decide)).2.2.1 0 (by decide) (by decide)⟩,
    by
      have h := (addLinkBreakingBlocks_tangle_groups singleEndGroupsFlower (by decide)
        (by decide)).2.2.2.1 1 (by decide)
      rw [h]
      decide⟩

/-! ### Chains bounded by blocks, and stub edges that cannot be committed -/

/-- C19 (code at the failing input): in `boundedChainFlower` each link group holds the two
ends of its link, and the chain is bounded by two blocks; the first block has its 5' end
in the tangle group and its 3' end in the link group of the chain, as a block at the
boundary of a chain has. `getNonTrivialChainEdges` takes the outward-facing ends of these
blocks, which it requires to be tangle ends, and appends the edge `[0, 1]`.
`getTrivialChainEdges` then fails at the first block, which does not have both ends in
tangle groups: its 5' end is in a tangle group and its 3' end is not. So `getChainEdges`
fails on this flower, and `buildReferenceTopDown`, whose steps before `getChainEdges`
succeed, does not complete. The same holds at the block of `chainStartFlower`, which
starts a chain. -/
theorem getTrivialChainEdges_fails_on_boundary_block :
    linkGroupsHoldTheirLinks boundedChainFlower ∧
    boundedChainFlower.blocks[0]? =
      some { name := 7, length := 1, end5 := 0, end3 := 1, segments := [] } ∧
    end_groupIsTangle boundedChainFlower 0 = some true ∧
    end_groupIsTangle boundedChainFlower 1 = some false ∧
    end_groupIsLink boundedChainFlower 1 = some true ∧
    getNonTrivialChainEdges boundedChainFlower (getMapOfTangleEndsToNodes boundedChainFlower)
      [] = some [[0, 1]] ∧
    getTrivialChainEdges boundedChainFlower (getMapOfTangleEndsToNodes boundedChainFlower)
      [[0, 1]] = none ∧
    getChainEdges boundedChainFlower (getMapOfTangleEndsToNodes boundedChainFlower) = none ∧
    (getExtraAttachedStubsFromParent
      (getReferenceEvent boundedChainFlower "reference").flower).isOk = true ∧
    stHash_size (getMapOfTangleEndsToNodes boundedChainFlower) = 4 ∧
    (buildReferenceTopDown forcedEdgesMatching "reference" boundedChainFlower).isOk = false ∧
    linkGroupsHoldTheirLinks chainStartFlower ∧
    getTrivialChainEdges chainStartFlower (getMapOfTangleEndsToNodes chainStartFlower) [] =
      none := by
  decide

end BuildReference
